import Mathlib

/-!
# Knut `CppDocument`: block matching, header/source resolution, forward declarations
and the include helper

A shallow embedding of `src/core/cppdocument.cpp` and of the declarations of
`src/core/cppdocument_p.h`.

* Text and paths (`QString`) are lists of characters.
* Positions are `Int`.  The index of the loop of `moveBlock` is a C++ `int`: every
  `pos += inc` is taken modulo `2 ^ 32` in two's complement (`wrapInt`), so an index that
  is stepped past the end of the document or below `0` comes back from the other side.
* The `while (pos != lastPos)` loop of `moveBlock` is embedded with fuel: the
  result is `none` when the fuel is used up.  `moveBlock` has the fuel `2 ^ 32 + 1`, which
  is enough for every text whose positions are `int`s (`moveBlock_total`).
* The searches of `QTextDocument` that `insertForwardDeclaration` uses are parameters.
* The bodies of the functions of `IncludeHelper` are not part of the sources at hand:
  they are modelled from the specification, and what it leaves open is a parameter.
-/

namespace Knut

/-! ## The text document (`QTextDocument`) -/

/-- The two values of `QTextCursor::MoveOperation` that `moveBlock` accepts. -/
inductive MoveOperation where
  | NextCharacter
  | PreviousCharacter
  deriving DecidableEq, Repr

open MoveOperation

/-- The value of a default constructed `QChar`. -/
def nullChar : Char := Char.ofNat 0

/-- The value of `QChar::ParagraphSeparator`, which ends every `QTextDocument`. -/
def paragraphSeparator : Char := Char.ofNat 0x2029

/-- The Qt function `QTextDocument::characterCount()`: the characters of the text and the final
paragraph separator. -/
def characterCount (text : List Char) : Int := (text.length : Int) + 1

/-- The Qt function `QTextDocument::characterAt(pos)`: the null character when `pos` is out of
range, the final paragraph separator at the last position. (Qt also stores the line breaks
of the text as paragraph separators; neither character is a delimiter.) -/
def characterAt (text : List Char) (pos : Int) : Char :=
  if pos < 0 ∨ pos ≥ characterCount text then nullChar
  else text.getD pos.toNat paragraphSeparator

/-! ## `CppDocument::moveBlock` -/

/-- The local `inc` of `moveBlock`. -/
def inc (direction : MoveOperation) : Int :=
  if direction = NextCharacter then 1 else -1

/-- The local `lastPos` of `moveBlock`. -/
def lastPos (text : List Char) (direction : MoveOperation) : Int :=
  if direction = NextCharacter then characterCount text - 1 else 0

/-- The local `incCounterChar` of `moveBlock`. -/
def incCounterChar (direction : MoveOperation) : List Char :=
  if direction = NextCharacter then ['(', '{', '['] else [')', '}', ']']

/-- The local `decCounterChar` of `moveBlock`. -/
def decCounterChar (direction : MoveOperation) : List Char :=
  if direction = PreviousCharacter then ['(', '{', '['] else [')', '}', ']']

/-- The value of an `int` after an addition: the sum taken modulo `2 ^ 32` in two's
complement, so that one step past `INT_MAX` = 2147483647 is `INT_MIN` = -2147483648 and one
step below `INT_MIN` is `INT_MAX`. -/
def wrapInt (x : Int) : Int := (x + 2147483648) % 4294967296 - 2147483648

/-- The `while (pos != lastPos)` loop of `moveBlock`, entered with the index `pos` and the
counter `counter`. The index is an `int`: each `pos += inc` wraps round. One unit of fuel is
used by each test of the loop condition. -/
def moveBlockLoop (text : List Char) (direction : MoveOperation) (startPos : Int) :
    Nat → Int → Int → Option Int
  | 0, _, _ => none
  | fuel + 1, pos, counter =>
    if pos = lastPos text direction then some startPos
    else
      let currentChar := characterAt text pos
      if currentChar ∈ incCounterChar direction then
        moveBlockLoop text direction startPos fuel (wrapInt (pos + inc direction)) (counter + 1)
      else if currentChar ∈ decCounterChar direction then
        if counter - 1 < 0 then some (pos + max (inc direction) 0)
        else
          moveBlockLoop text direction startPos fuel (wrapInt (pos + inc direction))
            (counter - 1)
      else moveBlockLoop text direction startPos fuel (wrapInt (pos + inc direction)) counter

/-- The value of `pos` when `moveBlock` enters its loop: one step from `startPos`, one more
when the character found there is an `incCounterChar`, and the `pos += inc` before the
loop. -/
def scanStart (text : List Char) (startPos : Int) (direction : MoveOperation) : Int :=
  let pos := wrapInt (startPos + inc direction)
  let currentChar := characterAt text pos
  let pos := if currentChar ∈ incCounterChar direction then wrapInt (pos + inc direction) else pos
  wrapInt (pos + inc direction)

/-- The function `CppDocument::moveBlock` with a bound on the loop. -/
def moveBlockFuel (fuel : Nat) (text : List Char) (startPos : Int)
    (direction : MoveOperation) : Option Int :=
  if startPos = lastPos text direction then some startPos
  else moveBlockLoop text direction startPos fuel (scanStart text startPos direction) 0

/-- The function `CppDocument::moveBlock`. The index of the loop takes `2 ^ 32` values, so
`2 ^ 32 + 1` tests of the loop condition are enough for every text whose positions are
`int`s (`moveBlock_total`). -/
def moveBlock (text : List Char) (startPos : Int) (direction : MoveOperation) : Option Int :=
  moveBlockFuel 4294967297 text startPos direction

/-! ## `CppDocument::gotoBlockStart` and `CppDocument::gotoBlockEnd` -/

/-- The text edit: the text of its document and the position of its cursor. -/
structure TextEdit where
  text : List Char
  cursor : Int
  deriving DecidableEq, Repr

/-- The Qt function `QTextCursor::setPosition(pos)` on a cursor at `cursor`: a position out
of range is refused and the cursor stays where it is. -/
def setPosition (text : List Char) (cursor pos : Int) : Int :=
  if pos < 0 ∨ pos ≥ characterCount text then cursor else pos

/-- The loop `while (count != 0) { cursor.setPosition(moveBlock(...)); --count; }` shared by
`gotoBlockStart` and `gotoBlockEnd`. One unit of fuel is used by each test of the loop
condition. -/
def gotoBlockLoop (text : List Char) (direction : MoveOperation) :
    Nat → Int → Int → Option Int
  | 0, _, _ => none
  | fuel + 1, cursor, count =>
    if count = 0 then some cursor
    else
      match moveBlock text cursor direction with
      | none => none
      | some pos => gotoBlockLoop text direction fuel (setPosition text cursor pos) (count - 1)

/-- The function `CppDocument::gotoBlockStart`: the text edit after the call and the returned
position. The fuel is enough for every `count ≥ 0`. -/
def gotoBlockStart (edit : TextEdit) (count : Int) : Option (TextEdit × Int) :=
  (gotoBlockLoop edit.text PreviousCharacter (count.toNat + 1) edit.cursor count).map
    fun pos => ({ edit with cursor := pos }, pos)

/-- The function `CppDocument::gotoBlockEnd`: the text edit after the call and the returned
position. The fuel is enough for every `count ≥ 0`. -/
def gotoBlockEnd (edit : TextEdit) (count : Int) : Option (TextEdit × Int) :=
  (gotoBlockLoop edit.text NextCharacter (count.toNat + 1) edit.cursor count).map
    fun pos => ({ edit with cursor := pos }, pos)

/-! ## The depth counter of the scan -/

/-- The change of the counter of `moveBlock` at one character: `+1` at an `incCounterChar`,
`-1` at a `decCounterChar`, `0` elsewhere. -/
def delimiterStep (direction : MoveOperation) (c : Char) : Int :=
  if c ∈ incCounterChar direction then 1
  else if c ∈ decCounterChar direction then -1
  else 0

/-- The depth after `n` characters, scanned in `direction` from the index `first`. -/
def depthAfter (text : List Char) (direction : MoveOperation) (first : Int) : Nat → Int
  | 0 => 0
  | n + 1 =>
    depthAfter text direction first n +
      delimiterStep direction (characterAt text (first + inc direction * n))

/-! ## The contract of the block matcher, in the words of the specification -/

/-- Following the specification (section 4.1): scan `remaining` characters from the index
`pos`, adding one to the depth at each opening delimiter and taking one away at each closing
delimiter; the first index where the depth goes negative is the match. -/
def specFirstNegative (text : List Char) (direction : MoveOperation) :
    Nat → Int → Int → Option Int
  | 0, _, _ => none
  | remaining + 1, pos, depth =>
    if depth + delimiterStep direction (characterAt text pos) < 0 then some pos
    else
      specFirstNegative text direction remaining (pos + inc direction)
        (depth + delimiterStep direction (characterAt text pos))

/-- The index of the character next to the cursor position `startPos` in the scan direction:
the character after the cursor forward, the character before it backward. -/
def adjacentIndex (startPos : Int) (direction : MoveOperation) : Int :=
  if direction = NextCharacter then startPos else startPos - 1

/-- The number of characters from the index `first` to the end of the text in the scan
direction, the one at `first` included. -/
def charactersAhead (text : List Char) (first : Int) (direction : MoveOperation) : Nat :=
  if direction = NextCharacter then ((text.length : Int) - first).toNat else (first + 1).toNat

/-- Following the specification (section 4.1): the contract `moveBlock(startPosition,
direction)`. A start position at the buffer boundary is returned at once; the scan begins at
the character adjacent to the start position, or one step further when that character is an
opening delimiter; the match is returned with the offset `+1` forward and `0` backward;
without a match the start position is returned. -/
def specMoveBlock (text : List Char) (startPos : Int) (direction : MoveOperation) : Int :=
  if startPos = lastPos text direction then startPos
  else
    let adjacent := adjacentIndex startPos direction
    let first :=
      if characterAt text adjacent ∈ incCounterChar direction then adjacent + inc direction
      else adjacent
    match specFirstNegative text direction (charactersAhead text first direction) first 0 with
    | some q => q + max (inc direction) 0
    | none => startPos

/-- The depth over all the characters of the text in the scan
direction from the cursor position `startPos`: negative when the closing delimiters of that
direction outnumber the opening ones. -/
def remainingDepth (text : List Char) (startPos : Int) (direction : MoveOperation) : Int :=
  depthAfter text direction (adjacentIndex startPos direction)
    (charactersAhead text (adjacentIndex startPos direction) direction)

/-- The `k`-fold iteration of `moveBlock(., direction)` applied to the position `pos`. -/
def iterMoveBlock (text : List Char) (direction : MoveOperation) : Nat → Int → Option Int
  | 0, pos => some pos
  | k + 1, pos => (moveBlock text pos direction).bind (iterMoveBlock text direction k)

/-- The text of the scenario of the specification: `void Foo() { if (x) { y(); } }`. -/
def scenarioText : List Char := "void Foo() \x7b if (x) \x7b y(); \x7d \x7d".toList

/-! ## Paths (`QFileInfo`) -/

/-- A `QString`: the list of its characters. -/
abbrev QString := List Char

/-- Split a string at the last occurrence of the character `c`: the characters before it and
the characters after it; `none` when `c` does not occur. -/
def splitLast (c : Char) : QString → Option (QString × QString)
  | [] => none
  | x :: xs =>
    match splitLast c xs with
    | some (before, after) => some (x :: before, after)
    | none => if x = c then some ([], xs) else none

/-- The Qt function `QFileInfo::fileName()`: the name of the file, without the path. -/
def QFileInfo.fileName (path : QString) : QString :=
  match splitLast '/' path with
  | some (_, name) => name
  | none => path

/-- The Qt function `QFileInfo::absolutePath()` of an absolute and clean path, as the file
name of a document is: the path without the file name, `/` for a file of the root
directory. (A relative path is resolved by Qt against the working directory, which is not
modelled: it has no absolute path here.) -/
def QFileInfo.absolutePath (path : QString) : QString :=
  match splitLast '/' path with
  | some (dir, _) => if dir = [] then ['/'] else dir
  | none => []

/-- The Qt function `QFileInfo::suffix()`: the characters of the file name after the last
`.`, nothing when the file name has no `.`. -/
def QFileInfo.suffix (path : QString) : QString :=
  match splitLast '.' (QFileInfo.fileName path) with
  | some (_, suffix) => suffix
  | none => []

/-- The Qt function `QFileInfo::completeBaseName()`: the characters of the file name before
the last `.`, the file name when it has no `.`. -/
def QFileInfo.completeBaseName (path : QString) : QString :=
  match splitLast '.' (QFileInfo.fileName path) with
  | some (base, _) => base
  | none => QFileInfo.fileName path

/-! ## The correspondence cache (`QHash<QString, QString>`) -/

/-- The static `cache` of `correspondingHeaderSource`: the entries of the hash, one for each
key. -/
abbrev Cache := List (QString × QString)

/-- The Qt function `QHash::value(key)`: the value stored for the key, or an empty string. -/
def Cache.value (cache : Cache) (key : QString) : QString :=
  match cache.find? (fun entry => entry.1 = key) with
  | some entry => entry.2
  | none => []

/-- The Qt assignment `cache[key] = value`: the entry of the key is added or replaced. -/
def Cache.insert (cache : Cache) (key value : QString) : Cache :=
  (key, value) :: cache.filter (fun entry => entry.1 ≠ key)

/-! ## The collaborators of the resolver -/

/-- The enumeration `Document::Type`, declared outside the sources at hand: the value `Cpp`
and the other values. -/
inductive DocumentType where
  | Cpp
  | Other (id : Nat)
  deriving DecidableEq, Repr

/-- What `correspondingHeaderSource` reads from outside of the document.
* `mimeTypes`: the setting `Settings::MimeTypes`, a `std::map` from suffix to document
  type, as the list of its entries in the order of iteration (see `keyOrdered`);
* `fileExists`: the Qt function `QFile::exists`;
* `allFilesWithExtensions`: the answer of `Project::allFilesWithExtensions(suffixes,
  Project::FullPath)`;
* `toLower`: the Qt function `QChar::toLower`;
* `foldCase`: the case folding of one character that Qt applies in a comparison with
  `Qt::CaseInsensitive`. -/
structure Environment where
  mimeTypes : List (QString × DocumentType)
  fileExists : QString → Bool
  allFilesWithExtensions : List QString → List QString
  toLower : Char → Char
  foldCase : Char → Char

/-- The order `operator<` of `std::string`: lexicographic on the characters. -/
def stdStringLess : QString → QString → Bool
  | _, [] => false
  | [], _ :: _ => true
  | a :: as, b :: bs =>
    if a < b then true else if b < a then false else stdStringLess as bs

/-- The entries of a `std::map` are iterated in strictly ascending order of their keys:
the key of each entry is less than the keys of the entries after it. -/
def keyOrdered : List (QString × DocumentType) → Bool
  | [] => true
  | entry :: rest => (rest.all fun later => stdStringLess entry.1 later.1) && keyOrdered rest

/-! ## `CppDocument::correspondingHeaderSource` -/

/-- The function `isHeaderSuffix`: `suffix.startsWith('h')`. -/
def isHeaderSuffix (suffix : QString) : Bool :=
  suffix.head? = some 'h'

/-- The function `CppDocument::isHeader` of the document with the file name `fileName`. -/
def isHeader (fileName : QString) : Bool :=
  isHeaderSuffix (QFileInfo.suffix fileName)

/-- The function `matchingSuffixes`: the loop over the entries of the setting. -/
def matchingSuffixes (mimeTypes : List (QString × DocumentType)) (header : Bool) :
    List QString :=
  match mimeTypes with
  | [] => []
  | it :: rest =>
    if it.2 = DocumentType.Cpp then
      if (header && !isHeaderSuffix it.1) || (!header && isHeaderSuffix it.1) then
        it.1 :: matchingSuffixes rest header
      else matchingSuffixes rest header
    else matchingSuffixes rest header

/-- The function `candidateFileNames`: `baseName + '.' + suffix` for each suffix. -/
def candidateFileNames (baseName : QString) (suffixes : List QString) : List QString :=
  match suffixes with
  | [] => []
  | suffix :: rest => (baseName ++ '.' :: suffix) :: candidateFileNames baseName rest

/-- The loop of `commonFilePathLength` from the index `i`; `fuel` is `length - i`. -/
def commonFilePathLengthLoop (toLower : Char → Char) (s1 s2 : QString) (length : Nat) :
    Nat → Nat → Nat
  | 0, _ => length
  | fuel + 1, i =>
    if toLower (s1.getD i nullChar) ≠ toLower (s2.getD i nullChar) then i
    else commonFilePathLengthLoop toLower s1 s2 length fuel (i + 1)

/-- The function `commonFilePathLength`. -/
def commonFilePathLength (toLower : Char → Char) (s1 s2 : QString) : Nat :=
  let length := min s1.length s2.length
  commonFilePathLengthLoop toLower s1 s2 length length 0

/-- The Qt function `path.endsWith(fileName, Qt::CaseInsensitive)`. -/
def endsWithCaseInsensitive (foldCase : Char → Char) (path fileName : QString) : Bool :=
  fileName.length ≤ path.length &&
    (path.drop (path.length - fileName.length)).map foldCase == fileName.map foldCase

/-- The loop `Search in the current directory` of `correspondingHeaderSource`: the first
candidate whose file exists in the directory, with its path. -/
def searchCurrentDirectory (fileExists : QString → Bool) (absolutePath : QString) :
    List QString → Option QString
  | [] => none
  | candidate :: rest =>
    if fileExists (absolutePath ++ '/' :: candidate) then
      some (absolutePath ++ '/' :: candidate)
    else searchCurrentDirectory fileExists absolutePath rest

/-- The lambda `checkIfPathNeedToBeRemoved` of `correspondingHeaderSource`. -/
def checkIfPathNeedToBeRemoved (foldCase : Char → Char) (candidates : List QString)
    (path : QString) : Bool :=
  match candidates with
  | [] => true
  | fileName :: rest =>
    if endsWithCaseInsensitive foldCase path fileName then false
    else checkIfPathNeedToBeRemoved foldCase rest path

/-- The loop `Find the file having the most common path with fileName` of
`correspondingHeaderSource`, entered with `bestFileName` and `compareValue`. -/
def findBestFileName (toLower : Char → Char) (fileName : QString) :
    List QString → QString → Nat → QString
  | [], bestFileName, _ => bestFileName
  | path :: rest, bestFileName, compareValue =>
    if commonFilePathLength toLower path fileName > compareValue then
      findBestFileName toLower fileName rest path (commonFilePathLength toLower path fileName)
    else findBestFileName toLower fileName rest bestFileName compareValue

/-- The project-wide search of `correspondingHeaderSource`: the files of the index that
`std::remove_if` keeps, and the best of them (empty when there is none). -/
def searchProject (env : Environment) (fileName : QString) (suffixes candidates : List QString) :
    QString :=
  let fullPathNames := (env.allFilesWithExtensions suffixes).filter
    fun path => !checkIfPathNeedToBeRemoved env.foldCase candidates path
  findBestFileName env.toLower fileName fullPathNames [] 0

/-- The function `CppDocument::correspondingHeaderSource` of the document with the file name
`fileName`, called when the static cache is `cache`: the returned path and the cache after
the call. -/
def correspondingHeaderSource (env : Environment) (cache : Cache) (fileName : QString) :
    QString × Cache :=
  let cacheData := cache.value fileName
  if !cacheData.isEmpty then (cacheData, cache)
  else
    let header := isHeader fileName
    let suffixes := matchingSuffixes env.mimeTypes header
    let candidates := candidateFileNames (QFileInfo.completeBaseName fileName) suffixes
    match searchCurrentDirectory env.fileExists (QFileInfo.absolutePath fileName) candidates with
    | some testFileName =>
      (testFileName, (cache.insert fileName testFileName).insert testFileName fileName)
    | none =>
      let bestFileName := searchProject env fileName suffixes candidates
      if !bestFileName.isEmpty then
        (bestFileName, (cache.insert fileName bestFileName).insert bestFileName fileName)
      else ([], cache)

/-- The path `absolutePath + '/' + completeBaseName + '.' + suffix` that
`correspondingHeaderSource` tests for the candidate suffix `suffix`. -/
def siblingFileName (fileName suffix : QString) : QString :=
  QFileInfo.absolutePath fileName ++ '/' :: (QFileInfo.completeBaseName fileName ++ '.' :: suffix)

/-! ## Examples -/

/-- The settings of the examples: the suffixes of C++ and one other suffix, in key order. -/
def exampleMimeTypes : List (QString × DocumentType) :=
  [("c".toList, DocumentType.Cpp), ("cpp".toList, DocumentType.Cpp),
    ("cxx".toList, DocumentType.Cpp), ("h".toList, DocumentType.Cpp),
    ("hpp".toList, DocumentType.Cpp), ("rc".toList, DocumentType.Other 0)]

/-- An environment of the examples: the files `/p/src/foo.h` and `/p/src/foo.hpp` exist and
the index of the project is empty. -/
def exampleEnvironment : Environment where
  mimeTypes := exampleMimeTypes
  fileExists := fun path => path == "/p/src/foo.hpp".toList || path == "/p/src/foo.h".toList
  allFilesWithExtensions := fun _ => []
  toLower := Char.toLower
  foldCase := Char.toLower

/-- An environment of the examples without any file. -/
def emptyEnvironment : Environment where
  mimeTypes := []
  fileExists := fun _ => false
  allFilesWithExtensions := fun _ => []
  toLower := Char.toLower
  foldCase := Char.toLower

/-! ## The project-wide search and the reachable caches -/

/-- The list `fullPathNames` of `correspondingHeaderSource` after the `erase` of the paths
that `checkIfPathNeedToBeRemoved` rejects: the filtered candidates, in the order of the
index. -/
def filteredPathNames (env : Environment) (fileName : QString) : List QString :=
  (env.allFilesWithExtensions (matchingSuffixes env.mimeTypes (isHeader fileName))).filter
    fun path =>
      !checkIfPathNeedToBeRemoved env.foldCase
        (candidateFileNames (QFileInfo.completeBaseName fileName)
          (matchingSuffixes env.mimeTypes (isHeader fileName))) path

/-- The value of `bestFileName` after the project-wide search of
`correspondingHeaderSource` for the document `fileName`. -/
def projectFallback (env : Environment) (fileName : QString) : QString :=
  findBestFileName env.toLower fileName (filteredPathNames env fileName) [] 0

/-- The states of the static cache that a process can reach: the cache is empty at first and
changes by calls of `correspondingHeaderSource` only, for any document, file system and
index; the setting `mimeTypes` is read once (it is a `static const` of `matchingSuffixes`)
and is the same in all calls. -/
inductive ReachableCache (mimeTypes : List (QString × DocumentType)) : Cache → Prop where
  | empty : ReachableCache mimeTypes []
  | call (env : Environment) (cache : Cache) (fileName : QString) :
      ReachableCache mimeTypes cache → env.mimeTypes = mimeTypes →
      ReachableCache mimeTypes (correspondingHeaderSource env cache fileName).2

/-- An environment of the examples without any file on disk, whose project index answers
`index`. -/
def indexEnvironment (index : List QString) : Environment where
  mimeTypes := exampleMimeTypes
  fileExists := fun _ => false
  allFilesWithExtensions := fun _ => index
  toLower := Char.toLower
  foldCase := Char.toLower

/-! ## `CppDocument::insertForwardDeclaration` -/

/-- The Qt function `QString::indexOf(c)`: the index of the first `c`, or `-1`. -/
def indexOfChar (c : Char) : QString → Int
  | [] => -1
  | x :: rest =>
    if x = c then 0
    else if indexOfChar c rest < 0 then -1 else indexOfChar c rest + 1

/-- The Qt function `QString::leftRef(n)`: the `n` leftmost characters, the entire string
when `n` is negative or not less than the size. -/
def leftRef (s : QString) (n : Int) : QString :=
  if n < 0 ∨ n ≥ s.length then s else s.take n.toNat

/-- The Qt function `QString::midRef(position)` for `position ≥ 0`: the characters from
`position` to the end, nothing when `position` exceeds the size. -/
def midRef (s : QString) (position : Int) : QString :=
  if position > s.length then [] else s.drop position.toNat

/-- The Qt function `split("::")`, which keeps the empty parts: the parts between the
occurrences of `::`, found from the left. -/
def splitDoubleColon : QString → List QString
  | [] => [[]]
  | [c] => [[c]]
  | c :: d :: rest =>
    if c = ':' ∧ d = ':' then [] :: splitDoubleColon rest
    else
      match splitDoubleColon (d :: rest) with
      | first :: others => (c :: first) :: others
      | [] => [[c]]

/-- The two searches that `insertForwardDeclaration` asks of the `QTextDocument`, as
functions of the text of the buffer.
* `findWholeWords text subString`: whether `doc->find(subString, QTextCursor(doc),
  QTextDocument::FindWholeWords)` returns a cursor that is not null;
* `lastIncludeLineEnd text`: the position of the cursor after
  `doc->find(QRegularExpression("^#include\\s*"), cursor, QTextDocument::FindBackward)` from
  the end of the document and `movePosition(QTextCursor::EndOfLine)`, `none` when the
  search returns a null cursor. -/
structure DocumentSearch where
  findWholeWords : QString → QString → Bool
  lastIncludeLineEnd : QString → Option Nat

/-- The local `classOrStruct` of `insertForwardDeclaration`. -/
def classOrStruct (fwddecl : QString) : QString :=
  leftRef fwddecl (indexOfChar ' ' fwddecl)

/-- The local `qualifierList` of `insertForwardDeclaration` after `std::ranges::reverse`. -/
def qualifierList (fwddecl : QString) : List QString :=
  (splitDoubleColon (midRef fwddecl (indexOfChar ' ' fwddecl + 1))).reverse

/-- The un-qualified declaration `QString("%1 %2;").arg(classOrStruct)
.arg(qualifierList.first())`. (The first argument is `class` or `struct` here and holds no
place marker.) -/
def unqualifiedDeclaration (fwddecl : QString) : QString :=
  classOrStruct fwddecl ++ ' ' :: ((qualifierList fwddecl).headD [] ++ [';'])

/-- One turn of the loop over the qualifiers:
`QString("namespace %1 \x7b\n%2\n\x7d").arg(qualifier, result)`. -/
def namespaceBlock (qualifier result : QString) : QString :=
  "namespace ".toList ++ qualifier ++ " \x7b\n".toList ++ result ++ "\n\x7d".toList

/-- The text that `insertForwardDeclaration` builds: the un-qualified declaration, wrapped by
the loop over the rest of `qualifierList` (after `pop_front`). -/
def forwardDeclarationText (fwddecl : QString) : QString :=
  (qualifierList fwddecl).tail.foldl (fun result qualifier => namespaceBlock qualifier result)
    (unqualifiedDeclaration fwddecl)

/-- The function `CppDocument::insertForwardDeclaration` of the document with the file name
`fileName` and the buffer `text`: the returned value and the buffer after the call. -/
def insertForwardDeclaration (search : DocumentSearch) (fileName text fwddecl : QString) :
    Bool × QString :=
  if !isHeader fileName then (false, text)
  else if fwddecl.isEmpty ||
      (classOrStruct fwddecl ≠ "class".toList && classOrStruct fwddecl ≠ "struct".toList) then
    (false, text)
  else if search.findWholeWords text (unqualifiedDeclaration fwddecl) then (false, text)
  else
    match search.lastIncludeLineEnd text with
    | some position =>
      (true, text.take position ++ ('\n' :: (forwardDeclarationText fwddecl ++ ['\n'])) ++
        text.drop position)
    | none => (false, text)

/-- Following the doc comment of `insertForwardDeclaration`: the declaration wrapped in one
namespace block for each qualifier, the first qualifier outermost. -/
def nestedNamespaces : List QString → QString → QString
  | [], declaration => declaration
  | qualifier :: rest, declaration =>
    "namespace ".toList ++ qualifier ++ " \x7b\n".toList ++ nestedNamespaces rest declaration ++
      "\n\x7d".toList

/-- The string `q1::q2::...::qn`. -/
def joinDoubleColon : List QString → QString
  | [] => []
  | [part] => part
  | part :: rest => part ++ ':' :: ':' :: joinDoubleColon rest

/-- Whether `subString` occurs in `text`. -/
def occursIn (subString : QString) : QString → Bool
  | [] => subString.isEmpty
  | c :: rest => subString.isPrefixOf (c :: rest) || occursIn subString rest

/-- The end of the last line of `text` (from the position `offset` of its first character)
that starts with `#include`. -/
def lastIncludeEnd (offset : Nat) (found : Option Nat) : List QString → Option Nat
  | [] => found
  | line :: rest =>
    lastIncludeEnd (offset + line.length + 1)
      (if "#include".toList.isPrefixOf line then some (offset + line.length) else found) rest

/-- The lines of a text. -/
def textLines : QString → List QString
  | [] => [[]]
  | c :: rest =>
    if c = '\n' then [] :: textLines rest
    else
      match textLines rest with
      | first :: others => (c :: first) :: others
      | [] => [[c]]

/-- A document search for the examples, on texts without letters next to the searched
string and with lines that fit the width of the editor: the occurrence of the string, and
the end of the last line that starts with `#include`. -/
def exampleSearch : DocumentSearch where
  findWholeWords := fun text subString => occursIn subString text
  lastIncludeLineEnd := fun text => lastIncludeEnd 0 none (textLines text)

/-! ## The kinds of delimiters -/

/-- The kind of a character for `moveBlock`: 1 for `(`, `\x7b`, `[`, 2 for `)`, `\x7d`, `]`,
0 for every other character. -/
def delimiterKind (c : Char) : Nat :=
  if c ∈ ['(', '{', '['] then 1 else if c ∈ [')', '}', ']'] then 2 else 0

/-- The character `b` stands where `a` stood, after an opening delimiter has been replaced
by an opening delimiter, or a closing delimiter by a closing delimiter, or nothing has been
replaced. -/
def sameDelimiterKind (a b : Char) : Prop :=
  a = b ∨ (delimiterKind a = delimiterKind b ∧ delimiterKind a ≠ 0)

/-! ## The include helper (`IncludeHelper`, `cppdocument_p.h`) -/

/-- The struct `IncludeHelper::IncludePosition`, with its default member initializers. -/
structure IncludePosition where
  line : Int := -1
  newGroup : Bool := false
  deriving DecidableEq, Repr

/-- The member function `IncludePosition::alreadyExists`. -/
def IncludePosition.alreadyExists (position : IncludePosition) : Bool :=
  position.line == -1

/-- The enumeration `Include::Scope`. -/
inductive Scope where
  | Local
  | Global
  | Mixed
  deriving DecidableEq, Repr

/-- The values of the enumeration `Include::Scope`: `Local = 0x1`, `Global = 0x2`,
`Mixed = Local | Global`. -/
def Scope.bits : Scope → Nat
  | Scope.Local => 1
  | Scope.Global => 2
  | Scope.Mixed => 3

/-- The struct `IncludeHelper::Include`. -/
structure Include where
  name : QString
  scope : Scope
  line : Int
  deriving DecidableEq, Repr

/-- The member function `Include::isNull`. -/
def Include.isNull (incl : Include) : Bool :=
  incl.name.isEmpty

/-- Modelled from the spec: the include group of section 3 (`firstLine`, `lastLine`,
`lastContentLine`, the shared leading path `prefixPath`, and `scope`, the bitwise union of
the scopes of the members). The header declares the struct `IncludeGroup` with the fields
`first`, `last`, `lastLine`, `prefix` and `scope`; the functions of `IncludeHelper` that
fill and read them are missing from the sources. -/
structure IncludeGroup where
  firstLine : Int
  lastLine : Int
  lastContentLine : Int
  prefixPath : QString
  scope : Nat
  deriving DecidableEq, Repr

/-- The state of an `IncludeHelper`: the text of its document, and the includes and the
groups that `computeIncludes` has discovered (`m_includes`, `m_includeGroups`). -/
structure IncludeHelper where
  document : QString
  includes : List Include
  includeGroups : List IncludeGroup

/-- Modelled from the spec: what section 4.2 leaves open in the functions of
`IncludeHelper`, whose bodies are missing from the sources.
* `normalizedName`: the normalized name of an include, by which includes are compared;
* `defaultScope`: the scope of a text that starts with neither a quote nor an angle bracket
  (it "defaults heuristically");
* `directoryPortion`: the directory portion of the name of a candidate;
* `sharedPrefixLength`: the length of the shared path of a directory portion and the shared
  leading path of a group;
* `lineInGroup`: the line inside the selected group "that keeps the ordering of the group";
* `firstIncludeLine`: the fallback line of the first include of a document (after a header
  guard or a `#pragma once`, after the leading comment, or line 1), found with the
  structural query;
* `applyInsertion`: the edit of the buffer by which a caller inserts an include at a
  position. -/
structure IncludeRules where
  normalizedName : QString → QString
  defaultScope : QString → Scope
  directoryPortion : QString → QString
  sharedPrefixLength : QString → QString → Nat
  lineInGroup : IncludeGroup → Include → Int
  firstIncludeLine : QString → Int
  applyInsertion : QString → IncludePosition → QString → QString

/-- Modelled from the spec: `IncludeHelper::includeForText` (section 4.2, insertion, step
1), whose body is missing from the sources. The name is the raw token; the scope is Local
for a leading quote, Global for a leading angle bracket, and the default otherwise. An empty
text gives a null include. -/
def includeForText (rules : IncludeRules) (text : QString) : Include where
  name := text
  scope :=
    if text.head? = some '"' then Scope.Local
    else if text.head? = some '<' then Scope.Global
    else rules.defaultScope text
  line := -1

/-- Modelled from the spec: `IncludeHelper::findInclude` (section 4.2, insertion, step 2),
whose body is missing from the sources: the first discovered include with the same
normalized name. -/
def findInclude (rules : IncludeRules) (helper : IncludeHelper) (incl : Include) :
    Option Include :=
  helper.includes.find? fun existing =>
    rules.normalizedName existing.name = rules.normalizedName incl.name

/-- Modelled from the spec: the scope compatibility of a group and a candidate (section 4.2,
insertion, step 4): "an exact or Mixed scope match". -/
def scopeCompatible (group : IncludeGroup) (incl : Include) : Bool :=
  group.scope == incl.scope.bits || group.scope == Scope.Mixed.bits

/-- Modelled from the spec: the rank of a group for a candidate (section 4.2, insertion,
step 4): the scope compatibility first, then the length of the shared path. -/
def groupRank (rules : IncludeRules) (incl : Include) (group : IncludeGroup) : Bool × Nat :=
  (scopeCompatible group incl,
    rules.sharedPrefixLength (rules.directoryPortion incl.name) group.prefixPath)

/-- Whether the rank `a` is above the rank `b`. -/
def rankAbove (a b : Bool × Nat) : Bool :=
  (a.1 && !b.1) || (a.1 == b.1 && decide (a.2 > b.2))

/-- Modelled from the spec: `IncludeHelper::findBestIncludeGroup` (section 4.2, insertion,
step 4), whose body is missing from the sources: the top-ranked group, the first
encountered among equally ranked groups; none when there is no group. -/
def findBestIncludeGroup (rules : IncludeRules) (incl : Include) :
    List IncludeGroup → Option IncludeGroup
  | [] => none
  | group :: rest =>
    some (rest.foldl
      (fun best candidate =>
        if rankAbove (groupRank rules incl candidate) (groupRank rules incl best) then
          candidate
        else best)
      group)

/-- Modelled from the spec: `IncludeHelper::includePositionForInsertion` (section 4.2,
insertion, steps 1 to 5, and the edge case of the empty text), whose body is missing from
the sources. A null include has no position; an include that exists already has the
default position (`line = -1`); with `addNewGroup` the position is the line after the last
group, or the fallback line without a group, with `newGroup = true`; otherwise it is a line
inside the best group, or the fallback line of a first group. -/
def includePositionForInsertion (rules : IncludeRules) (helper : IncludeHelper)
    (text : QString) (addNewGroup : Bool) : Option IncludePosition :=
  if (includeForText rules text).isNull then none
  else if (findInclude rules helper (includeForText rules text)).isSome then
    some {}
  else if addNewGroup then
    match helper.includeGroups.getLast? with
    | some last => some { line := last.lastLine + 1, newGroup := true }
    | none => some { line := rules.firstIncludeLine helper.document, newGroup := true }
  else
    match findBestIncludeGroup rules (includeForText rules text) helper.includeGroups with
    | some group =>
      some { line := rules.lineInGroup group (includeForText rules text), newGroup := false }
    | none => some { line := rules.firstIncludeLine helper.document, newGroup := true }

/-- Modelled from the spec: a caller of `includePositionForInsertion` that inserts the
include (sections 7 and 8), missing from the sources: a result without a position or with
the sentinel of an include that exists already is "nothing to do"; otherwise the buffer is
edited at the position. The buffer after the call. -/
def insertInclude (rules : IncludeRules) (helper : IncludeHelper) (text : QString)
    (addNewGroup : Bool) : QString :=
  match includePositionForInsertion rules helper text addNewGroup with
  | some position =>
    if position.alreadyExists then helper.document
    else rules.applyInsertion helper.document position text
  | none => helper.document

/-- Include rules for the examples: the raw token as the normalized name, the directory up
to the last `/`, the common leading characters, the last line of the group, line 1 for a
first include, and an edit that appends the include to the buffer. -/
def exampleIncludeRules : IncludeRules where
  normalizedName := fun name => name
  defaultScope := fun _ => Scope.Local
  directoryPortion := fun name =>
    match splitLast '/' name with
    | some (directory, _) => directory ++ ['/']
    | none => []
  sharedPrefixLength := fun a b => commonFilePathLength (fun c => c) a b
  lineInGroup := fun group _ => group.lastLine
  firstIncludeLine := fun _ => 1
  applyInsertion := fun document _ text => document ++ "#include ".toList ++ text ++ ['\n']

/-- The document of the examples: the Local group `"a/b.h"`, `"a/c.h"` on the lines 1 and
2 and the Global group `<vector>`, `<string>` on the lines 4 and 5. -/
def exampleIncludeHelper : IncludeHelper where
  document :=
    "#include \"a/b.h\"\n#include \"a/c.h\"\n\n#include <vector>\n#include <string>\n".toList
  includes :=
    [⟨"\"a/b.h\"".toList, Scope.Local, 1⟩, ⟨"\"a/c.h\"".toList, Scope.Local, 2⟩,
      ⟨"<vector>".toList, Scope.Global, 4⟩, ⟨"<string>".toList, Scope.Global, 5⟩]
  includeGroups := [⟨1, 2, 2, "a/".toList, 1⟩, ⟨4, 5, 5, [], 2⟩]

end Knut

namespace Knut

open MoveOperation

/-! ## Lemmas on the document and the scan loop -/

theorem inc_ne_zero (direction : MoveOperation) : inc direction ≠ 0 := by
  cases direction <;> simp [inc]

theorem inc_cases (direction : MoveOperation) : inc direction = 1 ∨ inc direction = -1 := by
  cases direction <;> simp [inc]

/-- An `int` is not changed by `wrapInt`. -/
theorem wrapInt_of_int (x : Int) (h0 : -2147483648 ≤ x) (h1 : x < 2147483648) :
    wrapInt x = x := by
  unfold wrapInt; omega

/-- Every value of `wrapInt` is an `int`. -/
theorem wrapInt_bounds (x : Int) : -2147483648 ≤ wrapInt x ∧ wrapInt x < 2147483648 := by
  unfold wrapInt; omega

theorem wrapInt_add (x y : Int) : wrapInt (wrapInt x + y) = wrapInt (x + y) := by
  unfold wrapInt; omega

theorem nullChar_not_delimiter (direction : MoveOperation) :
    nullChar ∉ incCounterChar direction ∧ nullChar ∉ decCounterChar direction := by
  cases direction <;> decide

theorem paragraphSeparator_not_delimiter (direction : MoveOperation) :
    paragraphSeparator ∉ incCounterChar direction ∧
      paragraphSeparator ∉ decCounterChar direction := by
  cases direction <;> decide

/-- A delimiter is only read at an index of the text. -/
theorem index_of_delimiter (text : List Char) (direction : MoveOperation) (pos : Int)
    (h : characterAt text pos ∈ incCounterChar direction ∨
      characterAt text pos ∈ decCounterChar direction) :
    0 ≤ pos ∧ pos < text.length := by
  unfold characterAt at h
  have hn := nullChar_not_delimiter direction
  have hp := paragraphSeparator_not_delimiter direction
  split at h
  · rcases h with h | h
    · exact absurd h hn.1
    · exact absurd h hn.2
  · rename_i hr
    simp only [not_or, not_lt, ge_iff_le, not_le, characterCount] at hr
    refine ⟨hr.1, ?_⟩
    by_contra hlt
    have hge : text.length ≤ pos.toNat := by omega
    have hd : text.getD pos.toNat paragraphSeparator = paragraphSeparator := by
      simp [List.getD_eq_getElem?_getD, List.getElem?_eq_none hge]
    rw [hd] at h
    rcases h with h | h
    · exact absurd h hp.1
    · exact absurd h hp.2

theorem delimiterStep_of_not_index (text : List Char) (direction : MoveOperation) (pos : Int)
    (h : pos < 0 ∨ (text.length : Int) ≤ pos) :
    delimiterStep direction (characterAt text pos) = 0 := by
  unfold delimiterStep
  split
  · rename_i hc
    have := index_of_delimiter text direction pos (Or.inl hc)
    omega
  · split
    · rename_i hc
      have := index_of_delimiter text direction pos (Or.inr hc)
      omega
    · rfl

theorem depthAfter_succ_left (text : List Char) (direction : MoveOperation) (first : Int)
    (n : Nat) :
    depthAfter text direction first (n + 1) =
      delimiterStep direction (characterAt text first) +
        depthAfter text direction (first + inc direction) n := by
  induction n with
  | zero => simp [depthAfter]
  | succ n ih =>
    have e : first + inc direction + inc direction * (n : Int) =
        first + inc direction * ((n + 1 : Nat) : Int) := by push_cast; ring
    rw [depthAfter, ih, depthAfter, e]
    ring

/-- One turn of the loop of `moveBlock`, written with `delimiterStep`. -/
theorem moveBlockLoop_step (text : List Char) (direction : MoveOperation) (startPos : Int)
    (fuel : Nat) (pos counter : Int) (hpos : pos ≠ lastPos text direction)
    (hc : 0 ≤ counter) :
    moveBlockLoop text direction startPos (fuel + 1) pos counter =
      if counter + delimiterStep direction (characterAt text pos) < 0 then
        some (pos + max (inc direction) 0)
      else
        moveBlockLoop text direction startPos fuel (wrapInt (pos + inc direction))
          (counter + delimiterStep direction (characterAt text pos)) := by
  rw [moveBlockLoop, if_neg hpos]
  simp only [delimiterStep]
  by_cases h1 : characterAt text pos ∈ incCounterChar direction
  · simp only [h1, if_true]
    rw [if_neg (by omega)]
  · simp only [h1, if_false]
    by_cases h2 : characterAt text pos ∈ decCounterChar direction
    · simp only [h2, if_true]
      have e : counter + -1 = counter - 1 := by ring
      rw [e]
    · simp only [h2, if_false]
      rw [if_neg (by omega), add_zero]

/-- While the index stays an `int`, the depth stays non-negative and the boundary is not
met, `n` turns of the loop move the index `n` steps and add the depth of the characters
passed to the counter. -/
theorem moveBlockLoop_run (text : List Char) (direction : MoveOperation) (startPos : Int)
    (fuel : Nat) (n : Nat) :
    ∀ (pos counter : Int), 0 ≤ counter →
      (∀ m : Nat, m ≤ n → -2147483648 ≤ pos + inc direction * m ∧
        pos + inc direction * m < 2147483648) →
      (∀ m : Nat, m < n → pos + inc direction * m ≠ lastPos text direction) →
      (∀ m : Nat, m ≤ n → 0 ≤ counter + depthAfter text direction pos m) →
      moveBlockLoop text direction startPos (fuel + n) pos counter =
        moveBlockLoop text direction startPos fuel (pos + inc direction * n)
          (counter + depthAfter text direction pos n) := by
  induction n with
  | zero => intro pos counter _ _ _ _; simp [depthAfter]
  | succ n ih =>
    intro pos counter hc hr hb hd
    have hpos : pos ≠ lastPos text direction := by
      have := hb 0 (Nat.succ_pos n)
      simpa using this
    have h1 : 0 ≤ counter + delimiterStep direction (characterAt text pos) := by
      have := hd 1 (by omega)
      simpa [depthAfter] using this
    have hw : wrapInt (pos + inc direction) = pos + inc direction := by
      have := hr 1 (by omega)
      simp only [Nat.cast_one, mul_one] at this
      exact wrapInt_of_int _ this.1 this.2
    have e : fuel + (n + 1) = (fuel + n) + 1 := rfl
    rw [e, moveBlockLoop_step text direction startPos (fuel + n) pos counter hpos hc,
      if_neg (by omega), hw]
    rw [ih (pos + inc direction) _ h1]
    · rw [depthAfter_succ_left]
      have e1 : pos + inc direction + inc direction * (n : Int) =
          pos + inc direction * ((n + 1 : Nat) : Int) := by push_cast; ring
      rw [e1, add_assoc]
    · intro m hm
      have := hr (m + 1) (by omega)
      have e1 : pos + inc direction + inc direction * (m : Int) =
          pos + inc direction * ((m + 1 : Nat) : Int) := by push_cast; ring
      rw [e1]; exact this
    · intro m hm
      have := hb (m + 1) (by omega)
      have e1 : pos + inc direction + inc direction * (m : Int) =
          pos + inc direction * ((m + 1 : Nat) : Int) := by push_cast; ring
      rw [e1]; exact this
    · intro m hm
      have := hd (m + 1) (by omega)
      rw [depthAfter_succ_left] at this
      rw [add_assoc]; exact this

/-- While the index is outside the text and not at the boundary, `m` turns of the loop move
the index `m` steps, wrapping round, and leave the counter as it is. -/
theorem moveBlockLoop_outside (text : List Char) (direction : MoveOperation) (startPos : Int)
    (fuel : Nat) (m : Nat) :
    ∀ (pos counter : Int), wrapInt pos = pos →
      (∀ j : Nat, j < m → wrapInt (pos + inc direction * j) ≠ lastPos text direction ∧
        (wrapInt (pos + inc direction * j) < 0 ∨
          (text.length : Int) ≤ wrapInt (pos + inc direction * j))) →
      moveBlockLoop text direction startPos (fuel + m) pos counter =
        moveBlockLoop text direction startPos fuel (wrapInt (pos + inc direction * m))
          counter := by
  induction m with
  | zero => intro pos counter hw _; simp [hw]
  | succ m ih =>
    intro pos counter hw h
    have h0 := h 0 (Nat.succ_pos m)
    simp only [Nat.cast_zero, mul_zero, add_zero, hw] at h0
    have h1 : characterAt text pos ∉ incCounterChar direction := by
      intro hc
      have := index_of_delimiter text direction pos (Or.inl hc)
      omega
    have h2 : characterAt text pos ∉ decCounterChar direction := by
      intro hc
      have := index_of_delimiter text direction pos (Or.inr hc)
      omega
    have e : fuel + (m + 1) = (fuel + m) + 1 := rfl
    rw [e, moveBlockLoop, if_neg h0.1]
    simp only [h1, h2, if_false]
    have hb := wrapInt_bounds (pos + inc direction)
    have e1 : ∀ j : Nat, wrapInt (wrapInt (pos + inc direction) + inc direction * (j : Int)) =
        wrapInt (pos + inc direction * ((j + 1 : Nat) : Int)) := by
      intro j
      rw [wrapInt_add]
      congr 1
      push_cast; ring
    rw [ih _ counter (wrapInt_of_int _ hb.1 hb.2), e1]
    intro j hj
    rw [e1]
    exact h (j + 1) (by omega)

/-- At the boundary the loop ends and `moveBlock` returns its start position. -/
theorem moveBlockLoop_at_boundary (text : List Char) (direction : MoveOperation)
    (startPos : Int) (fuel : Nat) (counter : Int) :
    moveBlockLoop text direction startPos (fuel + 1) (lastPos text direction) counter =
      some startPos := by
  rw [moveBlockLoop, if_pos rfl]

/-- More fuel does not change a result. -/
theorem moveBlockLoop_fuel_succ (text : List Char) (direction : MoveOperation) (startPos : Int)
    (fuel : Nat) :
    ∀ (pos counter r : Int), moveBlockLoop text direction startPos fuel pos counter = some r →
      moveBlockLoop text direction startPos (fuel + 1) pos counter = some r := by
  induction fuel with
  | zero => intro pos counter r h; simp [moveBlockLoop] at h
  | succ fuel ih =>
    intro pos counter r h
    rw [moveBlockLoop] at h
    rw [moveBlockLoop]
    split
    · rename_i hp; rw [if_pos hp] at h; exact h
    · rename_i hp
      rw [if_neg hp] at h
      simp only at h ⊢
      split
      · rename_i h1; rw [if_pos h1] at h; exact ih _ _ _ h
      · rename_i h1
        rw [if_neg h1] at h
        split
        · rename_i h2
          rw [if_pos h2] at h
          split
          · rename_i h3; rw [if_pos h3] at h; exact h
          · rename_i h3; rw [if_neg h3] at h; exact ih _ _ _ h
        · rename_i h2; rw [if_neg h2] at h; exact ih _ _ _ h

theorem moveBlockLoop_fuel_mono (text : List Char) (direction : MoveOperation) (startPos : Int)
    (fuel extra : Nat) (pos counter r : Int)
    (h : moveBlockLoop text direction startPos fuel pos counter = some r) :
    moveBlockLoop text direction startPos (fuel + extra) pos counter = some r := by
  induction extra with
  | zero => exact h
  | succ extra ih => exact moveBlockLoop_fuel_succ text direction startPos _ _ _ _ ih

theorem moveBlockLoop_fuel_le (text : List Char) (direction : MoveOperation) (startPos : Int)
    (fuel more : Nat) (hle : fuel ≤ more) (pos counter r : Int)
    (h : moveBlockLoop text direction startPos fuel pos counter = some r) :
    moveBlockLoop text direction startPos more pos counter = some r := by
  obtain ⟨extra, he⟩ := Nat.exists_eq_add_of_le hle
  rw [he]
  exact moveBlockLoop_fuel_mono text direction startPos fuel extra pos counter r h

end Knut

namespace Knut

open MoveOperation

/-- A scan whose index is `d` steps before the boundary, counted round the `int`s, ends
within `d + 1` tests of the loop condition. -/
theorem moveBlockLoop_total (text : List Char) (direction : MoveOperation) (startPos : Int)
    (d : Nat) :
    ∀ (pos counter : Int), 0 ≤ counter → wrapInt pos = pos →
      wrapInt (pos + inc direction * d) = lastPos text direction →
      ∃ r, moveBlockLoop text direction startPos (d + 1) pos counter = some r := by
  induction d with
  | zero =>
    intro pos counter _ hw h
    simp only [Nat.cast_zero, mul_zero, add_zero, hw] at h
    rw [h]
    exact ⟨startPos, moveBlockLoop_at_boundary text direction startPos 0 counter⟩
  | succ d ih =>
    intro pos counter hc hw h
    by_cases hpos : pos = lastPos text direction
    · rw [hpos]
      exact ⟨startPos, moveBlockLoop_at_boundary text direction startPos (d + 1) counter⟩
    · rw [moveBlockLoop_step text direction startPos (d + 1) pos counter hpos hc]
      split
      · exact ⟨_, rfl⟩
      · rename_i hneg
        have hb := wrapInt_bounds (pos + inc direction)
        apply ih
        · omega
        · exact wrapInt_of_int _ hb.1 hb.2
        · rw [wrapInt_add, ← h]
          congr 1
          push_cast; ring

/-- The result of the loop is the start position or a position of the document. -/
theorem moveBlockLoop_range (text : List Char) (direction : MoveOperation) (startPos : Int)
    (fuel : Nat) :
    ∀ (pos counter r : Int), moveBlockLoop text direction startPos fuel pos counter = some r →
      r = startPos ∨ (0 ≤ r ∧ r < characterCount text) := by
  induction fuel with
  | zero => intro pos counter r h; simp [moveBlockLoop] at h
  | succ fuel ih =>
    intro pos counter r h
    rw [moveBlockLoop] at h
    split at h
    · left; exact (Option.some.inj h).symm
    · simp only at h
      split at h
      · exact ih _ _ _ h
      · split at h
        · rename_i hdec
          split at h
          · right
            have hi := index_of_delimiter text direction pos (Or.inr hdec)
            have hr : r = pos + max (inc direction) 0 := (Option.some.inj h).symm
            rcases inc_cases direction with e | e <;> rw [e] at hr <;>
              simp at hr <;> simp only [characterCount] <;> omega
          · exact ih _ _ _ h
        · exact ih _ _ _ h

/-- The function `moveBlock` returns: on a text whose positions are `int`s the loop ends
within `2 ^ 32 + 1` tests of its condition, at a match or at the boundary, which the index
meets at the latest after it has wrapped round. -/
theorem moveBlock_total (text : List Char) (startPos : Int) (direction : MoveOperation)
    (hlen : (text.length : Int) < 2147483648) :
    ∃ r, moveBlock text startPos direction = some r := by
  unfold moveBlock moveBlockFuel
  split
  · exact ⟨_, rfl⟩
  · have hb : -2147483648 ≤ scanStart text startPos direction ∧
        scanStart text startPos direction < 2147483648 := by
      unfold scanStart
      exact wrapInt_bounds _
    have hl : 0 ≤ lastPos text direction ∧ lastPos text direction < 2147483648 := by
      cases direction <;> simp only [lastPos, characterCount, if_true, reduceCtorEq, if_false] <;>
        omega
    obtain ⟨d, hd4, hd⟩ : ∃ d : Nat, d < 4294967296 ∧
        wrapInt (scanStart text startPos direction + inc direction * d) =
          lastPos text direction := by
      rcases inc_cases direction with e | e
      · refine ⟨((lastPos text direction - scanStart text startPos direction) %
          4294967296).toNat, by omega, ?_⟩
        rw [e]; unfold wrapInt; omega
      · refine ⟨((scanStart text startPos direction - lastPos text direction) %
          4294967296).toNat, by omega, ?_⟩
        rw [e]; unfold wrapInt; omega
    obtain ⟨r, hr⟩ := moveBlockLoop_total text direction startPos d _ 0 (le_refl 0)
      (wrapInt_of_int _ hb.1 hb.2) hd
    exact ⟨r, moveBlockLoop_fuel_le text direction startPos (d + 1) _ (by omega) _ _ r hr⟩

/-- The result of `moveBlock` is the start position or a position of the document. -/
theorem moveBlock_range (text : List Char) (startPos : Int) (direction : MoveOperation)
    (r : Int) (h : moveBlock text startPos direction = some r) :
    r = startPos ∨ (0 ≤ r ∧ r < characterCount text) := by
  unfold moveBlock moveBlockFuel at h
  split at h
  · left; exact (Option.some.inj h).symm
  · exact moveBlockLoop_range text direction startPos _ _ _ r h

/-- The cursor accepts every result of `moveBlock`. -/
theorem setPosition_moveBlock (text : List Char) (cursor : Int) (direction : MoveOperation)
    (r : Int) (h : moveBlock text cursor direction = some r) :
    setPosition text cursor r = r := by
  unfold setPosition
  rcases moveBlock_range text cursor direction r h with e | ⟨h0, h1⟩
  · rw [e]; split <;> rfl
  · rw [if_neg (by omega)]

/-- A forward scan whose index is past the boundary runs through the `int`s that are no
position of the document, wraps round and goes on at the index 0. -/
theorem moveBlockLoop_wrap_forward (text : List Char) (startPos : Int) (fuel : Nat)
    (pos counter : Int) (h1 : (text.length : Int) < pos) (h2 : pos < 2147483648) :
    moveBlockLoop text NextCharacter startPos (fuel + (4294967296 - pos).toNat) pos counter =
      moveBlockLoop text NextCharacter startPos fuel 0 counter := by
  have hrun := moveBlockLoop_outside text NextCharacter startPos fuel (4294967296 - pos).toNat
    pos counter (wrapInt_of_int _ (by omega) h2)
    (by
      intro j hj
      simp only [inc, lastPos, characterCount, if_true, one_mul]
      unfold wrapInt
      omega)
  rw [hrun]
  congr 1
  simp only [inc, if_true, one_mul]
  unfold wrapInt
  omega

/-- A backward scan whose index is below 0 runs through the `int`s that are no position of
the document, wraps round and goes on at the last position. -/
theorem moveBlockLoop_wrap_backward (text : List Char) (startPos : Int) (fuel : Nat)
    (pos counter : Int) (hlen : (text.length : Int) < 2147483648) (h1 : pos < 0)
    (h2 : -2147483648 ≤ pos) :
    moveBlockLoop text PreviousCharacter startPos
        (fuel + (4294967296 + pos - (text.length : Int)).toNat) pos counter =
      moveBlockLoop text PreviousCharacter startPos fuel (text.length : Int) counter := by
  have hrun := moveBlockLoop_outside text PreviousCharacter startPos fuel
    (4294967296 + pos - (text.length : Int)).toNat
    pos counter (wrapInt_of_int _ h2 (by omega))
    (by
      intro j hj
      simp only [inc, lastPos, reduceCtorEq, if_false]
      unfold wrapInt
      omega)
  rw [hrun]
  congr 1
  simp only [inc, reduceCtorEq, if_false]
  unfold wrapInt
  omega

end Knut

namespace Knut

open MoveOperation

/-! ## Block matching: the scan next to the cursor -/

/-- C1: on the balanced text `xx(a)` with the cursor at 3, inside the block `(a)` whose
opening delimiter is at 2 and whose closing delimiter is at 4, `gotoBlockEnd(1)` followed by
`gotoBlockStart(1)` leaves the cursor at 3, not at the opening delimiter (2), and
`gotoBlockStart(1)` followed by `gotoBlockEnd(1)` leaves it at 3, not just past the closing
delimiter (5); on the scenario text with the cursor at 26, inside the inner braces opened at
20, `gotoBlockEnd(1)` followed by `gotoBlockStart(1)` ends at 11, the outer brace. -/
theorem gotoBlock_round_trip_misses_block :
    ((gotoBlockEnd ⟨"xx(a)".toList, 3⟩ 1).bind fun er => gotoBlockStart er.1 1) =
        some (⟨"xx(a)".toList, 3⟩, 3) ∧
      ((gotoBlockStart ⟨"xx(a)".toList, 3⟩ 1).bind fun er => gotoBlockEnd er.1 1) =
        some (⟨"xx(a)".toList, 3⟩, 3) ∧
      specMoveBlock "xx(a)".toList 3 PreviousCharacter = 2 ∧
      specMoveBlock "xx(a)".toList 3 NextCharacter = 5 ∧
      ((gotoBlockEnd ⟨scenarioText, 26⟩ 1).bind fun er => gotoBlockStart er.1 1) =
        some (⟨scenarioText, 11⟩, 11) ∧
      specMoveBlock scenarioText 26 PreviousCharacter = 20 := by
  refine ⟨?_, ?_, ?_, ?_, ?_, ?_⟩ <;> decide

/-- C2: on the scenario text `void Foo() { if (x) { y(); } }`, `gotoBlockEnd(1)` returns 28
from the cursor positions 21 to 25 but 30 from the positions 26 and 27, which are inside the
inner braces too; `gotoBlockEnd(2)` returns 28 from the positions 21 to 25, not 30. -/
theorem gotoBlockEnd_scenario :
    scenarioText.length = 30 ∧
      ([21, 22, 23, 24, 25, 26, 27].map fun p =>
          (gotoBlockEnd ⟨scenarioText, p⟩ 1).map Prod.snd) =
        [some 28, some 28, some 28, some 28, some 28, some 30, some 30] ∧
      ([21, 22, 23, 24, 25, 26, 27].map fun p =>
          (gotoBlockEnd ⟨scenarioText, p⟩ 2).map Prod.snd) =
        [some 28, some 28, some 28, some 28, some 28, some 30, some 30] := by
  refine ⟨?_, ?_, ?_⟩ <;> decide

/-- C3: forward on `(a)` from the start position 1, the adjacent character `a` is no opening
delimiter and the first index where the closing delimiters exceed the opening ones is 2, yet
`moveBlock` returns 1 and not 3; backward on `x(a)` from the start position 2, the adjacent
character `(` is no opening delimiter of that direction and the first such index is 1, yet
`moveBlock` returns 2 and not 1. -/
theorem moveBlock_skips_characters_next_to_start :
    characterAt "(a)".toList (adjacentIndex 1 NextCharacter) ∉ incCounterChar NextCharacter ∧
      specFirstNegative "(a)".toList NextCharacter
        (charactersAhead "(a)".toList (adjacentIndex 1 NextCharacter) NextCharacter)
        (adjacentIndex 1 NextCharacter) 0 = some 2 ∧
      moveBlock "(a)".toList 1 NextCharacter = some 1 ∧
      characterAt "x(a)".toList (adjacentIndex 2 PreviousCharacter) ∉
        incCounterChar PreviousCharacter ∧
      specFirstNegative "x(a)".toList PreviousCharacter
        (charactersAhead "x(a)".toList (adjacentIndex 2 PreviousCharacter) PreviousCharacter)
        (adjacentIndex 2 PreviousCharacter) 0 = some 1 ∧
      moveBlock "x(a)".toList 2 PreviousCharacter = some 2 := by
  refine ⟨?_, ?_, ?_, ?_, ?_, ?_⟩ <;> decide

/-- C4: with the cursor immediately before the `(` of `f() x` (position 1), `moveBlock`
forward returns 1 and not 3, the position just past the matching `)`; before the first `(` of
`((a))` (position 0) it returns 4 and not 5; with the cursor immediately after the `)` of
`g() ` (position 3), `moveBlock` backward returns 3 and not 1, the position of the matching
`(`; after the last `)` of `((a))` (position 5) it returns 1 and not 0. -/
theorem moveBlock_adjacent_delimiter_not_matched :
    characterAt "f() x".toList 1 = '(' ∧
      moveBlock "f() x".toList 1 NextCharacter = some 1 ∧
      specMoveBlock "f() x".toList 1 NextCharacter = 3 ∧
      moveBlock "((a))".toList 0 NextCharacter = some 4 ∧
      specMoveBlock "((a))".toList 0 NextCharacter = 5 ∧
      characterAt "g() ".toList 2 = ')' ∧
      moveBlock "g() ".toList 3 PreviousCharacter = some 3 ∧
      specMoveBlock "g() ".toList 3 PreviousCharacter = 1 ∧
      moveBlock "((a))".toList 5 PreviousCharacter = some 1 ∧
      specMoveBlock "((a))".toList 5 PreviousCharacter = 0 := by
  refine ⟨?_, ?_, ?_, ?_, ?_, ?_, ?_, ?_, ?_, ?_⟩ <;> decide

/-- C5: forward on `a(b)` from the start position 0, which no block encloses, the depth
counted from the start position never goes negative and the contract gives the start
position 0, yet `moveBlock` returns 4: its scan begins at the index 3, behind the `(`, and
takes the `)` for the end of an enclosing block. Backward on `x(b))` from the start position
5 the contract gives 5 and `moveBlock` returns 1. -/
theorem moveBlock_match_without_enclosing_block :
    specFirstNegative "a(b)".toList NextCharacter
        (charactersAhead "a(b)".toList (adjacentIndex 0 NextCharacter) NextCharacter)
        (adjacentIndex 0 NextCharacter) 0 = none ∧
      specMoveBlock "a(b)".toList 0 NextCharacter = 0 ∧
      scanStart "a(b)".toList 0 NextCharacter = 3 ∧
      moveBlock "a(b)".toList 0 NextCharacter = some 4 ∧
      specFirstNegative "x(b))".toList PreviousCharacter
        (charactersAhead "x(b))".toList (adjacentIndex 5 PreviousCharacter) PreviousCharacter)
        (adjacentIndex 5 PreviousCharacter) 0 = none ∧
      specMoveBlock "x(b))".toList 5 PreviousCharacter = 5 ∧
      scanStart "x(b))".toList 5 PreviousCharacter = 2 ∧
      moveBlock "x(b))".toList 5 PreviousCharacter = some 1 := by
  refine ⟨?_, ?_, ?_, ?_, ?_, ?_, ?_, ?_⟩ <;> decide

end Knut

namespace Knut

open MoveOperation

/-! ## Block matching: the result of a scan -/

theorem lastPos_bounds (text : List Char) (direction : MoveOperation) :
    0 ≤ lastPos text direction ∧ lastPos text direction ≤ text.length := by
  cases direction <;> simp only [lastPos, characterCount, if_true, reduceCtorEq, if_false] <;>
    omega

theorem scanStart_bounds (text : List Char) (startPos : Int) (direction : MoveOperation) :
    -2147483648 ≤ scanStart text startPos direction ∧
      scanStart text startPos direction < 2147483648 := by
  unfold scanStart
  exact wrapInt_bounds _

/-- From a position of the document the scan starts two steps from the start position, or
three when the character one step from it is an `incCounterChar`; these steps do not
wrap round. -/
theorem scanStart_eq (text : List Char) (startPos : Int) (direction : MoveOperation)
    (hlen : (text.length : Int) + 3 < 2147483648) (hs0 : 0 ≤ startPos)
    (hsn : startPos ≤ text.length) :
    scanStart text startPos direction =
      if characterAt text (startPos + inc direction) ∈ incCounterChar direction then
        startPos + 3 * inc direction
      else startPos + 2 * inc direction := by
  have w1 : wrapInt (startPos + inc direction) = startPos + inc direction := by
    rcases inc_cases direction with e | e <;> rw [e] <;> unfold wrapInt <;> omega
  unfold scanStart
  simp only [w1]
  split
  · rcases inc_cases direction with e | e <;> rw [e] <;> unfold wrapInt <;> omega
  · rcases inc_cases direction with e | e <;> rw [e] <;> unfold wrapInt <;> omega

theorem scanStart_cases (text : List Char) (startPos : Int) (direction : MoveOperation)
    (hlen : (text.length : Int) + 3 < 2147483648) (hs0 : 0 ≤ startPos)
    (hsn : startPos ≤ text.length) :
    scanStart text startPos direction = startPos + 2 * inc direction ∨
      scanStart text startPos direction = startPos + 3 * inc direction := by
  rw [scanStart_eq text startPos direction hlen hs0 hsn]
  split
  · right; rfl
  · left; rfl

theorem not_boundary_before_reach (text : List Char) (direction : MoveOperation)
    (first : Int) (d m : Nat) (hreach : first + inc direction * d = lastPos text direction)
    (hm : m < d) : first + inc direction * m ≠ lastPos text direction := by
  rw [← hreach]
  rcases inc_cases direction with i | i <;> rw [i] <;> omega

/-- The indices between an `int` and the boundary are `int`s. -/
theorem int_before_reach (text : List Char) (direction : MoveOperation)
    (first : Int) (d m : Nat) (hlen : (text.length : Int) < 2147483648)
    (hp0 : -2147483648 ≤ first) (hp1 : first < 2147483648)
    (hreach : first + inc direction * d = lastPos text direction) (hm : m ≤ d) :
    -2147483648 ≤ first + inc direction * m ∧ first + inc direction * m < 2147483648 := by
  have hl := lastPos_bounds text direction
  rw [← hreach] at hl
  rcases inc_cases direction with i | i <;> rw [i] at hl ⊢ <;> omega

/-- Without a negative depth before the boundary, the loop returns the start position. -/
theorem moveBlockLoop_no_match (text : List Char) (direction : MoveOperation) (startPos : Int)
    (fuel d : Nat) (pos : Int) (hlen : (text.length : Int) < 2147483648)
    (hp0 : -2147483648 ≤ pos) (hp1 : pos < 2147483648)
    (hreach : pos + inc direction * d = lastPos text direction) (hfuel : d + 1 ≤ fuel)
    (hdepth : ∀ n : Nat, n ≤ d → 0 ≤ depthAfter text direction pos n) :
    moveBlockLoop text direction startPos fuel pos 0 = some startPos := by
  have hrun := moveBlockLoop_run text direction startPos 1 d pos 0 (le_refl 0)
    (fun m hm => int_before_reach text direction pos d m hlen hp0 hp1 hreach hm)
    (fun m hm => not_boundary_before_reach text direction _ d m hreach hm)
    (fun m hm => by simpa using hdepth m hm)
  rw [hreach, moveBlockLoop_at_boundary] at hrun
  exact moveBlockLoop_fuel_le text direction startPos (1 + d) fuel (by omega) _ _ _ hrun

/-- When the depth goes negative for the first time at the character `k` steps from the
index `pos`, before the boundary, the loop returns the index of that character, plus one
forward. -/
theorem moveBlockLoop_match (text : List Char) (direction : MoveOperation) (startPos : Int)
    (fuel d k : Nat) (pos : Int) (hlen : (text.length : Int) < 2147483648)
    (hp0 : -2147483648 ≤ pos) (hp1 : pos < 2147483648)
    (hreach : pos + inc direction * d = lastPos text direction) (hk : k < d)
    (hfuel : k + 1 ≤ fuel)
    (hdepth : ∀ n : Nat, n ≤ k → 0 ≤ depthAfter text direction pos n)
    (hneg : depthAfter text direction pos (k + 1) < 0) :
    moveBlockLoop text direction startPos fuel pos 0 =
      some (pos + inc direction * k + max (inc direction) 0) := by
  have hrun := moveBlockLoop_run text direction startPos 1 k pos 0 (le_refl 0)
    (fun m hm => int_before_reach text direction pos d m hlen hp0 hp1 hreach (by omega))
    (fun m hm => not_boundary_before_reach text direction _ d m hreach (by omega))
    (fun m hm => by simpa using hdepth m hm)
  have hk0 := hdepth k (le_refl k)
  rw [zero_add, moveBlockLoop_step text direction startPos 0 _ _
    (not_boundary_before_reach text direction _ d k hreach hk) hk0] at hrun
  rw [depthAfter] at hneg
  rw [if_pos hneg] at hrun
  exact moveBlockLoop_fuel_le text direction startPos (1 + k) fuel (by omega) _ _ _ hrun

/-- A depth that is not non-negative up to `d` goes negative for the first time after some
count `k + 1 ≤ d` of characters. -/
theorem exists_first_negative (depth : Nat → Int) (d : Nat) (h0 : 0 ≤ depth 0)
    (h : ¬ ∀ n : Nat, n ≤ d → 0 ≤ depth n) :
    ∃ k : Nat, k < d ∧ (∀ m : Nat, m ≤ k → 0 ≤ depth m) ∧ depth (k + 1) < 0 := by
  have hex : ∃ n : Nat, n ≤ d ∧ depth n < 0 := by
    by_contra hne
    apply h
    intro n hn
    by_contra hlt
    exact hne ⟨n, hn, by omega⟩
  have hfirst := Nat.find_spec hex
  have hmin : ∀ m : Nat, m < Nat.find hex → 0 ≤ depth m := by
    intro m hm
    have := Nat.find_min hex hm
    by_contra hlt
    exact this ⟨by omega, by omega⟩
  cases hf : Nat.find hex with
  | zero => rw [hf] at hfirst; omega
  | succ k =>
    rw [hf] at hfirst hmin
    exact ⟨k, by omega, fun m hm => hmin m (by omega), hfirst.2⟩

/-- The results of a scan that begins `d` steps before the boundary: the start position,
or the match at the first character, before the boundary, where the depth goes negative. -/
theorem moveBlockLoop_cases (text : List Char) (direction : MoveOperation) (startPos : Int)
    (fuel d : Nat) (pos : Int) (hlen : (text.length : Int) < 2147483648)
    (hp0 : -2147483648 ≤ pos) (hp1 : pos < 2147483648)
    (hreach : pos + inc direction * d = lastPos text direction) (hfuel : d + 1 ≤ fuel)
    (r : Int) (h : moveBlockLoop text direction startPos fuel pos 0 = some r) :
    r = startPos ∨
      ∃ k : Nat, k < d ∧
        (∀ m : Nat, m ≤ k → 0 ≤ depthAfter text direction pos m) ∧
        depthAfter text direction pos (k + 1) < 0 ∧
        r = pos + inc direction * k + max (inc direction) 0 := by
  by_cases hall : ∀ n : Nat, n ≤ d → 0 ≤ depthAfter text direction pos n
  · left
    rw [moveBlockLoop_no_match text direction startPos fuel d pos hlen hp0 hp1 hreach hfuel
      hall] at h
    exact (Option.some.inj h).symm
  · right
    obtain ⟨k, hk, hpre, hneg⟩ := exists_first_negative
      (depthAfter text direction pos) d (le_refl 0) hall
    rw [moveBlockLoop_match text direction startPos fuel d k pos hlen hp0 hp1 hreach hk
      (by omega) hpre hneg] at h
    exact ⟨k, hk, hpre, hneg, (Option.some.inj h).symm⟩

theorem moveBlock_eq_loop (text : List Char) (startPos : Int) (direction : MoveOperation)
    (hs : startPos ≠ lastPos text direction) :
    moveBlock text startPos direction =
      moveBlockLoop text direction startPos 4294967297
        (scanStart text startPos direction) 0 := by
  unfold moveBlock moveBlockFuel
  rw [if_neg hs]

/-- The distance from a scan start before the boundary to the boundary is covered by the
fuel of `moveBlock`. -/
theorem scanStart_distance (text : List Char) (startPos : Int) (direction : MoveOperation)
    (d : Nat) (hlen : (text.length : Int) < 2147483648)
    (hreach : scanStart text startPos direction + inc direction * d =
      lastPos text direction) :
    d + 1 ≤ 4294967297 := by
  have hb := scanStart_bounds text startPos direction
  have hl := lastPos_bounds text direction
  rcases inc_cases direction with i | i <;> rw [i] at hreach <;> omega

/-- Without a negative depth before the boundary, `moveBlock` returns its start position. -/
theorem moveBlock_no_match (text : List Char) (startPos : Int) (direction : MoveOperation)
    (d : Nat) (hlen : (text.length : Int) < 2147483648)
    (hs : startPos ≠ lastPos text direction)
    (hreach : scanStart text startPos direction + inc direction * d = lastPos text direction)
    (hdepth : ∀ n : Nat, n ≤ d →
      0 ≤ depthAfter text direction (scanStart text startPos direction) n) :
    moveBlock text startPos direction = some startPos := by
  have hb := scanStart_bounds text startPos direction
  rw [moveBlock_eq_loop text startPos direction hs]
  exact moveBlockLoop_no_match text direction startPos _ d _ hlen hb.1 hb.2 hreach
    (scanStart_distance text startPos direction d hlen hreach) hdepth

/-- When the depth goes negative for the first time at the character `k` steps from the
scan start, before the boundary, `moveBlock` returns the index of that character, plus one
forward. -/
theorem moveBlock_match (text : List Char) (startPos : Int) (direction : MoveOperation)
    (d k : Nat) (hlen : (text.length : Int) < 2147483648)
    (hs : startPos ≠ lastPos text direction)
    (hreach : scanStart text startPos direction + inc direction * d = lastPos text direction)
    (hk : k < d)
    (hdepth : ∀ n : Nat, n ≤ k →
      0 ≤ depthAfter text direction (scanStart text startPos direction) n)
    (hneg : depthAfter text direction (scanStart text startPos direction) (k + 1) < 0) :
    moveBlock text startPos direction =
      some (scanStart text startPos direction + inc direction * k + max (inc direction) 0) := by
  have hb := scanStart_bounds text startPos direction
  have hd := scanStart_distance text startPos direction d hlen hreach
  rw [moveBlock_eq_loop text startPos direction hs]
  exact moveBlockLoop_match text direction startPos _ d k _ hlen hb.1 hb.2 hreach hk
    (by omega) hdepth hneg

/-- A forward scan that starts past the boundary goes on at the index 0 after its index has
wrapped round; `scanStart + 1` tests of the loop condition are left for it. -/
theorem moveBlock_wrap_forward (text : List Char) (startPos : Int)
    (hs : startPos ≠ lastPos text NextCharacter)
    (hb : (text.length : Int) < scanStart text startPos NextCharacter) :
    moveBlock text startPos NextCharacter =
      moveBlockLoop text NextCharacter startPos
        (scanStart text startPos NextCharacter + 1).toNat 0 0 := by
  have hsb := scanStart_bounds text startPos NextCharacter
  have e : 4294967297 = (scanStart text startPos NextCharacter + 1).toNat +
      (4294967296 - scanStart text startPos NextCharacter).toNat := by omega
  rw [moveBlock_eq_loop text startPos NextCharacter hs]
  rw [← moveBlockLoop_wrap_forward text startPos
    (scanStart text startPos NextCharacter + 1).toNat _ 0 hb hsb.2, ← e]

/-- A backward scan that starts below 0 goes on at the last position after its index has
wrapped round; `characterCount - scanStart` tests of the loop condition are left for it. -/
theorem moveBlock_wrap_backward (text : List Char) (startPos : Int)
    (hlen : (text.length : Int) < 2147483648)
    (hs : startPos ≠ lastPos text PreviousCharacter)
    (hb : scanStart text startPos PreviousCharacter < 0) :
    moveBlock text startPos PreviousCharacter =
      moveBlockLoop text PreviousCharacter startPos
        (characterCount text - scanStart text startPos PreviousCharacter).toNat
        (text.length : Int) 0 := by
  have hsb := scanStart_bounds text startPos PreviousCharacter
  have e : 4294967297 =
      (characterCount text - scanStart text startPos PreviousCharacter).toNat +
        (4294967296 + scanStart text startPos PreviousCharacter -
          (text.length : Int)).toNat := by
    unfold characterCount; omega
  rw [moveBlock_eq_loop text startPos PreviousCharacter hs]
  rw [← moveBlockLoop_wrap_backward text startPos
    (characterCount text - scanStart text startPos PreviousCharacter).toNat _ 0 hlen hb hsb.1,
    ← e]

/-- A scan that is outside the text and more than `fuel` steps, counted round the `int`s,
before the other end of the text has no result within `fuel` tests of the loop condition. -/
theorem moveBlockLoop_outside_none (text : List Char) (direction : MoveOperation)
    (startPos : Int) (fuel : Nat) (pos counter : Int) (hw : wrapInt pos = pos)
    (h : ∀ j : Nat, j < fuel → wrapInt (pos + inc direction * j) ≠ lastPos text direction ∧
      (wrapInt (pos + inc direction * j) < 0 ∨
        (text.length : Int) ≤ wrapInt (pos + inc direction * j))) :
    moveBlockLoop text direction startPos fuel pos counter = none := by
  have hrun := moveBlockLoop_outside text direction startPos 0 fuel pos counter hw h
  rw [zero_add] at hrun
  rw [hrun]
  rfl

theorem delimiterStep_ge (direction : MoveOperation) (c : Char) :
    -1 ≤ delimiterStep direction c := by
  unfold delimiterStep
  split
  · decide
  · split <;> decide

theorem mem_decCounterChar_of_step (direction : MoveOperation) (c : Char)
    (h : delimiterStep direction c = -1) : c ∈ decCounterChar direction := by
  unfold delimiterStep at h
  split at h
  · exact absurd h (by decide)
  · split at h
    · assumption
    · exact absurd h (by decide)

/-- At a match the depth before the matched character is 0, and the matched character is a
`decCounterChar`. -/
theorem match_depth_zero (text : List Char) (direction : MoveOperation) (first : Int) (k : Nat)
    (hpre : 0 ≤ depthAfter text direction first k)
    (hneg : depthAfter text direction first (k + 1) < 0) :
    depthAfter text direction first k = 0 ∧
      characterAt text (first + inc direction * k) ∈ decCounterChar direction := by
  rw [depthAfter] at hneg
  have hge := delimiterStep_ge direction (characterAt text (first + inc direction * k))
  refine ⟨by omega, mem_decCounterChar_of_step direction _ (by omega)⟩

end Knut

namespace Knut

open MoveOperation

/-! ## Block matching: delimiters and the scan of the specification -/

theorem delimiterKind_eq_one (c : Char) : delimiterKind c = 1 ↔ c ∈ ['(', '{', '['] := by
  unfold delimiterKind
  by_cases h1 : c ∈ ['(', '{', '[']
  · simp [h1]
  · rw [if_neg h1]
    by_cases h2 : c ∈ [')', '}', ']']
    · simp [h1, h2]
    · simp [h1, h2]

theorem delimiterKind_eq_two (c : Char) : delimiterKind c = 2 ↔ c ∈ [')', '}', ']'] := by
  unfold delimiterKind
  by_cases h1 : c ∈ ['(', '{', '[']
  · have h2 : c ∉ [')', '}', ']'] := by
      simp only [List.mem_cons, List.mem_singleton, List.not_mem_nil, or_false] at h1
      rcases h1 with e | e | e <;> rw [e] <;> decide
    simp [h1, h2]
  · rw [if_neg h1]
    by_cases h2 : c ∈ [')', '}', ']']
    · simp [h2]
    · simp [h2]

theorem mem_incCounterChar_iff (direction : MoveOperation) (c : Char) :
    c ∈ incCounterChar direction ↔
      delimiterKind c = if direction = NextCharacter then 1 else 2 := by
  cases direction
  · simp only [incCounterChar, if_true]; exact (delimiterKind_eq_one c).symm
  · simp only [incCounterChar, reduceCtorEq, if_false]; exact (delimiterKind_eq_two c).symm

theorem mem_decCounterChar_iff (direction : MoveOperation) (c : Char) :
    c ∈ decCounterChar direction ↔
      delimiterKind c = if direction = NextCharacter then 2 else 1 := by
  cases direction
  · simp only [decCounterChar, reduceCtorEq, if_false, if_true]
    exact (delimiterKind_eq_two c).symm
  · simp only [decCounterChar, if_true, reduceCtorEq, if_false]
    exact (delimiterKind_eq_one c).symm

/-- A character that is no delimiter is neither an `incCounterChar` nor a
`decCounterChar`. -/
theorem not_mem_of_kind_zero (direction : MoveOperation) (c : Char)
    (h : delimiterKind c = 0) :
    c ∉ incCounterChar direction ∧ c ∉ decCounterChar direction := by
  rw [mem_incCounterChar_iff, mem_decCounterChar_iff, h]
  cases direction <;> decide

theorem delimiterStep_of_kind_zero (direction : MoveOperation) (c : Char)
    (h : delimiterKind c = 0) : delimiterStep direction c = 0 := by
  have hn := not_mem_of_kind_zero direction c h
  unfold delimiterStep
  rw [if_neg hn.1, if_neg hn.2]

/-- The scan of the specification gives the index of the first character after which the
depth is negative. -/
theorem specFirstNegative_of_first (text : List Char) (direction : MoveOperation) (k : Nat) :
    ∀ (remaining : Nat) (pos depth : Int), k < remaining →
      (∀ m : Nat, m ≤ k → 0 ≤ depth + depthAfter text direction pos m) →
      depth + depthAfter text direction pos (k + 1) < 0 →
      specFirstNegative text direction remaining pos depth =
        some (pos + inc direction * k) := by
  induction k with
  | zero =>
    intro remaining pos depth hk _ hneg
    obtain ⟨rem, rfl⟩ : ∃ rem, remaining = rem + 1 := ⟨remaining - 1, by omega⟩
    have h1 : depth + delimiterStep direction (characterAt text pos) < 0 := by
      simpa [depthAfter] using hneg
    rw [specFirstNegative, if_pos h1]
    simp
  | succ k ih =>
    intro remaining pos depth hk hpre hneg
    obtain ⟨rem, rfl⟩ : ∃ rem, remaining = rem + 1 := ⟨remaining - 1, by omega⟩
    have h1 : 0 ≤ depth + delimiterStep direction (characterAt text pos) := by
      have := hpre 1 (by omega)
      simpa [depthAfter] using this
    rw [specFirstNegative, if_neg (by omega)]
    rw [ih rem (pos + inc direction) _ (by omega)]
    · congr 1
      push_cast; ring
    · intro m hm
      have := hpre (m + 1) (by omega)
      rw [depthAfter_succ_left] at this
      rw [add_assoc]; exact this
    · rw [depthAfter_succ_left] at hneg
      rw [add_assoc]; exact hneg

end Knut

namespace Knut

open MoveOperation

/-! ## Block matching: iteration -/

theorem moveBlock_at_lastPos (text : List Char) (direction : MoveOperation) :
    moveBlock text (lastPos text direction) direction = some (lastPos text direction) := by
  simp [moveBlock, moveBlockFuel]

theorem gotoBlockLoop_eq_iter (text : List Char) (direction : MoveOperation) (k : Nat) :
    ∀ cursor : Int, gotoBlockLoop text direction (k + 1) cursor (k : Int) =
      iterMoveBlock text direction k cursor := by
  induction k with
  | zero => intro cursor; simp [gotoBlockLoop, iterMoveBlock]
  | succ k ih =>
    intro cursor
    rw [gotoBlockLoop, if_neg (by omega), iterMoveBlock]
    cases hm : moveBlock text cursor direction with
    | none => rfl
    | some r =>
      simp only [Option.some_bind]
      rw [setPosition_moveBlock text cursor direction r hm]
      have e : ((k + 1 : Nat) : Int) - 1 = (k : Int) := by push_cast; ring
      rw [e]
      exact ih r

theorem iterMoveBlock_add (text : List Char) (direction : MoveOperation) (m n : Nat) :
    ∀ pos : Int, iterMoveBlock text direction (m + n) pos =
      (iterMoveBlock text direction m pos).bind (iterMoveBlock text direction n) := by
  induction m with
  | zero => intro pos; simp [iterMoveBlock]
  | succ m ih =>
    intro pos
    have e : m + 1 + n = (m + n) + 1 := by omega
    rw [e, iterMoveBlock, iterMoveBlock]
    cases moveBlock text pos direction with
    | none => rfl
    | some r => simp only [Option.some_bind]; exact ih r

theorem iterMoveBlock_fixed (text : List Char) (direction : MoveOperation) (pos : Int)
    (h : moveBlock text pos direction = some pos) (k : Nat) :
    iterMoveBlock text direction k pos = some pos := by
  induction k with
  | zero => rfl
  | succ k ih => rw [iterMoveBlock, h]; exact ih

theorem gotoBlockEnd_eq_iter (edit : TextEdit) (k : Nat) :
    gotoBlockEnd edit (k : Int) =
      (iterMoveBlock edit.text NextCharacter k edit.cursor).map
        fun pos => ({ edit with cursor := pos }, pos) := by
  unfold gotoBlockEnd
  rw [Int.toNat_ofNat, gotoBlockLoop_eq_iter]

theorem gotoBlockStart_eq_iter (edit : TextEdit) (k : Nat) :
    gotoBlockStart edit (k : Int) =
      (iterMoveBlock edit.text PreviousCharacter k edit.cursor).map
        fun pos => ({ edit with cursor := pos }, pos) := by
  unfold gotoBlockStart
  rw [Int.toNat_ofNat, gotoBlockLoop_eq_iter]

end Knut

namespace Knut

open MoveOperation

/-! ## Block matching: the boundary, unbalanced input and repetition -/

/-- C6: for every text and every count `≥ 0`, `moveBlock(0, Backward) = 0` and
`moveBlock(n, Forward) = n` for `n = characterCount - 1`; `gotoBlockStart(count)` with the
cursor at 0 returns 0 and `gotoBlockEnd(count)` with the cursor at the last position returns
that position, and the text edit is unchanged. -/
theorem block_matching_at_boundary_is_noop (text : List Char) (count : Int)
    (hcount : 0 ≤ count) :
    moveBlock text 0 PreviousCharacter = some 0 ∧
      moveBlock text (characterCount text - 1) NextCharacter =
        some (characterCount text - 1) ∧
      gotoBlockStart ⟨text, 0⟩ count = some (⟨text, 0⟩, 0) ∧
      gotoBlockEnd ⟨text, characterCount text - 1⟩ count =
        some (⟨text, characterCount text - 1⟩, characterCount text - 1) := by
  have hb : moveBlock text 0 PreviousCharacter = some 0 :=
    moveBlock_at_lastPos text PreviousCharacter
  have hf : moveBlock text (characterCount text - 1) NextCharacter =
      some (characterCount text - 1) := moveBlock_at_lastPos text NextCharacter
  obtain ⟨k, rfl⟩ := Int.eq_ofNat_of_zero_le hcount
  refine ⟨hb, hf, ?_, ?_⟩
  · rw [gotoBlockStart_eq_iter]
    simp only
    rw [iterMoveBlock_fixed text PreviousCharacter 0 hb k]
    rfl
  · rw [gotoBlockEnd_eq_iter]
    simp only
    rw [iterMoveBlock_fixed text NextCharacter _ hf k]
    rfl

/-- Witness of C6: the text `{ }` and the count 2. -/
theorem block_matching_at_boundary_is_noop_witness :
    (0 : Int) ≤ 2 ∧
      gotoBlockStart ⟨"\x7b \x7d".toList, 0⟩ 2 = some (⟨"\x7b \x7d".toList, 0⟩, 0) ∧
      gotoBlockEnd ⟨"\x7b \x7d".toList, 3⟩ 2 = some (⟨"\x7b \x7d".toList, 3⟩, 3) :=
  ⟨by decide, (block_matching_at_boundary_is_noop "\x7b \x7d".toList 2 (by decide)).2.2.1,
    (block_matching_at_boundary_is_noop "\x7b \x7d".toList 2 (by decide)).2.2.2⟩

/-- C7, as stated, fails: on the text `a; } b` the closing delimiters outnumber the opening
ones in the forward direction from the start position 0, and `moveBlock` returns 4, the
position just past the `}`, not the start position. -/
theorem unbalanced_closers_move_the_cursor :
    ¬ ∀ (text : List Char) (startPos : Int) (direction : MoveOperation),
        remainingDepth text startPos direction < 0 →
          moveBlock text startPos direction = some startPos := by
  intro h
  have h1 := h "a; \x7d b".toList 0 NextCharacter (by decide)
  exact absurd h1 (by decide)

/-- C7, amended: for every text of fewer than `2 ^ 31 - 3` characters and every start
position `s`, when the closing delimiters outnumber the opening ones in the scan direction
from `s` and the characters next to `s` that `moveBlock` steps over (at `s` and `s + 1`
forward, at `s - 1` backward) are no delimiters, the scan of the specification from `s`
finds a first index `q` where the depth goes negative, and `moveBlock` does not return the
start position: forward it returns `q + 1`; backward it returns `q`, when `q` is not the
index 0. -/
theorem moveBlock_returns_first_unmatched_closer (text : List Char) (s : Int)
    (hlen : (text.length : Int) + 3 < 2147483648) :
    (0 ≤ s → delimiterKind (characterAt text s) = 0 →
        delimiterKind (characterAt text (s + 1)) = 0 →
        remainingDepth text s NextCharacter < 0 →
        ∃ q : Int,
          specFirstNegative text NextCharacter
            (charactersAhead text (adjacentIndex s NextCharacter) NextCharacter)
            (adjacentIndex s NextCharacter) 0 = some q ∧
          moveBlock text s NextCharacter = some (q + 1) ∧ q + 1 ≠ s) ∧
      (s ≤ text.length → delimiterKind (characterAt text (s - 1)) = 0 →
        remainingDepth text s PreviousCharacter < 0 →
        ∃ q : Int,
          specFirstNegative text PreviousCharacter
            (charactersAhead text (adjacentIndex s PreviousCharacter) PreviousCharacter)
            (adjacentIndex s PreviousCharacter) 0 = some q ∧
          (q ≠ 0 → moveBlock text s PreviousCharacter = some q ∧ q ≠ s)) := by
  constructor
  · intro hs0 hk0 hk1 hdepth
    simp only [remainingDepth, adjacentIndex, charactersAhead, if_true] at hdepth ⊢
    have hz0 := delimiterStep_of_kind_zero NextCharacter _ hk0
    have hz1 := delimiterStep_of_kind_zero NextCharacter _ hk1
    have hinc : inc NextCharacter = 1 := rfl
    -- the first count of characters after which the depth is negative
    obtain ⟨k, hk, hpre, hneg⟩ := exists_first_negative
      (depthAfter text NextCharacter s) ((text.length : Int) - s).toNat (le_refl 0)
      (fun hall => absurd (hall _ (le_refl _)) (by omega))
    have hshift : ∀ m : Nat, depthAfter text NextCharacter s (m + 2) =
        depthAfter text NextCharacter (s + 2) m := by
      intro m
      rw [depthAfter_succ_left, depthAfter_succ_left, hz0, hinc, hz1]
      have e : s + 1 + 1 = s + 2 := by ring
      rw [e]; ring
    obtain ⟨j, rfl⟩ : ∃ j, k = j + 2 := by
      refine ⟨k - 2, ?_⟩
      have h1 : depthAfter text NextCharacter s 1 = 0 := by
        rw [depthAfter_succ_left, hz0]; simp [depthAfter]
      have h2 : depthAfter text NextCharacter s 2 = 0 := by
        have := hshift 0
        simpa [depthAfter] using this
      by_contra hne
      have hk01 : k = 0 ∨ k = 1 := by omega
      rcases hk01 with e | e
      · rw [e] at hneg; simp only [zero_add] at hneg; omega
      · rw [e] at hneg
        have e2 : 1 + 1 = 2 := rfl
        rw [e2] at hneg; omega
    have hsn : s ≤ text.length := by omega
    have hstart : scanStart text s NextCharacter = s + 2 := by
      rw [scanStart_eq text s NextCharacter hlen hs0 hsn, hinc,
        if_neg (not_mem_of_kind_zero NextCharacter _ hk1).1]
      ring
    have hspec := specFirstNegative_of_first text NextCharacter (j + 2)
      ((text.length : Int) - s).toNat s 0 hk
      (fun m hm => by simpa using hpre m hm) (by simpa using hneg)
    have hm := moveBlock_match text s NextCharacter ((text.length : Int) - s - 2).toNat j
      (by omega) (by simp only [lastPos, characterCount, if_true]; omega)
      (by rw [hstart, hinc]; simp only [lastPos, characterCount, if_true]; omega)
      (by omega)
      (fun n hn => by rw [hstart, ← hshift]; exact hpre (n + 2) (by omega))
      (by rw [hstart, ← hshift]; exact hneg)
    refine ⟨_, hspec, ?_, ?_⟩
    · rw [hm, hstart, hinc]
      congr 1
      push_cast
      simp
      ring
    · rw [hinc]; push_cast; omega
  · intro hsn hk0 hdepth
    simp only [remainingDepth, adjacentIndex, charactersAhead, reduceCtorEq, if_false]
      at hdepth ⊢
    have hz0 := delimiterStep_of_kind_zero PreviousCharacter _ hk0
    have hinc : inc PreviousCharacter = -1 := rfl
    have e0 : s - 1 + 1 = s := by ring
    rw [e0] at hdepth ⊢
    obtain ⟨k, hk, hpre, hneg⟩ := exists_first_negative
      (depthAfter text PreviousCharacter (s - 1)) s.toNat (le_refl 0)
      (fun hall => absurd (hall _ (le_refl _)) (by omega))
    have hshift : ∀ m : Nat, depthAfter text PreviousCharacter (s - 1) (m + 1) =
        depthAfter text PreviousCharacter (s - 2) m := by
      intro m
      rw [depthAfter_succ_left, hz0, hinc]
      have e : s - 1 + -1 = s - 2 := by ring
      rw [e]; ring
    obtain ⟨j, rfl⟩ : ∃ j, k = j + 1 := by
      refine ⟨k - 1, ?_⟩
      have h1 : depthAfter text PreviousCharacter (s - 1) 1 = 0 := by
        have := hshift 0
        simpa [depthAfter] using this
      by_contra hne
      have hk0 : k = 0 := by omega
      rw [hk0] at hneg
      simp only [zero_add] at hneg
      omega
    have hs0 : 0 ≤ s := by omega
    have hstart : scanStart text s PreviousCharacter = s - 2 := by
      have e : s + -1 = s - 1 := by ring
      rw [scanStart_eq text s PreviousCharacter hlen hs0 hsn, hinc, e,
        if_neg (not_mem_of_kind_zero PreviousCharacter _ hk0).1]
      ring
    have hspec := specFirstNegative_of_first text PreviousCharacter (j + 1)
      s.toNat (s - 1) 0 hk
      (fun m hm => by simpa using hpre m hm) (by simpa using hneg)
    refine ⟨_, hspec, ?_⟩
    intro hq
    rw [hinc] at hq ⊢
    have hm := moveBlock_match text s PreviousCharacter (s - 2).toNat j
      (by omega) (by simp only [lastPos, reduceCtorEq, if_false]; omega)
      (by rw [hstart, hinc]; simp only [lastPos, reduceCtorEq, if_false]; omega)
      (by push_cast at hq; omega)
      (fun n hn => by rw [hstart, ← hshift]; exact hpre (n + 1) (by omega))
      (by rw [hstart, ← hshift]; exact hneg)
    constructor
    · rw [hm, hstart, hinc]
      congr 1
      push_cast
      simp
      ring
    · push_cast; omega

/-- Witness of C7: forward on `a; } b` from the start position 0 the characters `a` and `;`
are stepped over, the depth goes negative at the `}` (index 3) and `moveBlock` returns 4,
the position past it. -/
theorem moveBlock_returns_first_unmatched_closer_witness :
    remainingDepth "a; \x7d b".toList 0 NextCharacter < 0 ∧
      specFirstNegative "a; \x7d b".toList NextCharacter
        (charactersAhead "a; \x7d b".toList (adjacentIndex 0 NextCharacter) NextCharacter)
        (adjacentIndex 0 NextCharacter) 0 = some 3 ∧
      moveBlock "a; \x7d b".toList 0 NextCharacter = some 4 ∧
      ∃ q : Int,
        specFirstNegative "a; \x7d b".toList NextCharacter
          (charactersAhead "a; \x7d b".toList (adjacentIndex 0 NextCharacter) NextCharacter)
          (adjacentIndex 0 NextCharacter) 0 = some q ∧
        moveBlock "a; \x7d b".toList 0 NextCharacter = some (q + 1) ∧ q + 1 ≠ 0 :=
  ⟨by decide, by decide, by decide,
    (moveBlock_returns_first_unmatched_closer "a; \x7d b".toList 0 (by decide)).1
      (by decide) (by decide) (by decide) (by decide)⟩

/-- C8: for every text, cursor position and count `k ≥ 0`, `gotoBlockEnd(k)` returns the
`k`-fold iteration of `moveBlock(., Forward)` and `gotoBlockStart(k)` that of
`moveBlock(., Backward)`, the cursor after the call is the returned position, a call with
the count `m + n` is a call with `m` followed by a call with `n`, and the count 0 returns
the cursor position and leaves the text edit unchanged. -/
theorem gotoBlock_iterates_moveBlock (edit : TextEdit) (m n : Nat) :
    gotoBlockEnd edit (n : Int) =
        (iterMoveBlock edit.text NextCharacter n edit.cursor).map
          (fun pos => ({ edit with cursor := pos }, pos)) ∧
      gotoBlockStart edit (n : Int) =
        (iterMoveBlock edit.text PreviousCharacter n edit.cursor).map
          (fun pos => ({ edit with cursor := pos }, pos)) ∧
      (∀ after pos, gotoBlockEnd edit (n : Int) = some (after, pos) →
        after.cursor = pos ∧ after.text = edit.text) ∧
      (∀ after pos, gotoBlockStart edit (n : Int) = some (after, pos) →
        after.cursor = pos ∧ after.text = edit.text) ∧
      gotoBlockEnd edit ((m : Int) + (n : Int)) =
        (gotoBlockEnd edit (m : Int)).bind (fun er => gotoBlockEnd er.1 (n : Int)) ∧
      gotoBlockStart edit ((m : Int) + (n : Int)) =
        (gotoBlockStart edit (m : Int)).bind (fun er => gotoBlockStart er.1 (n : Int)) ∧
      gotoBlockEnd edit 0 = some (edit, edit.cursor) ∧
      gotoBlockStart edit 0 = some (edit, edit.cursor) := by
  refine ⟨gotoBlockEnd_eq_iter edit n, gotoBlockStart_eq_iter edit n, ?_, ?_, ?_, ?_, ?_, ?_⟩
  · intro after pos h
    rw [gotoBlockEnd_eq_iter] at h
    cases hi : iterMoveBlock edit.text NextCharacter n edit.cursor with
    | none => rw [hi] at h; simp at h
    | some r =>
      rw [hi] at h
      simp only [Option.map_some', Option.some.injEq, Prod.mk.injEq] at h
      obtain ⟨h1, h2⟩ := h
      subst h1 h2
      exact ⟨rfl, rfl⟩
  · intro after pos h
    rw [gotoBlockStart_eq_iter] at h
    cases hi : iterMoveBlock edit.text PreviousCharacter n edit.cursor with
    | none => rw [hi] at h; simp at h
    | some r =>
      rw [hi] at h
      simp only [Option.map_some', Option.some.injEq, Prod.mk.injEq] at h
      obtain ⟨h1, h2⟩ := h
      subst h1 h2
      exact ⟨rfl, rfl⟩
  · have e : (m : Int) + (n : Int) = ((m + n : Nat) : Int) := by push_cast; rfl
    rw [e, gotoBlockEnd_eq_iter, gotoBlockEnd_eq_iter, iterMoveBlock_add]
    cases iterMoveBlock edit.text NextCharacter m edit.cursor with
    | none => rfl
    | some r => simp [gotoBlockEnd_eq_iter]
  · have e : (m : Int) + (n : Int) = ((m + n : Nat) : Int) := by push_cast; rfl
    rw [e, gotoBlockStart_eq_iter, gotoBlockStart_eq_iter, iterMoveBlock_add]
    cases iterMoveBlock edit.text PreviousCharacter m edit.cursor with
    | none => rfl
    | some r => simp [gotoBlockStart_eq_iter]
  · have := gotoBlockEnd_eq_iter edit 0
    simpa [iterMoveBlock] using this
  · have := gotoBlockStart_eq_iter edit 0
    simpa [iterMoveBlock] using this

end Knut

namespace Knut

/-! ## Lemmas on paths, the cache and the candidate suffixes -/

theorem splitLast_eq_none (c : Char) (l : QString) (h : c ∉ l) : splitLast c l = none := by
  induction l with
  | nil => rfl
  | cons x xs ih =>
    simp only [List.mem_cons, not_or] at h
    rw [splitLast, ih h.2]
    simp only
    rw [if_neg (fun e => h.1 e.symm)]

theorem splitLast_append (c : Char) (before after : QString) (h : c ∉ after) :
    splitLast c (before ++ c :: after) = some (before, after) := by
  induction before with
  | nil =>
    rw [List.nil_append, splitLast, splitLast_eq_none c after h]
    simp
  | cons x xs ih =>
    rw [List.cons_append, splitLast, ih]

/-- The parts of the path `dir/base.suffix`. -/
theorem QFileInfo_parts (dir base suffix : QString) (hdir : dir ≠ [])
    (hbase : '/' ∉ base) (hs1 : '/' ∉ suffix) (hs2 : '.' ∉ suffix) :
    QFileInfo.absolutePath (dir ++ '/' :: (base ++ '.' :: suffix)) = dir ∧
      QFileInfo.completeBaseName (dir ++ '/' :: (base ++ '.' :: suffix)) = base ∧
      QFileInfo.suffix (dir ++ '/' :: (base ++ '.' :: suffix)) = suffix := by
  have hname : '/' ∉ base ++ '.' :: suffix := by
    simp only [List.mem_append, List.mem_cons, not_or]
    exact ⟨hbase, by decide, hs1⟩
  have h1 := splitLast_append '/' dir (base ++ '.' :: suffix) hname
  have h2 := splitLast_append '.' base suffix hs2
  refine ⟨?_, ?_, ?_⟩
  · simp only [QFileInfo.absolutePath, h1, if_neg hdir]
  · simp only [QFileInfo.completeBaseName, QFileInfo.fileName, h1, h2]
  · simp only [QFileInfo.suffix, QFileInfo.fileName, h1, h2]

theorem Cache.value_insert (cache : Cache) (key value other : QString) :
    (cache.insert key value).value other =
      if other = key then value else cache.value other := by
  unfold Cache.value Cache.insert
  by_cases h : other = key
  · subst h
    simp
  · rw [if_neg h, List.find?_cons_of_neg _ (by simpa using fun e => h e.symm)]
    congr 1
    induction cache with
    | nil => rfl
    | cons e rest ih =>
      by_cases he : e.1 = key
      · have hne : ¬ e.1 = other := fun e2 => h (e2.symm.trans he)
        rw [List.filter_cons_of_neg (by simpa using he),
          List.find?_cons_of_neg _ (by simpa using hne)]
        exact ih
      · rw [List.filter_cons_of_pos (by simpa using he)]
        by_cases ho : e.1 = other
        · rw [List.find?_cons_of_pos _ (by simpa using ho),
            List.find?_cons_of_pos _ (by simpa using ho)]
        · rw [List.find?_cons_of_neg _ (by simpa using ho),
            List.find?_cons_of_neg _ (by simpa using ho)]
          exact ih

/-- The suffix `h` is not above a suffix that starts with `h`. -/
theorem not_stdStringLess_header (suffix : QString) (h : isHeaderSuffix suffix = true) :
    stdStringLess suffix ['h'] = false := by
  cases suffix with
  | nil => simp [isHeaderSuffix] at h
  | cons c rest =>
    simp only [isHeaderSuffix, List.head?_cons, Option.some.injEq, decide_eq_true_eq] at h
    subst h
    cases rest <;> simp [stdStringLess]

/-- When `h` is configured as a suffix of C++, it is the first candidate suffix of a source
file. -/
theorem matchingSuffixes_source_head (mimeTypes : List (QString × DocumentType))
    (hordered : keyOrdered mimeTypes = true)
    (hconf : (['h'], DocumentType.Cpp) ∈ mimeTypes) :
    ∃ rest, matchingSuffixes mimeTypes false = ['h'] :: rest := by
  induction mimeTypes with
  | nil => simp at hconf
  | cons it tail ih =>
    simp only [keyOrdered, Bool.and_eq_true, List.all_eq_true] at hordered
    by_cases hit : it = (['h'], DocumentType.Cpp)
    · subst hit
      exact ⟨matchingSuffixes tail false, by simp [matchingSuffixes, isHeaderSuffix]⟩
    · have hmem : (['h'], DocumentType.Cpp) ∈ tail := by
        rcases List.mem_cons.mp hconf with e | e
        · exact absurd e.symm hit
        · exact e
      have hless : stdStringLess it.1 ['h'] = true := hordered.1 _ hmem
      have hnot : isHeaderSuffix it.1 = false := by
        cases hh : isHeaderSuffix it.1 with
        | false => rfl
        | true => rw [not_stdStringLess_header it.1 hh] at hless; exact absurd hless (by simp)
      obtain ⟨rest, hrest⟩ := ih hordered.2 hmem
      refine ⟨rest, ?_⟩
      rw [matchingSuffixes]
      simp only [hnot, Bool.false_eq_true, Bool.not_false, Bool.and_false, Bool.and_true,
        Bool.or_false, if_false, ite_self]
      exact hrest

/-- The search in the directory returns the sibling of the first suffix whose sibling
exists. -/
theorem searchCurrentDirectory_first (fileExists : QString → Bool)
    (absolutePath baseName : QString) (suffixes : List QString)
    (h : ∃ s ∈ suffixes, fileExists (absolutePath ++ '/' :: (baseName ++ '.' :: s)) = true) :
    ∃ (i : Nat) (s : QString), suffixes[i]? = some s ∧
      fileExists (absolutePath ++ '/' :: (baseName ++ '.' :: s)) = true ∧
      (∀ (j : Nat) (t : QString), j < i → suffixes[j]? = some t →
        fileExists (absolutePath ++ '/' :: (baseName ++ '.' :: t)) = false) ∧
      searchCurrentDirectory fileExists absolutePath (candidateFileNames baseName suffixes) =
        some (absolutePath ++ '/' :: (baseName ++ '.' :: s)) := by
  induction suffixes with
  | nil => obtain ⟨s, hs, _⟩ := h; simp at hs
  | cons x rest ih =>
    by_cases hx : fileExists (absolutePath ++ '/' :: (baseName ++ '.' :: x)) = true
    · refine ⟨0, x, by simp, hx, fun j t hj _ => absurd hj (Nat.not_lt_zero j), ?_⟩
      rw [candidateFileNames, searchCurrentDirectory, if_pos hx]
    · obtain ⟨s, hs, hse⟩ := h
      have hrest : ∃ s ∈ rest,
          fileExists (absolutePath ++ '/' :: (baseName ++ '.' :: s)) = true := by
        rcases List.mem_cons.mp hs with e | e
        · subst e; exact absurd hse hx
        · exact ⟨s, e, hse⟩
      obtain ⟨i, s1, hi, he, hbefore, hsearch⟩ := ih hrest
      refine ⟨i + 1, s1, by simpa using hi, he, ?_, ?_⟩
      · intro j t hj ht
        cases j with
        | zero =>
          simp only [List.getElem?_cons_zero, Option.some.injEq] at ht
          subst ht
          simpa using hx
        | succ j =>
          simp only [List.getElem?_cons_succ] at ht
          exact hbefore j t (by omega) ht
      · rw [candidateFileNames, searchCurrentDirectory, if_neg hx]
        exact hsearch

theorem candidateFileNames_getElem? (baseName : QString) (suffixes : List QString) (i : Nat) :
    (candidateFileNames baseName suffixes)[i]? =
      suffixes[i]?.map fun suffix => baseName ++ '.' :: suffix := by
  induction suffixes generalizing i with
  | nil => simp [candidateFileNames]
  | cons x rest ih =>
    cases i with
    | zero => simp [candidateFileNames]
    | succ i => simp [candidateFileNames, ih]

theorem candidateFileNames_length (baseName : QString) (suffixes : List QString) :
    (candidateFileNames baseName suffixes).length = suffixes.length := by
  induction suffixes with
  | nil => rfl
  | cons x rest ih => simp [candidateFileNames, ih]

end Knut

namespace Knut

/-! ## The resolver: the sibling in the directory and the cache -/

/-- C9: from a cache without an entry for `dir/foo.cpp`, when `h` is a configured suffix of
C++ and `dir/foo.h` exists on disk, resolving `dir/foo.cpp` returns `dir/foo.h` and stores
both directions; a later call for `dir/foo.h` returns `dir/foo.cpp` and leaves the cache as
it is, whatever the settings, the file system and the project index are then. -/
theorem correspondingHeaderSource_sibling_then_cache_hit (env later : Environment)
    (cache : Cache) (dir foo : QString) (hdir : dir ≠ []) (hfoo : '/' ∉ foo)
    (hmiss : cache.value (dir ++ '/' :: (foo ++ '.' :: ['c', 'p', 'p'])) = [])
    (hordered : keyOrdered env.mimeTypes = true)
    (hconf : (['h'], DocumentType.Cpp) ∈ env.mimeTypes)
    (hexists : env.fileExists (dir ++ '/' :: (foo ++ '.' :: ['h'])) = true) :
    correspondingHeaderSource env cache (dir ++ '/' :: (foo ++ '.' :: ['c', 'p', 'p'])) =
        (dir ++ '/' :: (foo ++ '.' :: ['h']),
          (cache.insert (dir ++ '/' :: (foo ++ '.' :: ['c', 'p', 'p']))
              (dir ++ '/' :: (foo ++ '.' :: ['h']))).insert
            (dir ++ '/' :: (foo ++ '.' :: ['h']))
            (dir ++ '/' :: (foo ++ '.' :: ['c', 'p', 'p']))) ∧
      correspondingHeaderSource later
          (correspondingHeaderSource env cache
            (dir ++ '/' :: (foo ++ '.' :: ['c', 'p', 'p']))).2
          (dir ++ '/' :: (foo ++ '.' :: ['h'])) =
        (dir ++ '/' :: (foo ++ '.' :: ['c', 'p', 'p']),
          (correspondingHeaderSource env cache
            (dir ++ '/' :: (foo ++ '.' :: ['c', 'p', 'p']))).2) := by
  obtain ⟨hpath, hbase, hsuffix⟩ :=
    QFileInfo_parts dir foo ['c', 'p', 'p'] hdir hfoo (by decide) (by decide)
  obtain ⟨rest, hrest⟩ := matchingSuffixes_source_head env.mimeTypes hordered hconf
  have hfirst : correspondingHeaderSource env cache
      (dir ++ '/' :: (foo ++ '.' :: ['c', 'p', 'p'])) =
      (dir ++ '/' :: (foo ++ '.' :: ['h']),
        (cache.insert (dir ++ '/' :: (foo ++ '.' :: ['c', 'p', 'p']))
            (dir ++ '/' :: (foo ++ '.' :: ['h']))).insert
          (dir ++ '/' :: (foo ++ '.' :: ['h']))
          (dir ++ '/' :: (foo ++ '.' :: ['c', 'p', 'p']))) := by
    have hheader : isHeader (dir ++ '/' :: (foo ++ '.' :: ['c', 'p', 'p'])) = false := by
      rw [isHeader, hsuffix]; decide
    unfold correspondingHeaderSource
    simp only [hmiss, List.isEmpty_nil, Bool.not_true, Bool.false_eq_true, if_false,
      hheader, hrest, hpath, hbase, candidateFileNames, searchCurrentDirectory, hexists,
      if_true]
  refine ⟨hfirst, ?_⟩
  rw [hfirst]
  have hvalue := Cache.value_insert
    (cache.insert (dir ++ '/' :: (foo ++ '.' :: ['c', 'p', 'p']))
      (dir ++ '/' :: (foo ++ '.' :: ['h'])))
    (dir ++ '/' :: (foo ++ '.' :: ['h']))
    (dir ++ '/' :: (foo ++ '.' :: ['c', 'p', 'p']))
    (dir ++ '/' :: (foo ++ '.' :: ['h']))
  rw [if_pos rfl] at hvalue
  unfold correspondingHeaderSource
  simp only [hvalue]
  have hne : (dir ++ '/' :: (foo ++ '.' :: ['c', 'p', 'p'])).isEmpty = false := by
    cases dir <;> rfl
  simp only [hne, Bool.not_false, if_true]

/-- Witness of C9: `/p/src/foo.cpp` and `/p/src/foo.h`, from the empty cache; the second
call is made when no file exists and nothing is configured. -/
theorem correspondingHeaderSource_sibling_then_cache_hit_witness :
    (correspondingHeaderSource exampleEnvironment [] "/p/src/foo.cpp".toList).1 =
        "/p/src/foo.h".toList ∧
      (correspondingHeaderSource emptyEnvironment
          (correspondingHeaderSource exampleEnvironment [] "/p/src/foo.cpp".toList).2
          "/p/src/foo.h".toList).1 = "/p/src/foo.cpp".toList :=
  have h := correspondingHeaderSource_sibling_then_cache_hit exampleEnvironment
    emptyEnvironment [] "/p/src".toList "foo".toList (by decide) (by decide) (by decide)
    (by decide) (by decide) (by decide)
  ⟨congrArg Prod.fst h.1, congrArg Prod.fst h.2⟩

end Knut

namespace Knut

/-- C10: on a cache miss, when the sibling of at least one candidate suffix exists on disk,
`correspondingHeaderSource` returns `absolutePath + '/' + completeBaseName + '.' + s` for
the first candidate suffix `s` whose sibling exists, whatever the index of the project
answers; and `candidateFileNames(base, suffixes)` has the length and the order of
`suffixes`, its `i`-th element being `base + '.' + suffixes[i]`. -/
theorem correspondingHeaderSource_first_existing_sibling (env : Environment) (cache : Cache)
    (fileName : QString) (hmiss : cache.value fileName = [])
    (hsome : ∃ s ∈ matchingSuffixes env.mimeTypes (isHeader fileName),
      env.fileExists (siblingFileName fileName s) = true) :
    (∃ (i : Nat) (s : QString),
        (matchingSuffixes env.mimeTypes (isHeader fileName))[i]? = some s ∧
        env.fileExists (siblingFileName fileName s) = true ∧
        (∀ (j : Nat) (t : QString), j < i →
          (matchingSuffixes env.mimeTypes (isHeader fileName))[j]? = some t →
          env.fileExists (siblingFileName fileName t) = false) ∧
        (correspondingHeaderSource env cache fileName).1 = siblingFileName fileName s ∧
        ∀ index : List QString → List QString,
          (correspondingHeaderSource { env with allFilesWithExtensions := index } cache
            fileName).1 = siblingFileName fileName s) ∧
      ∀ (baseName : QString) (suffixes : List QString),
        (candidateFileNames baseName suffixes).length = suffixes.length ∧
        ∀ i : Nat, (candidateFileNames baseName suffixes)[i]? =
          suffixes[i]?.map fun suffix => baseName ++ '.' :: suffix := by
  refine ⟨?_, fun baseName suffixes =>
    ⟨candidateFileNames_length baseName suffixes,
      candidateFileNames_getElem? baseName suffixes⟩⟩
  obtain ⟨i, s, hi, he, hbefore, hsearch⟩ :=
    searchCurrentDirectory_first env.fileExists (QFileInfo.absolutePath fileName)
      (QFileInfo.completeBaseName fileName)
      (matchingSuffixes env.mimeTypes (isHeader fileName)) hsome
  refine ⟨i, s, hi, he, hbefore, ?_, ?_⟩
  · unfold correspondingHeaderSource
    simp only [hmiss, List.isEmpty_nil, Bool.not_true, Bool.false_eq_true, if_false, hsearch]
    rfl
  · intro index
    unfold correspondingHeaderSource
    simp only [hmiss, List.isEmpty_nil, Bool.not_true, Bool.false_eq_true, if_false, hsearch]
    rfl

/-- Witness of C10: `/p/src/foo.cpp` from the empty cache, where both `/p/src/foo.h` and
`/p/src/foo.hpp` exist: the result is the sibling of the first candidate suffix, `h`. -/
theorem correspondingHeaderSource_first_existing_sibling_witness :
    Cache.value [] "/p/src/foo.cpp".toList = [] ∧
      matchingSuffixes exampleEnvironment.mimeTypes (isHeader "/p/src/foo.cpp".toList) =
        ["h".toList, "hpp".toList] ∧
      (correspondingHeaderSource exampleEnvironment [] "/p/src/foo.cpp".toList).1 =
        siblingFileName "/p/src/foo.cpp".toList "h".toList ∧
      ∃ (i : Nat) (s : QString),
        (matchingSuffixes exampleEnvironment.mimeTypes
          (isHeader "/p/src/foo.cpp".toList))[i]? = some s ∧
        (correspondingHeaderSource exampleEnvironment [] "/p/src/foo.cpp".toList).1 =
          siblingFileName "/p/src/foo.cpp".toList s :=
  have h := (correspondingHeaderSource_first_existing_sibling exampleEnvironment []
    "/p/src/foo.cpp".toList (by decide) ⟨"hpp".toList, by decide, by decide⟩).1
  ⟨by decide, by decide, by decide,
    h.elim fun i hi => hi.elim fun s hs => ⟨i, s, hs.1, hs.2.2.2.1⟩⟩

end Knut

namespace Knut

/-! ## The resolver: the common length of two paths and the candidate suffixes -/

/-- The loop of `commonFilePathLength` from the index `i` returns the first index from `i`
where the lower-cased characters differ, or `length`. -/
theorem commonFilePathLengthLoop_spec (toLower : Char → Char) (s1 s2 : QString)
    (length fuel : Nat) :
    ∀ i : Nat, fuel + i = length →
      i ≤ commonFilePathLengthLoop toLower s1 s2 length fuel i ∧
      commonFilePathLengthLoop toLower s1 s2 length fuel i ≤ length ∧
      (∀ j : Nat, i ≤ j → j < commonFilePathLengthLoop toLower s1 s2 length fuel i →
        toLower (s1.getD j nullChar) = toLower (s2.getD j nullChar)) ∧
      (commonFilePathLengthLoop toLower s1 s2 length fuel i < length →
        toLower (s1.getD (commonFilePathLengthLoop toLower s1 s2 length fuel i) nullChar) ≠
          toLower (s2.getD (commonFilePathLengthLoop toLower s1 s2 length fuel i) nullChar)) := by
  induction fuel with
  | zero =>
    intro i hi
    simp only [commonFilePathLengthLoop]
    refine ⟨by omega, le_refl _, fun j h1 h2 => by omega, fun h => absurd h (lt_irrefl _)⟩
  | succ fuel ih =>
    intro i hi
    rw [commonFilePathLengthLoop]
    split
    · rename_i hne
      exact ⟨le_refl _, by omega, fun j h1 h2 => by omega, fun _ => hne⟩
    · rename_i heq
      have heq2 : toLower (s1.getD i nullChar) = toLower (s2.getD i nullChar) := by
        by_contra h; exact heq h
      obtain ⟨h1, h2, h3, h4⟩ := ih (i + 1) (by omega)
      refine ⟨by omega, h2, ?_, h4⟩
      intro j hj hlt
      rcases Nat.eq_or_lt_of_le hj with e | e
      · rw [← e]; exact heq2
      · exact h3 j e hlt

theorem commonFilePathLengthLoop_comm (toLower : Char → Char) (s1 s2 : QString)
    (length fuel : Nat) :
    ∀ i : Nat, commonFilePathLengthLoop toLower s1 s2 length fuel i =
      commonFilePathLengthLoop toLower s2 s1 length fuel i := by
  induction fuel with
  | zero => intro i; rfl
  | succ fuel ih =>
    intro i
    rw [commonFilePathLengthLoop, commonFilePathLengthLoop, ih (i + 1)]
    by_cases h : toLower (s1.getD i nullChar) = toLower (s2.getD i nullChar)
    · rw [if_neg (not_not.mpr h), if_neg (not_not.mpr h.symm)]
    · rw [if_pos h, if_pos (fun e => h e.symm)]

/-- C13: for all strings `s1` and `s2`, `commonFilePathLength(s1, s2)` is at most
`min(|s1|, |s2|)`, the characters of `s1` and `s2` are equal after lower-casing at every
index below it, and it is the largest such number; it is symmetric in its arguments. It
counts characters, not path segments (`src/ab/x.h` and `src/ac/x.cpp` have 5 in common) and
ignores the case (`SRC/A` and `src/a` have 5 in common). -/
theorem commonFilePathLength_longest_common_run (toLower : Char → Char) (s1 s2 : QString) :
    commonFilePathLength toLower s1 s2 ≤ min s1.length s2.length ∧
      (∀ i : Nat, i < commonFilePathLength toLower s1 s2 →
        toLower (s1.getD i nullChar) = toLower (s2.getD i nullChar)) ∧
      (∀ k : Nat, k ≤ min s1.length s2.length →
        (∀ i : Nat, i < k → toLower (s1.getD i nullChar) = toLower (s2.getD i nullChar)) →
        k ≤ commonFilePathLength toLower s1 s2) ∧
      commonFilePathLength toLower s1 s2 = commonFilePathLength toLower s2 s1 ∧
      commonFilePathLength Char.toLower "src/ab/x.h".toList "src/ac/x.cpp".toList = 5 ∧
      commonFilePathLength Char.toLower "SRC/A".toList "src/a".toList = 5 := by
  obtain ⟨_, h2, h3, h4⟩ := commonFilePathLengthLoop_spec toLower s1 s2
    (min s1.length s2.length) (min s1.length s2.length) 0 (by omega)
  refine ⟨h2, fun i hi => h3 i (Nat.zero_le i) hi, ?_, ?_, by decide, by decide⟩
  · intro k hk hall
    by_contra hlt
    have hlt2 : commonFilePathLength toLower s1 s2 < k := by omega
    exact h4 (lt_of_lt_of_le hlt2 hk) (hall _ hlt2)
  · unfold commonFilePathLength
    simp only
    rw [Nat.min_comm s2.length s1.length]
    exact commonFilePathLengthLoop_comm toLower s1 s2 _ _ 0

theorem mem_matchingSuffixes (mimeTypes : List (QString × DocumentType)) (header : Bool)
    (suffix : QString) :
    suffix ∈ matchingSuffixes mimeTypes header ↔
      (suffix, DocumentType.Cpp) ∈ mimeTypes ∧ isHeaderSuffix suffix = !header := by
  induction mimeTypes with
  | nil => simp [matchingSuffixes]
  | cons it rest ih =>
    obtain ⟨key, type⟩ := it
    rw [matchingSuffixes]
    by_cases ht : type = DocumentType.Cpp
    · subst ht
      cases header <;> cases hk : isHeaderSuffix key <;>
        simp only [hk, if_true, Bool.not_true, Bool.not_false, Bool.and_true, Bool.and_false,
          Bool.or_false, Bool.false_or, Bool.true_and, Bool.false_and, Bool.or_self,
          Bool.false_eq_true, if_false, List.mem_cons, Prod.mk.injEq, and_true, ih]
      · constructor
        · intro h; exact ⟨Or.inr h.1, h.2⟩
        · rintro ⟨h1 | h1, h2⟩
          · rw [h1, hk] at h2; exact absurd h2 (by simp)
          · exact ⟨h1, h2⟩
      · constructor
        · rintro (h | h)
          · subst h; exact ⟨Or.inl rfl, hk⟩
          · exact ⟨Or.inr h.1, h.2⟩
        · rintro ⟨h1 | h1, h2⟩
          · exact Or.inl h1
          · exact Or.inr ⟨h1, h2⟩
      · constructor
        · rintro (h | h)
          · subst h; exact ⟨Or.inl rfl, hk⟩
          · exact ⟨Or.inr h.1, h.2⟩
        · rintro ⟨h1 | h1, h2⟩
          · exact Or.inl h1
          · exact Or.inr ⟨h1, h2⟩
      · constructor
        · intro h; exact ⟨Or.inr h.1, h.2⟩
        · rintro ⟨h1 | h1, h2⟩
          · rw [h1, hk] at h2; exact absurd h2 (by simp)
          · exact ⟨h1, h2⟩
    · simp only [ht, if_false, List.mem_cons, Prod.mk.injEq, ih]
      constructor
      · intro h; exact ⟨Or.inr h.1, h.2⟩
      · rintro ⟨h1 | h1, h2⟩
        · exact absurd h1.2.symm ht
        · exact ⟨h1, h2⟩

theorem matchingSuffixes_eq_filter (mimeTypes : List (QString × DocumentType))
    (header : Bool) :
    matchingSuffixes mimeTypes header =
      (mimeTypes.filter fun it =>
        decide (it.2 = DocumentType.Cpp) && (isHeaderSuffix it.1 != header)).map Prod.fst := by
  induction mimeTypes with
  | nil => rfl
  | cons it rest ih =>
    obtain ⟨key, type⟩ := it
    rw [matchingSuffixes, ih]
    by_cases ht : type = DocumentType.Cpp
    · subst ht
      cases header <;> cases hk : isHeaderSuffix key <;> simp [List.filter_cons, hk]
    · simp [List.filter_cons, ht]

/-- C14: a suffix is classified as header exactly when it starts with the character `h`;
`matchingSuffixes(header)` is the list of the keys of the configuration, in its order, whose
type is C++ and whose header classification is the opposite of `header`; no suffix is in
both results, and a suffix is configured as C++ exactly when it is in one of the two. -/
theorem matchingSuffixes_opposite_category (mimeTypes : List (QString × DocumentType))
    (header : Bool) :
    (∀ suffix : QString, isHeaderSuffix suffix = true ↔ ∃ rest, suffix = 'h' :: rest) ∧
      matchingSuffixes mimeTypes header =
        (mimeTypes.filter fun it =>
          decide (it.2 = DocumentType.Cpp) && (isHeaderSuffix it.1 != header)).map Prod.fst ∧
      (∀ suffix : QString, suffix ∈ matchingSuffixes mimeTypes header ↔
        (suffix, DocumentType.Cpp) ∈ mimeTypes ∧ isHeaderSuffix suffix = !header) ∧
      (∀ suffix : QString, ¬ (suffix ∈ matchingSuffixes mimeTypes true ∧
        suffix ∈ matchingSuffixes mimeTypes false)) ∧
      (∀ suffix : QString, (suffix, DocumentType.Cpp) ∈ mimeTypes ↔
        suffix ∈ matchingSuffixes mimeTypes true ∨
          suffix ∈ matchingSuffixes mimeTypes false) := by
  refine ⟨?_, matchingSuffixes_eq_filter mimeTypes header,
    mem_matchingSuffixes mimeTypes header, ?_, ?_⟩
  · intro suffix
    cases suffix with
    | nil => simp [isHeaderSuffix]
    | cons c rest => simp [isHeaderSuffix]
  · intro suffix h
    rw [mem_matchingSuffixes, mem_matchingSuffixes] at h
    have h1 := h.1.2
    rw [h.2.2] at h1
    simp at h1
  · intro suffix
    rw [mem_matchingSuffixes, mem_matchingSuffixes]
    constructor
    · intro h
      cases hk : isHeaderSuffix suffix
      · exact Or.inl ⟨h, by simp⟩
      · exact Or.inr ⟨h, by simp⟩
    · rintro (h | h) <;> exact h.1

end Knut

namespace Knut

/-! ## The resolver: the project-wide search -/

theorem searchCurrentDirectory_none (fileExists : QString → Bool)
    (absolutePath baseName : QString) (suffixes : List QString)
    (h : ∀ s ∈ suffixes, fileExists (absolutePath ++ '/' :: (baseName ++ '.' :: s)) = false) :
    searchCurrentDirectory fileExists absolutePath (candidateFileNames baseName suffixes) =
      none := by
  induction suffixes with
  | nil => rfl
  | cons x rest ih =>
    rw [candidateFileNames, searchCurrentDirectory, h x (List.mem_cons_self x rest)]
    simp only [Bool.false_eq_true, if_false]
    exact ih fun s hs => h s (List.mem_cons_of_mem x hs)

/-- On a cache miss without a sibling on disk, the result of `correspondingHeaderSource` is
decided by the project-wide search. -/
theorem correspondingHeaderSource_fallback (env : Environment) (cache : Cache)
    (fileName : QString) (hmiss : cache.value fileName = [])
    (hnosibling : ∀ s ∈ matchingSuffixes env.mimeTypes (isHeader fileName),
      env.fileExists (siblingFileName fileName s) = false) :
    correspondingHeaderSource env cache fileName =
      if (projectFallback env fileName).isEmpty = false then
        (projectFallback env fileName,
          (cache.insert fileName (projectFallback env fileName)).insert
            (projectFallback env fileName) fileName)
      else ([], cache) := by
  have hsearch := searchCurrentDirectory_none env.fileExists (QFileInfo.absolutePath fileName)
    (QFileInfo.completeBaseName fileName) (matchingSuffixes env.mimeTypes (isHeader fileName))
    hnosibling
  unfold correspondingHeaderSource
  simp only [hmiss, List.isEmpty_nil, Bool.not_true, Bool.false_eq_true, if_false, hsearch]
  have e : searchProject env fileName (matchingSuffixes env.mimeTypes (isHeader fileName))
      (candidateFileNames (QFileInfo.completeBaseName fileName)
        (matchingSuffixes env.mimeTypes (isHeader fileName))) = projectFallback env fileName :=
    rfl
  rw [e]
  cases (projectFallback env fileName).isEmpty <;> simp

/-- The loop over the candidates keeps the file it has when no candidate is longer than
`compareValue`; otherwise it returns the first of the candidates with the greatest common
length. -/
theorem findBestFileName_spec (toLower : Char → Char) (fileName : QString)
    (paths : List QString) :
    ∀ (bestFileName : QString) (compareValue : Nat),
      (findBestFileName toLower fileName paths bestFileName compareValue = bestFileName ∧
        ∀ q ∈ paths, commonFilePathLength toLower q fileName ≤ compareValue) ∨
      ∃ before after,
        paths = before ++
          findBestFileName toLower fileName paths bestFileName compareValue :: after ∧
        compareValue < commonFilePathLength toLower
          (findBestFileName toLower fileName paths bestFileName compareValue) fileName ∧
        (∀ q ∈ before, commonFilePathLength toLower q fileName <
          commonFilePathLength toLower
            (findBestFileName toLower fileName paths bestFileName compareValue) fileName) ∧
        (∀ q ∈ after, commonFilePathLength toLower q fileName ≤
          commonFilePathLength toLower
            (findBestFileName toLower fileName paths bestFileName compareValue) fileName) := by
  induction paths with
  | nil => intro b v; left; exact ⟨rfl, fun q hq => absurd hq (List.not_mem_nil q)⟩
  | cons path rest ih =>
    intro b v
    rw [findBestFileName]
    by_cases hgt : commonFilePathLength toLower path fileName > v
    · rw [if_pos hgt]
      rcases ih path (commonFilePathLength toLower path fileName) with ⟨h1, h2⟩ | h
      · right
        refine ⟨[], rest, by rw [h1]; rfl, by rw [h1]; exact hgt, ?_, ?_⟩
        · intro q hq; exact absurd hq (List.not_mem_nil q)
        · intro q hq; rw [h1]; exact h2 q hq
      · obtain ⟨before, after, h1, h2, h3, h4⟩ := h
        right
        refine ⟨path :: before, after, by rw [List.cons_append, ← h1], by omega, ?_, h4⟩
        intro q hq
        rcases List.mem_cons.mp hq with e | e
        · rw [e]; exact h2
        · exact h3 q e
    · rw [if_neg hgt]
      rcases ih b v with ⟨h1, h2⟩ | h
      · left
        refine ⟨h1, ?_⟩
        intro q hq
        rcases List.mem_cons.mp hq with e | e
        · rw [e]; omega
        · exact h2 q e
      · obtain ⟨before, after, h1, h2, h3, h4⟩ := h
        right
        refine ⟨path :: before, after, by rw [List.cons_append, ← h1], h2, ?_, h4⟩
        intro q hq
        rcases List.mem_cons.mp hq with e | e
        · rw [e]; omega
        · exact h3 q e

theorem checkIfPathNeedToBeRemoved_eq (foldCase : Char → Char) (candidates : List QString)
    (path : QString) :
    checkIfPathNeedToBeRemoved foldCase candidates path =
      !candidates.any fun fileName => endsWithCaseInsensitive foldCase path fileName := by
  induction candidates with
  | nil => rfl
  | cons c rest ih =>
    rw [checkIfPathNeedToBeRemoved, List.any_cons]
    cases endsWithCaseInsensitive foldCase path c
    · simp only [Bool.false_eq_true, if_false, Bool.false_or]; exact ih
    · simp

theorem any_candidateFileNames (baseName : QString) (suffixes : List QString)
    (test : QString → Bool) :
    (candidateFileNames baseName suffixes).any test =
      suffixes.any fun suffix => test (baseName ++ '.' :: suffix) := by
  induction suffixes with
  | nil => rfl
  | cons s rest ih => rw [candidateFileNames, List.any_cons, List.any_cons, ih]

/-- The filtered candidates are the paths of the index that end with a candidate name, in
the order of the index. -/
theorem filteredPathNames_eq (env : Environment) (fileName : QString) :
    filteredPathNames env fileName =
      (env.allFilesWithExtensions (matchingSuffixes env.mimeTypes (isHeader fileName))).filter
        fun path => (matchingSuffixes env.mimeTypes (isHeader fileName)).any fun suffix =>
          endsWithCaseInsensitive env.foldCase path
            (QFileInfo.completeBaseName fileName ++ '.' :: suffix) := by
  unfold filteredPathNames
  congr 1
  funext path
  rw [checkIfPathNeedToBeRemoved_eq, any_candidateFileNames, Bool.not_not]

/-- A non-empty result of the project-wide search is the first of the filtered candidates
with the greatest common length. -/
theorem projectFallback_spec (env : Environment) (fileName : QString)
    (h : projectFallback env fileName ≠ []) :
    ∃ before after,
      filteredPathNames env fileName = before ++ projectFallback env fileName :: after ∧
      (∀ q ∈ before, commonFilePathLength env.toLower q fileName <
        commonFilePathLength env.toLower (projectFallback env fileName) fileName) ∧
      (∀ q ∈ after, commonFilePathLength env.toLower q fileName ≤
        commonFilePathLength env.toLower (projectFallback env fileName) fileName) := by
  rcases findBestFileName_spec env.toLower fileName (filteredPathNames env fileName) [] 0 with
    ⟨h1, _⟩ | ⟨before, after, h1, _, h3, h4⟩
  · exact absurd h1 h
  · exact ⟨before, after, h1, h3, h4⟩

/-- The path returned on a cache miss without a sibling on disk is the result of the
project-wide search. -/
theorem returned_eq_projectFallback (env : Environment) (cache : Cache)
    (fileName p : QString) (hmiss : cache.value fileName = [])
    (hnosibling : ∀ s ∈ matchingSuffixes env.mimeTypes (isHeader fileName),
      env.fileExists (siblingFileName fileName s) = false)
    (hreturned : (correspondingHeaderSource env cache fileName).1 = p) :
    projectFallback env fileName = p := by
  rw [correspondingHeaderSource_fallback env cache fileName hmiss hnosibling] at hreturned
  cases he : (projectFallback env fileName).isEmpty
  · rw [he] at hreturned; simpa using hreturned
  · rw [he] at hreturned
    simp only [Bool.true_eq_false, if_false] at hreturned
    rw [← hreturned]
    exact List.isEmpty_iff.mp he

end Knut

namespace Knut

/-- C11: on a cache miss without a sibling on disk, a non-empty returned path `p` is a
filtered candidate; its common length with the file of the document is at least that of
every filtered candidate and greater than that of every filtered candidate before the
place of `p` in the order of the index. -/
theorem fallback_returns_first_longest (env : Environment) (cache : Cache)
    (fileName p : QString) (hmiss : cache.value fileName = [])
    (hnosibling : ∀ s ∈ matchingSuffixes env.mimeTypes (isHeader fileName),
      env.fileExists (siblingFileName fileName s) = false)
    (hreturned : (correspondingHeaderSource env cache fileName).1 = p) (hp : p ≠ []) :
    p ∈ filteredPathNames env fileName ∧
      (∀ q ∈ filteredPathNames env fileName,
        commonFilePathLength env.toLower q fileName ≤
          commonFilePathLength env.toLower p fileName) ∧
      ∃ before after, filteredPathNames env fileName = before ++ p :: after ∧
        (∀ q ∈ before, commonFilePathLength env.toLower q fileName <
          commonFilePathLength env.toLower p fileName) ∧
        (∀ q ∈ after, commonFilePathLength env.toLower q fileName ≤
          commonFilePathLength env.toLower p fileName) := by
  have hfb := returned_eq_projectFallback env cache fileName p hmiss hnosibling hreturned
  obtain ⟨before, after, h1, h2, h3⟩ := projectFallback_spec env fileName (by rw [hfb]; exact hp)
  rw [hfb] at h1 h2 h3
  refine ⟨by rw [h1]; simp, ?_, before, after, h1, h2, h3⟩
  intro q hq
  rw [h1] at hq
  rcases List.mem_append.mp hq with e | e
  · exact Nat.le_of_lt (h2 q e)
  · rcases List.mem_cons.mp e with e1 | e1
    · rw [e1]
    · exact h3 q e1

/-- Witness of C11: the document `src/a/foo.cpp`, the index `src/b/foo.h`,
`src/a/old/foo.h`, no file on disk and the empty cache. -/
theorem fallback_returns_first_longest_witness :
    (correspondingHeaderSource
        (indexEnvironment ["src/b/foo.h".toList, "src/a/old/foo.h".toList]) []
        "src/a/foo.cpp".toList).1 = "src/a/old/foo.h".toList ∧
      ∀ q ∈ filteredPathNames
          (indexEnvironment ["src/b/foo.h".toList, "src/a/old/foo.h".toList])
          "src/a/foo.cpp".toList,
        commonFilePathLength Char.toLower q "src/a/foo.cpp".toList ≤
          commonFilePathLength Char.toLower "src/a/old/foo.h".toList "src/a/foo.cpp".toList :=
  ⟨by decide,
    (fallback_returns_first_longest
      (indexEnvironment ["src/b/foo.h".toList, "src/a/old/foo.h".toList]) []
      "src/a/foo.cpp".toList "src/a/old/foo.h".toList (by decide) (fun _ _ => rfl)
      (by decide) (by decide)).2.1⟩

/-- C12: for the document `src/a/foo.cpp`, without a file on disk, and the index
`src/b/foo.h`, `src/a/old/foo.h` in either order, `commonFilePathLength` is 4 for the first
path and 6 for the second, and `correspondingHeaderSource` returns `src/a/old/foo.h`. -/
theorem fallback_scenario :
    commonFilePathLength Char.toLower "src/b/foo.h".toList "src/a/foo.cpp".toList = 4 ∧
      "src/".toList.length = 4 ∧
      commonFilePathLength Char.toLower "src/a/old/foo.h".toList "src/a/foo.cpp".toList = 6 ∧
      "src/a/".toList.length = 6 ∧
      (correspondingHeaderSource
        (indexEnvironment ["src/b/foo.h".toList, "src/a/old/foo.h".toList]) []
        "src/a/foo.cpp".toList).1 = "src/a/old/foo.h".toList ∧
      (correspondingHeaderSource
        (indexEnvironment ["src/a/old/foo.h".toList, "src/b/foo.h".toList]) []
        "src/a/foo.cpp".toList).1 = "src/a/old/foo.h".toList := by
  refine ⟨?_, ?_, ?_, ?_, ?_, ?_⟩ <;> decide

/-- C15: on a cache miss without a sibling on disk, a non-empty returned path is a path of
the index that ends, without regard to case, with `completeBaseName + '.' + suffix` for a
candidate suffix; a path that ends with none of these names is not among the filtered
candidates; the filtered candidates are the paths of the index that end with one of the
names, in the order of the index. -/
theorem fallback_result_ends_with_candidate (env : Environment) (cache : Cache)
    (fileName p : QString) (hmiss : cache.value fileName = [])
    (hnosibling : ∀ s ∈ matchingSuffixes env.mimeTypes (isHeader fileName),
      env.fileExists (siblingFileName fileName s) = false)
    (hreturned : (correspondingHeaderSource env cache fileName).1 = p) (hp : p ≠ []) :
    p ∈ env.allFilesWithExtensions (matchingSuffixes env.mimeTypes (isHeader fileName)) ∧
      (∃ suffix ∈ matchingSuffixes env.mimeTypes (isHeader fileName),
        endsWithCaseInsensitive env.foldCase p
          (QFileInfo.completeBaseName fileName ++ '.' :: suffix) = true) ∧
      (∀ path : QString,
        (∀ suffix ∈ matchingSuffixes env.mimeTypes (isHeader fileName),
          endsWithCaseInsensitive env.foldCase path
            (QFileInfo.completeBaseName fileName ++ '.' :: suffix) = false) →
        path ∉ filteredPathNames env fileName ∧ (path ≠ [] → p ≠ path)) ∧
      filteredPathNames env fileName =
        (env.allFilesWithExtensions
          (matchingSuffixes env.mimeTypes (isHeader fileName))).filter
          (fun path => (matchingSuffixes env.mimeTypes (isHeader fileName)).any fun suffix =>
            endsWithCaseInsensitive env.foldCase path
              (QFileInfo.completeBaseName fileName ++ '.' :: suffix)) ∧
      List.Sublist (filteredPathNames env fileName)
        (env.allFilesWithExtensions (matchingSuffixes env.mimeTypes (isHeader fileName))) := by
  have hfb := returned_eq_projectFallback env cache fileName p hmiss hnosibling hreturned
  obtain ⟨before, after, h1, _, _⟩ := projectFallback_spec env fileName (by rw [hfb]; exact hp)
  rw [hfb] at h1
  have hmem : p ∈ filteredPathNames env fileName := by rw [h1]; simp
  have hnot : ∀ path : QString,
      (∀ suffix ∈ matchingSuffixes env.mimeTypes (isHeader fileName),
        endsWithCaseInsensitive env.foldCase path
          (QFileInfo.completeBaseName fileName ++ '.' :: suffix) = false) →
      path ∉ filteredPathNames env fileName := by
    intro path hall hin
    rw [filteredPathNames_eq, List.mem_filter, List.any_eq_true] at hin
    obtain ⟨_, suffix, hs, he⟩ := hin
    rw [hall suffix hs] at he
    exact absurd he (by simp)
  have hmem2 := hmem
  rw [filteredPathNames_eq, List.mem_filter, List.any_eq_true] at hmem2
  refine ⟨hmem2.1, hmem2.2, ?_, filteredPathNames_eq env fileName, ?_⟩
  · intro path hall
    refine ⟨hnot path hall, fun _ e => ?_⟩
    rw [← e] at hall
    exact hnot p hall hmem
  · rw [filteredPathNames_eq]
    exact List.filter_sublist _

/-- Witness of C15: the document `/p/src/foo.cpp`, the index `/p/other/bar.h`,
`/p/include/FOO.H`, no file on disk and the empty cache. -/
theorem fallback_result_ends_with_candidate_witness :
    (correspondingHeaderSource
        (indexEnvironment ["/p/other/bar.h".toList, "/p/include/FOO.H".toList]) []
        "/p/src/foo.cpp".toList).1 = "/p/include/FOO.H".toList ∧
      filteredPathNames (indexEnvironment ["/p/other/bar.h".toList, "/p/include/FOO.H".toList])
        "/p/src/foo.cpp".toList = ["/p/include/FOO.H".toList] ∧
      ∃ suffix ∈ matchingSuffixes exampleMimeTypes (isHeader "/p/src/foo.cpp".toList),
        endsWithCaseInsensitive Char.toLower "/p/include/FOO.H".toList
          (QFileInfo.completeBaseName "/p/src/foo.cpp".toList ++ '.' :: suffix) = true :=
  ⟨by decide, by decide,
    (fallback_result_ends_with_candidate
      (indexEnvironment ["/p/other/bar.h".toList, "/p/include/FOO.H".toList]) []
      "/p/src/foo.cpp".toList "/p/include/FOO.H".toList (by decide) (fun _ _ => rfl)
      (by decide) (by decide)).2.1⟩

/-- C16: on a cache miss, when no sibling of a candidate suffix exists on disk and the
project-wide search selects no file, `correspondingHeaderSource` returns the empty path and
the cache is the one of before the call. -/
theorem correspondingHeaderSource_nothing_found (env : Environment) (cache : Cache)
    (fileName : QString) (hmiss : cache.value fileName = [])
    (hnosibling : ∀ s ∈ matchingSuffixes env.mimeTypes (isHeader fileName),
      env.fileExists (siblingFileName fileName s) = false)
    (hnone : projectFallback env fileName = []) :
    correspondingHeaderSource env cache fileName = ([], cache) := by
  rw [correspondingHeaderSource_fallback env cache fileName hmiss hnosibling, hnone]
  rfl

/-- Witness of C16: the document `/p/src/foo.cpp`, the index `lib/foo.h`, which has no
leading character in common with the file of the document, and a cache with one entry. -/
theorem correspondingHeaderSource_nothing_found_witness :
    projectFallback (indexEnvironment ["lib/foo.h".toList]) "/p/src/foo.cpp".toList = [] ∧
      correspondingHeaderSource (indexEnvironment ["lib/foo.h".toList])
        [("/a.h".toList, "/a.cpp".toList)] "/p/src/foo.cpp".toList =
        ([], [("/a.h".toList, "/a.cpp".toList)]) :=
  ⟨by decide,
    correspondingHeaderSource_nothing_found (indexEnvironment ["lib/foo.h".toList])
      [("/a.h".toList, "/a.cpp".toList)] "/p/src/foo.cpp".toList (by decide)
      (fun _ _ => rfl) (by decide)⟩

end Knut

namespace Knut

/-! ## The resolver: the entries of the cache -/

theorem Cache.mem_insert (cache : Cache) (key value : QString) (entry : QString × QString) :
    entry ∈ cache.insert key value ↔ entry = (key, value) ∨ (entry ∈ cache ∧ entry.1 ≠ key) := by
  simp [Cache.insert, List.mem_filter]

/-- After `cache[f] = p; cache[p] = f` the cache maps `f` to `p` and `p` to `f`. -/
theorem Cache.mem_insert_pair (cache : Cache) (f p : QString) :
    (f, p) ∈ (cache.insert f p).insert p f ∧ (p, f) ∈ (cache.insert f p).insert p f := by
  refine ⟨?_, (Cache.mem_insert _ _ _ _).mpr (Or.inl rfl)⟩
  by_cases h : f = p
  · subst h; exact (Cache.mem_insert _ _ _ _).mpr (Or.inl rfl)
  · exact (Cache.mem_insert _ _ _ _).mpr
      (Or.inr ⟨(Cache.mem_insert _ _ _ _).mpr (Or.inl rfl), h⟩)

/-- An entry whose key is neither `f` nor `p` is kept by `cache[f] = p; cache[p] = f`. -/
theorem Cache.mem_insert_pair_of_ne (cache : Cache) (f p : QString)
    (entry : QString × QString) (h : entry ∈ cache) (hf : entry.1 ≠ f) (hp : entry.1 ≠ p) :
    entry ∈ (cache.insert f p).insert p f :=
  (Cache.mem_insert _ _ _ _).mpr
    (Or.inr ⟨(Cache.mem_insert _ _ _ _).mpr (Or.inr ⟨h, hf⟩), hp⟩)

/-- The keys `f` and `p` and the keys of before have an entry after
`cache[f] = p; cache[p] = f`. -/
theorem Cache.key_insert_pair (cache : Cache) (f p key : QString)
    (h : key = f ∨ key = p ∨ ∃ value, (key, value) ∈ cache) :
    ∃ value, (key, value) ∈ (cache.insert f p).insert p f := by
  by_cases hp : key = p
  · rw [hp]; exact ⟨f, (Cache.mem_insert_pair cache f p).2⟩
  · by_cases hf : key = f
    · rw [hf]; exact ⟨p, (Cache.mem_insert_pair cache f p).1⟩
    · rcases h with h | h | ⟨value, h⟩
      · exact absurd h hf
      · exact absurd h hp
      · exact ⟨value, Cache.mem_insert_pair_of_ne cache f p (key, value) h hf hp⟩

theorem searchCurrentDirectory_ne_nil (fileExists : QString → Bool) (absolutePath : QString)
    (candidates : List QString) (testFileName : QString)
    (h : searchCurrentDirectory fileExists absolutePath candidates = some testFileName) :
    testFileName ≠ [] := by
  induction candidates with
  | nil => simp [searchCurrentDirectory] at h
  | cons c rest ih =>
    rw [searchCurrentDirectory] at h
    split at h
    · rw [← Option.some.inj h]; simp
    · exact ih h

/-- The three ways in which a call of `correspondingHeaderSource` ends: a cache hit, nothing
found, or a file found, which is stored in both directions. -/
theorem correspondingHeaderSource_cases (env : Environment) (cache : Cache)
    (fileName : QString) :
    (cache.value fileName ≠ [] ∧
        correspondingHeaderSource env cache fileName = (cache.value fileName, cache)) ∨
      (cache.value fileName = [] ∧ correspondingHeaderSource env cache fileName = ([], cache)) ∨
      (cache.value fileName = [] ∧ ∃ p, p ≠ [] ∧
        correspondingHeaderSource env cache fileName =
          (p, (cache.insert fileName p).insert p fileName)) := by
  by_cases hmiss : cache.value fileName = []
  · right
    unfold correspondingHeaderSource
    simp only [hmiss, List.isEmpty_nil, Bool.not_true, Bool.false_eq_true, if_false]
    cases hs : searchCurrentDirectory env.fileExists (QFileInfo.absolutePath fileName)
        (candidateFileNames (QFileInfo.completeBaseName fileName)
          (matchingSuffixes env.mimeTypes (isHeader fileName))) with
    | some testFileName =>
      right
      exact ⟨trivial, testFileName, searchCurrentDirectory_ne_nil _ _ _ _ hs, rfl⟩
    | none =>
      simp only
      cases he : (searchProject env fileName (matchingSuffixes env.mimeTypes (isHeader fileName))
          (candidateFileNames (QFileInfo.completeBaseName fileName)
            (matchingSuffixes env.mimeTypes (isHeader fileName)))).isEmpty
      · right
        refine ⟨trivial, searchProject env fileName
          (matchingSuffixes env.mimeTypes (isHeader fileName))
          (candidateFileNames (QFileInfo.completeBaseName fileName)
            (matchingSuffixes env.mimeTypes (isHeader fileName))), ?_, by simp⟩
        intro e; rw [e] at he; simp at he
      · left
        exact ⟨trivial, by simp⟩
  · left
    refine ⟨hmiss, ?_⟩
    unfold correspondingHeaderSource
    have he : (cache.value fileName).isEmpty = false := by
      cases hv : cache.value fileName with
      | nil => exact absurd hv hmiss
      | cons c rest => rfl
    simp [he]

/-- The two calls of the examples: `/p/src/foo.cpp` and then `/p/tests/foo.cpp` are resolved
to `/p/include/foo.h` by the project-wide search, from the empty cache. -/
theorem reachable_example :
    ReachableCache exampleMimeTypes
      (correspondingHeaderSource (indexEnvironment ["/p/include/foo.h".toList])
        (correspondingHeaderSource (indexEnvironment ["/p/include/foo.h".toList]) []
          "/p/src/foo.cpp".toList).2 "/p/tests/foo.cpp".toList).2 :=
  ReachableCache.call _ _ _ (ReachableCache.call _ _ _ ReachableCache.empty rfl) rfl

/-- C17, as stated, fails: after `/p/src/foo.cpp` and then `/p/tests/foo.cpp` have been
resolved to `/p/include/foo.h`, the cache maps `/p/src/foo.cpp` to `/p/include/foo.h` but
`/p/include/foo.h` to `/p/tests/foo.cpp`. -/
theorem reachable_cache_not_symmetric :
    ¬ ∀ (mimeTypes : List (QString × DocumentType)) (cache : Cache),
        ReachableCache mimeTypes cache →
          ∀ a b : QString, (a, b) ∈ cache → (b, a) ∈ cache := by
  intro h
  have h1 := h _ _ reachable_example "/p/src/foo.cpp".toList "/p/include/foo.h".toList
    (by decide)
  exact absurd h1 (by decide)

/-- C17, amended: in every cache reachable from the empty cache, a path that the cache maps
some path to has an entry itself; and a call that misses the cache and returns a non-empty
path `p` for the file `f` leaves a cache that maps `f` to `p` and `p` to `f`. -/
theorem reachable_cache_values_have_entries (mimeTypes : List (QString × DocumentType))
    (cache : Cache) (hreach : ReachableCache mimeTypes cache) :
    (∀ a b : QString, (a, b) ∈ cache → ∃ c, (b, c) ∈ cache) ∧
      ∀ (env : Environment) (f p : QString), cache.value f = [] →
        (correspondingHeaderSource env cache f).1 = p → p ≠ [] →
        (f, p) ∈ (correspondingHeaderSource env cache f).2 ∧
          (p, f) ∈ (correspondingHeaderSource env cache f).2 := by
  constructor
  · induction hreach with
    | empty => intro a b h; exact absurd h (List.not_mem_nil _)
    | call env cache fileName _ _ ih =>
      rcases correspondingHeaderSource_cases env cache fileName with
        ⟨_, h⟩ | ⟨_, h⟩ | ⟨_, p, _, h⟩
      · rw [h]; exact ih
      · rw [h]; exact ih
      · rw [h]
        intro a b hab
        apply Cache.key_insert_pair
        rcases (Cache.mem_insert _ _ _ _).mp hab with e | ⟨e, _⟩
        · have e2 : b = fileName := (Prod.mk.inj e).2
          exact Or.inl e2
        · rcases (Cache.mem_insert _ _ _ _).mp e with e1 | ⟨e1, _⟩
          · have e2 : b = p := (Prod.mk.inj e1).2
            exact Or.inr (Or.inl e2)
          · exact Or.inr (Or.inr (ih a b e1))
  · intro env f p hmiss hreturned hp
    rcases correspondingHeaderSource_cases env cache f with
      ⟨h0, _⟩ | ⟨_, h⟩ | ⟨_, q, _, h⟩
    · exact absurd hmiss h0
    · rw [h] at hreturned; exact absurd hreturned.symm hp
    · rw [h] at hreturned ⊢
      have e : q = p := hreturned
      subst e
      exact Cache.mem_insert_pair cache f q

/-- Witness of C17: in the cache after the two calls of the examples, which maps
`/p/src/foo.cpp` to `/p/include/foo.h`, the path `/p/include/foo.h` has an entry. -/
theorem reachable_cache_values_have_entries_witness :
    ReachableCache exampleMimeTypes
        (correspondingHeaderSource (indexEnvironment ["/p/include/foo.h".toList])
          (correspondingHeaderSource (indexEnvironment ["/p/include/foo.h".toList]) []
            "/p/src/foo.cpp".toList).2 "/p/tests/foo.cpp".toList).2 ∧
      ∃ c, ("/p/include/foo.h".toList, c) ∈
        (correspondingHeaderSource (indexEnvironment ["/p/include/foo.h".toList])
          (correspondingHeaderSource (indexEnvironment ["/p/include/foo.h".toList]) []
            "/p/src/foo.cpp".toList).2 "/p/tests/foo.cpp".toList).2 :=
  ⟨reachable_example,
    (reachable_cache_values_have_entries exampleMimeTypes _ reachable_example).1
      "/p/src/foo.cpp".toList "/p/include/foo.h".toList (by decide)⟩

/-- C18, as stated, fails: the cache reached by resolving `/p/src/foo.cpp` maps
`/p/include/foo.h` to `/p/src/foo.cpp`; the call for `/p/tests/foo.cpp` replaces that
entry. -/
theorem cache_entry_overwritten :
    ¬ ∀ (mimeTypes : List (QString × DocumentType)) (env : Environment) (cache : Cache)
        (fileName a b : QString), ReachableCache mimeTypes cache → env.mimeTypes = mimeTypes →
          (a, b) ∈ cache → (a, b) ∈ (correspondingHeaderSource env cache fileName).2 := by
  intro h
  have h1 := h exampleMimeTypes (indexEnvironment ["/p/include/foo.h".toList])
    (correspondingHeaderSource (indexEnvironment ["/p/include/foo.h".toList]) []
      "/p/src/foo.cpp".toList).2 "/p/tests/foo.cpp".toList
    "/p/include/foo.h".toList "/p/src/foo.cpp".toList
    (ReachableCache.call _ _ _ ReachableCache.empty rfl) rfl (by decide)
  exact absurd h1 (by decide)

/-- C18, amended: a call of `correspondingHeaderSource` removes no key of the cache: a path
with an entry before the call has an entry after it, and the value is the same unless the
path is the file of the call or the returned path; a cache hit leaves the cache as it
is. -/
theorem cache_keys_kept (env : Environment) (cache : Cache) (fileName : QString) :
    (∀ a b : QString, (a, b) ∈ cache →
        ∃ c, (a, c) ∈ (correspondingHeaderSource env cache fileName).2) ∧
      (∀ a b : QString, (a, b) ∈ cache → a ≠ fileName →
        a ≠ (correspondingHeaderSource env cache fileName).1 →
        (a, b) ∈ (correspondingHeaderSource env cache fileName).2) ∧
      (cache.value fileName ≠ [] →
        correspondingHeaderSource env cache fileName = (cache.value fileName, cache)) := by
  rcases correspondingHeaderSource_cases env cache fileName with
    ⟨h0, h⟩ | ⟨h0, h⟩ | ⟨h0, p, _, h⟩
  · rw [h]; exact ⟨fun a b hab => ⟨b, hab⟩, fun a b hab _ _ => hab, fun _ => rfl⟩
  · rw [h]; exact ⟨fun a b hab => ⟨b, hab⟩, fun a b hab _ _ => hab, fun hne => absurd h0 hne⟩
  · rw [h]
    refine ⟨?_, ?_, fun hne => absurd h0 hne⟩
    · intro a b hab
      exact Cache.key_insert_pair cache fileName p a (Or.inr (Or.inr ⟨b, hab⟩))
    · intro a b hab hf hp
      exact Cache.mem_insert_pair_of_ne cache fileName p (a, b) hab hf hp

end Knut

namespace Knut

/-! ## The forward declaration -/

theorem indexOfChar_append (c : Char) (before after : QString) (h : c ∉ before) :
    indexOfChar c (before ++ c :: after) = before.length := by
  induction before with
  | nil => simp [indexOfChar]
  | cons x rest ih =>
    simp only [List.mem_cons, not_or] at h
    rw [List.cons_append, indexOfChar, if_neg (fun e => h.1 e.symm), ih h.2]
    rw [if_neg (by omega)]
    simp

/-- The parts of a declaration `K rest` whose keyword `K` has no space. -/
theorem declaration_parts (keyword rest : QString) (h : ' ' ∉ keyword) :
    classOrStruct (keyword ++ ' ' :: rest) = keyword ∧
      midRef (keyword ++ ' ' :: rest) (indexOfChar ' ' (keyword ++ ' ' :: rest) + 1) = rest := by
  have hi := indexOfChar_append ' ' keyword rest h
  constructor
  · unfold classOrStruct leftRef
    rw [hi, if_neg (by simp), Int.toNat_ofNat]
    simp
  · unfold midRef
    rw [hi, if_neg (by simp)]
    have e : ((keyword.length : Int) + 1).toNat = keyword.length + 1 := by omega
    rw [e]
    simp

theorem splitDoubleColon_of_no_colon (s : QString) (h : ':' ∉ s) :
    splitDoubleColon s = [s] := by
  induction s with
  | nil => rfl
  | cons c t ih =>
    simp only [List.mem_cons, not_or] at h
    cases t with
    | nil => rfl
    | cons d rest =>
      rw [splitDoubleColon, if_neg (fun e => h.1 e.1.symm), ih h.2]

theorem splitDoubleColon_append (part tail : QString) (h : ':' ∉ part) :
    splitDoubleColon (part ++ ':' :: ':' :: tail) = part :: splitDoubleColon tail := by
  induction part with
  | nil => rw [List.nil_append, splitDoubleColon, if_pos ⟨rfl, rfl⟩]
  | cons c p ih =>
    simp only [List.mem_cons, not_or] at h
    have ih2 := ih h.2
    cases p with
    | nil =>
      rw [List.nil_append] at ih2
      show splitDoubleColon (c :: ':' :: ':' :: tail) = _
      rw [splitDoubleColon, if_neg (fun e => h.1 e.1.symm), ih2]
    | cons d rest =>
      show splitDoubleColon (c :: d :: (rest ++ ':' :: ':' :: tail)) = _
      rw [splitDoubleColon, if_neg (fun e => h.1 e.1.symm)]
      rw [List.cons_append] at ih2
      rw [ih2]

/-- Splitting `q1::q2::...::qn` gives back its parts, when no part holds a colon. -/
theorem splitDoubleColon_join (parts : List QString) (hne : parts ≠ [])
    (h : ∀ part ∈ parts, ':' ∉ part) :
    splitDoubleColon (joinDoubleColon parts) = parts := by
  induction parts with
  | nil => exact absurd rfl hne
  | cons part rest ih =>
    cases rest with
    | nil => exact splitDoubleColon_of_no_colon part (h part (List.mem_cons_self _ _))
    | cons r rs =>
      rw [joinDoubleColon, splitDoubleColon_append part _ (h part (List.mem_cons_self _ _)),
        ih (by simp) (fun q hq => h q (List.mem_cons_of_mem part hq))]
      exact fun e => List.noConfusion e

/-- The loop over the reversed qualifiers nests the blocks with the first qualifier
outermost. -/
theorem foldl_namespaceBlock (qualifiers : List QString) (declaration : QString) :
    qualifiers.reverse.foldl (fun result qualifier => namespaceBlock qualifier result)
      declaration = nestedNamespaces qualifiers declaration := by
  induction qualifiers with
  | nil => rfl
  | cons q rest ih =>
    rw [List.reverse_cons, List.foldl_append, ih]
    rfl

/-- The text built for the declaration `K q1::...::qn::Name`. -/
theorem forwardDeclarationText_of_parts (keyword : QString) (qualifiers : List QString)
    (name : QString) (hk : ' ' ∉ keyword) (hq : ∀ q ∈ qualifiers, ':' ∉ q)
    (hname : ':' ∉ name) :
    classOrStruct (keyword ++ ' ' :: joinDoubleColon (qualifiers ++ [name])) = keyword ∧
      unqualifiedDeclaration (keyword ++ ' ' :: joinDoubleColon (qualifiers ++ [name])) =
        keyword ++ ' ' :: (name ++ [';']) ∧
      forwardDeclarationText (keyword ++ ' ' :: joinDoubleColon (qualifiers ++ [name])) =
        nestedNamespaces qualifiers (keyword ++ ' ' :: (name ++ [';'])) := by
  obtain ⟨h1, h2⟩ := declaration_parts keyword (joinDoubleColon (qualifiers ++ [name])) hk
  have hsplit : splitDoubleColon (joinDoubleColon (qualifiers ++ [name])) =
      qualifiers ++ [name] := by
    apply splitDoubleColon_join _ (by simp)
    intro part hp
    rcases List.mem_append.mp hp with e | e
    · exact hq part e
    · rw [List.mem_singleton.mp e]; exact hname
  have hlist : qualifierList (keyword ++ ' ' :: joinDoubleColon (qualifiers ++ [name])) =
      name :: qualifiers.reverse := by
    unfold qualifierList
    rw [h2, hsplit]
    simp
  have hdecl : unqualifiedDeclaration
      (keyword ++ ' ' :: joinDoubleColon (qualifiers ++ [name])) =
      keyword ++ ' ' :: (name ++ [';']) := by
    unfold unqualifiedDeclaration
    rw [h1, hlist]
    rfl
  refine ⟨h1, hdecl, ?_⟩
  unfold forwardDeclarationText
  rw [hdecl, hlist, List.tail_cons]
  exact foldl_namespaceBlock qualifiers _

/-- In a header whose buffer has no occurrence of `class class;` and has a line of
`#include`, the declaration `class`, without a space, is accepted and inserted. -/
theorem insertForwardDeclaration_keyword_alone (search : DocumentSearch)
    (fileName text : QString) (position : Nat) (hheader : isHeader fileName = true)
    (hfind : search.findWholeWords text "class class;".toList = false)
    (hinclude : search.lastIncludeLineEnd text = some position) :
    insertForwardDeclaration search fileName text "class".toList =
      (true, text.take position ++ "\nclass class;\n".toList ++ text.drop position) := by
  have h1 : classOrStruct "class".toList = "class".toList := by decide
  have h2 : unqualifiedDeclaration "class".toList = "class class;".toList := by decide
  have h3 : forwardDeclarationText "class".toList = "class class;".toList := by decide
  unfold insertForwardDeclaration
  rw [h1, h2, h3, hheader, hfind, hinclude]
  rfl

/-- C19: in the header `/p/foo.h` with the buffer `#include <a.h>`, `int x;`, the strings
`class` and `struct`, which have no space and do not start with `class ` or `struct `, are
accepted: `insertForwardDeclaration` returns true and inserts `class class;` (`struct
struct;`) after the line of `#include`. The empty string, a string with another first word
and a file that is no header are refused and leave the buffer as it is. -/
theorem insertForwardDeclaration_accepts_keyword_without_space :
    insertForwardDeclaration exampleSearch "/p/foo.h".toList
        "#include <a.h>\nint x;\n".toList "class".toList =
        (true, "#include <a.h>\nclass class;\n\nint x;\n".toList) ∧
      insertForwardDeclaration exampleSearch "/p/foo.h".toList
        "#include <a.h>\nint x;\n".toList "struct".toList =
        (true, "#include <a.h>\nstruct struct;\n\nint x;\n".toList) ∧
      insertForwardDeclaration exampleSearch "/p/foo.h".toList
        "#include <a.h>\nint x;\n".toList [] = (false, "#include <a.h>\nint x;\n".toList) ∧
      insertForwardDeclaration exampleSearch "/p/foo.h".toList
        "#include <a.h>\nint x;\n".toList "enum Foo".toList =
        (false, "#include <a.h>\nint x;\n".toList) ∧
      insertForwardDeclaration exampleSearch "/p/foo.cpp".toList
        "#include <a.h>\nint x;\n".toList "class Foo".toList =
        (false, "#include <a.h>\nint x;\n".toList) := by
  refine ⟨?_, ?_, ?_, ?_, ?_⟩ <;> decide

/-- C20: for the declaration `K q1::q2::...::qn::Name` with `K` one of `class` and
`struct`, the un-qualified declaration is `K Name;` and the text that
`insertForwardDeclaration` builds is `K Name;` inside one namespace block for each
qualifier, `q1` outermost and `qn` innermost, one construct on each line; without a
qualifier it is `K Name;`. In a header without an occurrence of `K Name;` the text is
inserted between two line breaks. -/
theorem forwardDeclarationText_nested_namespaces (keyword : QString)
    (qualifiers : List QString) (name : QString)
    (hk : keyword = "class".toList ∨ keyword = "struct".toList)
    (hq : ∀ q ∈ qualifiers, ':' ∉ q) (hname : ':' ∉ name) :
    unqualifiedDeclaration (keyword ++ ' ' :: joinDoubleColon (qualifiers ++ [name])) =
        keyword ++ ' ' :: (name ++ [';']) ∧
      forwardDeclarationText (keyword ++ ' ' :: joinDoubleColon (qualifiers ++ [name])) =
        nestedNamespaces qualifiers (keyword ++ ' ' :: (name ++ [';'])) ∧
      forwardDeclarationText (keyword ++ ' ' :: joinDoubleColon ([] ++ [name])) =
        keyword ++ ' ' :: (name ++ [';']) ∧
      (∀ (search : DocumentSearch) (fileName text : QString) (position : Nat),
        isHeader fileName = true →
        search.findWholeWords text (keyword ++ ' ' :: (name ++ [';'])) = false →
        search.lastIncludeLineEnd text = some position →
        insertForwardDeclaration search fileName text
            (keyword ++ ' ' :: joinDoubleColon (qualifiers ++ [name])) =
          (true, text.take position ++
            ('\n' :: (nestedNamespaces qualifiers (keyword ++ ' ' :: (name ++ [';'])) ++
              ['\n'])) ++ text.drop position)) ∧
      forwardDeclarationText "class Foo::Bar::FooBar".toList =
        "namespace Foo \x7b\nnamespace Bar \x7b\nclass FooBar;\n\x7d\n\x7d".toList := by
  have hspace : ' ' ∉ keyword := by
    rcases hk with e | e <;> rw [e] <;> decide
  obtain ⟨h1, h2, h3⟩ := forwardDeclarationText_of_parts keyword qualifiers name hspace hq hname
  obtain ⟨_, _, h4⟩ := forwardDeclarationText_of_parts keyword [] name hspace
    (fun q hq0 => absurd hq0 (List.not_mem_nil q)) hname
  refine ⟨h2, h3, h4, ?_, by decide⟩
  intro search fileName text position hheader hfind hinclude
  have hguard : ((keyword ++ ' ' :: joinDoubleColon (qualifiers ++ [name])).isEmpty ||
      (decide (keyword ≠ "class".toList) && decide (keyword ≠ "struct".toList))) = false := by
    have he : (keyword ++ ' ' :: joinDoubleColon (qualifiers ++ [name])).isEmpty = false := by
      cases keyword <;> rfl
    rw [he]
    rcases hk with e | e <;> rw [e] <;> decide
  unfold insertForwardDeclaration
  rw [h1, h2, h3, hheader, hguard, hfind, hinclude]
  rfl

/-- Witness of C20: the declaration `struct Gui::Item`. -/
theorem forwardDeclarationText_nested_namespaces_witness :
    forwardDeclarationText "struct Gui::Item".toList =
      "namespace Gui \x7b\nstruct Item;\n\x7d".toList :=
  (forwardDeclarationText_nested_namespaces "struct".toList ["Gui".toList] "Item".toList
    (Or.inr rfl) (by decide) (by decide)).2.1

end Knut

namespace Knut

/-! ## The forward declaration: what the guard accepts -/

theorem indexOfChar_of_not_mem (c : Char) (s : QString) (h : c ∉ s) :
    indexOfChar c s = -1 := by
  induction s with
  | nil => rfl
  | cons x rest ih =>
    simp only [List.mem_cons, not_or] at h
    rw [indexOfChar, if_neg (fun e => h.1 e.symm), ih h.2]
    rfl

/-- The text before the first space is the keyword `K` exactly for the string `K` itself
and for the strings that start with `K` and a space. -/
theorem classOrStruct_eq_iff (keyword fwddecl : QString) (hk : ' ' ∉ keyword) :
    classOrStruct fwddecl = keyword ↔
      fwddecl = keyword ∨ ∃ rest, fwddecl = keyword ++ ' ' :: rest := by
  constructor
  · intro h
    by_cases hs : ' ' ∈ fwddecl
    · obtain ⟨before, after, e, hb⟩ := List.eq_append_cons_of_mem hs
      right
      rw [e, (declaration_parts before after hb).1] at h
      exact ⟨after, by rw [e, h]⟩
    · left
      unfold classOrStruct leftRef at h
      rw [indexOfChar_of_not_mem ' ' fwddecl hs, if_pos (Or.inl (by decide))] at h
      exact h
  · rintro (e | ⟨rest, e⟩)
    · rw [e]
      unfold classOrStruct leftRef
      rw [indexOfChar_of_not_mem ' ' keyword hk, if_pos (Or.inl (by decide))]
    · rw [e]
      exact (declaration_parts keyword rest hk).1

/-- The refusals of `insertForwardDeclaration`: a file that is no header, and a string that
is neither `class` or `struct` nor starts with `class ` or `struct `, return false and leave
the buffer as it is. -/
theorem insertForwardDeclaration_refused (search : DocumentSearch)
    (fileName text fwddecl : QString)
    (h : isHeader fileName = false ∨
      (fwddecl ≠ "class".toList ∧ fwddecl ≠ "struct".toList ∧
        (∀ rest, fwddecl ≠ "class ".toList ++ rest) ∧
        ∀ rest, fwddecl ≠ "struct ".toList ++ rest)) :
    insertForwardDeclaration search fileName text fwddecl = (false, text) := by
  unfold insertForwardDeclaration
  rcases h with h | ⟨h1, h2, h3, h4⟩
  · rw [h]; rfl
  · have hc : classOrStruct fwddecl ≠ "class".toList := by
      intro e
      rcases (classOrStruct_eq_iff "class".toList fwddecl (by decide)).mp e with e1 | ⟨rest, e1⟩
      · exact h1 e1
      · exact h3 rest e1
    have hs : classOrStruct fwddecl ≠ "struct".toList := by
      intro e
      rcases (classOrStruct_eq_iff "struct".toList fwddecl (by decide)).mp e with e1 | ⟨rest, e1⟩
      · exact h2 e1
      · exact h4 rest e1
    split
    · rfl
    · rw [if_pos (by
        rw [Bool.or_eq_true, Bool.and_eq_true]
        exact Or.inr ⟨decide_eq_true hc, decide_eq_true hs⟩)]

end Knut

namespace Knut

/-! ## The include helper -/

/-- C23: an `IncludePosition` reports `alreadyExists()` exactly when its line is `-1`; a
default-constructed `IncludePosition` has the line `-1` and `newGroup = false`, and reports
that the include exists already. -/
theorem includePosition_alreadyExists_iff :
    (∀ position : IncludePosition, position.alreadyExists = true ↔ position.line = -1) ∧
      ({} : IncludePosition).line = -1 ∧
      ({} : IncludePosition).newGroup = false ∧
      ({} : IncludePosition).alreadyExists = true := by
  refine ⟨fun position => ?_, rfl, rfl, rfl⟩
  simp [IncludePosition.alreadyExists]

theorem includeForText_name (rules : IncludeRules) (text : QString) :
    (includeForText rules text).name = text := rfl

theorem includeForText_isNull (rules : IncludeRules) (text : QString) (h : text ≠ []) :
    (includeForText rules text).isNull = false := by
  cases text with
  | nil => exact absurd rfl h
  | cons c rest => rfl

/-- C21: for an include text that is not empty and whose normalized name is the one of an
include discovered in the document, `includePositionForInsertion` returns the position of
an include that exists already (`line = -1`) with `addNewGroup` true and false, and the
caller that inserts the include leaves the buffer as it is. -/
theorem existing_include_is_not_inserted (rules : IncludeRules) (helper : IncludeHelper)
    (text : QString) (hnonnull : text ≠ [])
    (hexists : ∃ existing ∈ helper.includes,
      rules.normalizedName existing.name = rules.normalizedName text) :
    includePositionForInsertion rules helper text true = some { line := -1, newGroup := false } ∧
      includePositionForInsertion rules helper text false =
        some { line := -1, newGroup := false } ∧
      (∀ addNewGroup position,
        includePositionForInsertion rules helper text addNewGroup = some position →
        position.alreadyExists = true) ∧
      insertInclude rules helper text true = helper.document ∧
      insertInclude rules helper text false = helper.document := by
  have hfound : (findInclude rules helper (includeForText rules text)).isSome = true := by
    unfold findInclude
    rw [List.find?_isSome]
    obtain ⟨existing, hmem, hname⟩ := hexists
    exact ⟨existing, hmem, by simpa [includeForText_name] using hname⟩
  have hpos : ∀ addNewGroup : Bool,
      includePositionForInsertion rules helper text addNewGroup =
        some { line := -1, newGroup := false } := by
    intro addNewGroup
    unfold includePositionForInsertion
    rw [includeForText_isNull rules text hnonnull, hfound]
    rfl
  refine ⟨hpos true, hpos false, ?_, ?_, ?_⟩
  · intro addNewGroup position h
    rw [hpos addNewGroup] at h
    rw [← Option.some.inj h]
    rfl
  · unfold insertInclude
    rw [hpos true]
    rfl
  · unfold insertInclude
    rw [hpos false]
    rfl

/-- Witness of C21: the include `"a/b.h"` in the document of the examples. -/
theorem existing_include_is_not_inserted_witness :
    includePositionForInsertion exampleIncludeRules exampleIncludeHelper "\"a/b.h\"".toList
        true = some { line := -1, newGroup := false } ∧
      insertInclude exampleIncludeRules exampleIncludeHelper "\"a/b.h\"".toList false =
        exampleIncludeHelper.document :=
  have h := existing_include_is_not_inserted exampleIncludeRules exampleIncludeHelper
    "\"a/b.h\"".toList (by decide) ⟨⟨"\"a/b.h\"".toList, Scope.Local, 1⟩, by decide, rfl⟩
  ⟨h.1, h.2.2.2.2⟩

/-- Of two groups, one compatible with the scope of the candidate and one not, the
compatible one is the best group, in either order. -/
theorem findBestIncludeGroup_compatible (rules : IncludeRules) (incl : Include)
    (good other : IncludeGroup) (hgood : scopeCompatible good incl = true)
    (hother : scopeCompatible other incl = false) :
    findBestIncludeGroup rules incl [good, other] = some good ∧
      findBestIncludeGroup rules incl [other, good] = some good := by
  constructor <;> simp [findBestIncludeGroup, groupRank, rankAbove, hgood, hother]

/-- C22: in the document with the Local group `"a/b.h"`, `"a/c.h"` (lines 1 and 2) and the
Global group `<vector>`, `<string>` (lines 4 and 5), in either order of the groups,
`includePositionForInsertion("\"a/d.h\"", false)` returns the line chosen inside the Local
group, with `newGroup = false`: a line from 1 to 2, not a line of the Global group. -/
theorem insertion_resolves_into_local_group (rules : IncludeRules)
    (hnew : ∀ existing ∈ exampleIncludeHelper.includes,
      rules.normalizedName existing.name ≠ rules.normalizedName "\"a/d.h\"".toList)
    (hinside : ∀ (group : IncludeGroup) (incl : Include), group.firstLine ≤ group.lastLine →
      group.firstLine ≤ rules.lineInGroup group incl ∧
        rules.lineInGroup group incl ≤ group.lastLine) :
    includePositionForInsertion rules exampleIncludeHelper "\"a/d.h\"".toList false =
        some (IncludePosition.mk
          (rules.lineInGroup ⟨1, 2, 2, "a/".toList, 1⟩
            (includeForText rules "\"a/d.h\"".toList)) false) ∧
      includePositionForInsertion rules
          ⟨exampleIncludeHelper.document, exampleIncludeHelper.includes,
            [⟨4, 5, 5, [], 2⟩, ⟨1, 2, 2, "a/".toList, 1⟩]⟩
          "\"a/d.h\"".toList false =
        some (IncludePosition.mk
          (rules.lineInGroup ⟨1, 2, 2, "a/".toList, 1⟩
            (includeForText rules "\"a/d.h\"".toList)) false) ∧
      1 ≤ rules.lineInGroup ⟨1, 2, 2, "a/".toList, 1⟩
        (includeForText rules "\"a/d.h\"".toList) ∧
      rules.lineInGroup ⟨1, 2, 2, "a/".toList, 1⟩
        (includeForText rules "\"a/d.h\"".toList) ≤ 2 := by
  have hscope : (includeForText rules "\"a/d.h\"".toList).scope = Scope.Local := rfl
  have hnull : (includeForText rules "\"a/d.h\"".toList).isNull = false := rfl
  have hnotfound : ∀ document groups,
      (findInclude rules ⟨document, exampleIncludeHelper.includes, groups⟩
        (includeForText rules "\"a/d.h\"".toList)).isSome = false := by
    intro document groups
    cases hf : (findInclude rules ⟨document, exampleIncludeHelper.includes, groups⟩
        (includeForText rules "\"a/d.h\"".toList)).isSome
    · rfl
    · unfold findInclude at hf
      rw [List.find?_isSome] at hf
      obtain ⟨existing, hmem, hname⟩ := hf
      exact absurd (by simpa [includeForText_name] using hname) (hnew existing hmem)
  have hlocal : scopeCompatible ⟨1, 2, 2, "a/".toList, 1⟩
      (includeForText rules "\"a/d.h\"".toList) = true := by
    unfold scopeCompatible; rw [hscope]; rfl
  have hglobal : scopeCompatible ⟨4, 5, 5, [], 2⟩
      (includeForText rules "\"a/d.h\"".toList) = false := by
    unfold scopeCompatible; rw [hscope]; rfl
  have h := hinside ⟨1, 2, 2, "a/".toList, 1⟩ (includeForText rules "\"a/d.h\"".toList)
    (by decide)
  have hbest := findBestIncludeGroup_compatible rules
    (includeForText rules "\"a/d.h\"".toList) ⟨1, 2, 2, "a/".toList, 1⟩ ⟨4, 5, 5, [], 2⟩
    hlocal hglobal
  refine ⟨?_, ?_, h.1, h.2⟩
  · unfold includePositionForInsertion
    have e := hnotfound exampleIncludeHelper.document exampleIncludeHelper.includeGroups
    have e2 : (⟨exampleIncludeHelper.document, exampleIncludeHelper.includes,
        exampleIncludeHelper.includeGroups⟩ : IncludeHelper) = exampleIncludeHelper := rfl
    rw [e2] at e
    have hg : exampleIncludeHelper.includeGroups =
        [⟨1, 2, 2, "a/".toList, 1⟩, ⟨4, 5, 5, [], 2⟩] := rfl
    rw [hnull, e, hg, hbest.1]
    rfl
  · unfold includePositionForInsertion
    have e := hnotfound exampleIncludeHelper.document
      [⟨4, 5, 5, [], 2⟩, ⟨1, 2, 2, "a/".toList, 1⟩]
    rw [hnull, e]
    simp only [Bool.false_eq_true, if_false]
    rw [hbest.2]

/-- Witness of C22: the include rules of the examples, which choose the last line of the
group: the position is the line 2. -/
theorem insertion_resolves_into_local_group_witness :
    includePositionForInsertion exampleIncludeRules exampleIncludeHelper "\"a/d.h\"".toList
      false = some (IncludePosition.mk 2 false) :=
  (insertion_resolves_into_local_group exampleIncludeRules (by decide)
    (fun _ _ h => ⟨h, le_refl _⟩)).1

end Knut

namespace Knut

open MoveOperation

/-! ## Block matching: the scan that steps over the boundary -/

/-- On the text `ab`, which has no delimiter, the scan from the start position 1 starts
beyond the boundary in either direction; the index wraps round, meets the boundary and
`moveBlock` returns the start position. -/
theorem moveBlock_wraps_to_start :
    moveBlock "ab".toList 1 NextCharacter = some 1 ∧
      moveBlock "ab".toList 1 PreviousCharacter = some 1 := by
  constructor
  · rw [moveBlock_wrap_forward "ab".toList 1 (by decide) (by decide)]
    decide
  · rw [moveBlock_wrap_backward "ab".toList 1 (by decide) (by decide) (by decide)]
    decide

/-- When the scan does not start beyond the boundary, the result is the start position or a
position at least three steps further forward, or two steps further backward and not 0. -/
theorem moveBlock_range_of_scan_before_boundary (text : List Char) (s r : Int)
    (hlen : (text.length : Int) + 3 < 2147483648) (hs0 : 0 ≤ s) (hsn : s ≤ text.length) :
    (scanStart text s NextCharacter ≤ lastPos text NextCharacter →
        moveBlock text s NextCharacter = some r → r = s ∨ (s + 3 ≤ r ∧ r ≤ text.length)) ∧
      (0 ≤ scanStart text s PreviousCharacter →
        moveBlock text s PreviousCharacter = some r → r = s ∨ (1 ≤ r ∧ r ≤ s - 2)) := by
  have hsb := fun direction => scanStart_bounds text s direction
  constructor
  · intro hb h
    have hinc : inc NextCharacter = 1 := rfl
    have hlast : lastPos text NextCharacter = text.length := by
      simp [lastPos, characterCount]
    by_cases hsl : s = lastPos text NextCharacter
    · rw [hsl, moveBlock_at_lastPos] at h
      left; rw [hsl]; exact (Option.some.inj h).symm
    · have hd : scanStart text s NextCharacter + inc NextCharacter *
          (((text.length : Int) - scanStart text s NextCharacter).toNat : Int) =
          lastPos text NextCharacter := by
        rw [hinc, hlast]; omega
      rw [moveBlock_eq_loop text s NextCharacter hsl] at h
      rcases moveBlockLoop_cases text NextCharacter s _ _ _ (by omega) (hsb NextCharacter).1
        (hsb NextCharacter).2 hd
        (scanStart_distance text s NextCharacter _ (by omega) hd) r h with
        e | ⟨k, hk, _, _, hr⟩
      · exact Or.inl e
      · right
        have hr1 : r = scanStart text s NextCharacter + (k : Int) + 1 := by
          rw [hr, hinc]; simp
        rcases scanStart_cases text s NextCharacter hlen hs0 hsn with e | e <;>
          rw [e, hinc] at hr1 hk <;> omega
  · intro hb h
    have hinc : inc PreviousCharacter = -1 := rfl
    have hlast : lastPos text PreviousCharacter = 0 := rfl
    by_cases hsl : s = lastPos text PreviousCharacter
    · rw [hsl, moveBlock_at_lastPos] at h
      left; rw [hsl]; exact (Option.some.inj h).symm
    · have hd : scanStart text s PreviousCharacter + inc PreviousCharacter *
          ((scanStart text s PreviousCharacter).toNat : Int) =
          lastPos text PreviousCharacter := by
        rw [hinc, hlast]; omega
      rw [moveBlock_eq_loop text s PreviousCharacter hsl] at h
      rcases moveBlockLoop_cases text PreviousCharacter s _ _ _ (by omega)
        (hsb PreviousCharacter).1 (hsb PreviousCharacter).2 hd
        (scanStart_distance text s PreviousCharacter _ (by omega) hd) r h with
        e | ⟨k, hk, _, _, hr⟩
      · exact Or.inl e
      · right
        have hr1 : r = scanStart text s PreviousCharacter - (k : Int) := by
          rw [hr, hinc]; simp; ring
        rcases scanStart_cases text s PreviousCharacter hlen hs0 hsn with e | e <;>
          rw [e, hinc] at hr1 hk <;> omega

/-- C24: for every text that is not empty, the scan of `moveBlock` from the start position
`n - 1` forward begins past the boundary `n`, and from the start position 1 backward it
begins below 0: the index is stepped over the boundary before the loop, which compares it
with the boundary for equality only, and leaves the range `[0, n]`. The loop then has no
result within `2 ^ 32 - n - 2` tests of its condition: the index runs through the `int`s
that are no position of the document until it has wrapped round. On the scenario text
`moveBlock` returns the start position 29 (forward) and 1 (backward) in the end. -/
theorem moveBlock_scan_leaves_range (c : Char) (rest : List Char)
    (hlen : ((c :: rest).length : Int) + 3 < 2147483648) :
    lastPos (c :: rest) NextCharacter <
        scanStart (c :: rest) (rest.length : Int) NextCharacter ∧
      scanStart (c :: rest) 1 PreviousCharacter < 0 ∧
      (∀ fuel : Nat, (fuel : Int) + (c :: rest).length + 2 ≤ 4294967296 →
        moveBlockFuel fuel (c :: rest) (rest.length : Int) NextCharacter = none ∧
          moveBlockFuel fuel (c :: rest) 1 PreviousCharacter = none) ∧
      moveBlock scenarioText 29 NextCharacter = some 29 ∧
      moveBlock scenarioText 1 PreviousCharacter = some 1 := by
  have hn : ((c :: rest).length : Int) = (rest.length : Int) + 1 := by simp
  have hf : (c :: rest).length + 1 ≤ scanStart (c :: rest) (rest.length : Int) NextCharacter ∧
      scanStart (c :: rest) (rest.length : Int) NextCharacter ≤ (c :: rest).length + 2 := by
    rcases scanStart_cases (c :: rest) (rest.length : Int) NextCharacter hlen (by omega)
      (by omega) with e | e <;> rw [e] <;> simp only [inc, if_true] <;> omega
  have hb : -3 ≤ scanStart (c :: rest) 1 PreviousCharacter ∧
      scanStart (c :: rest) 1 PreviousCharacter < 0 := by
    rcases scanStart_cases (c :: rest) 1 PreviousCharacter hlen (by omega)
      (by omega) with e | e <;> rw [e] <;> simp only [inc, reduceCtorEq, if_false] <;> omega
  refine ⟨?_, hb.2, ?_, ?_, ?_⟩
  · simp only [lastPos, characterCount, if_true]; omega
  · intro fuel hfuel
    constructor
    · unfold moveBlockFuel
      rw [if_neg (by simp only [lastPos, characterCount, if_true]; omega)]
      apply moveBlockLoop_outside_none
      · exact wrapInt_of_int _ (by omega) (by omega)
      · intro j hj
        simp only [inc, lastPos, characterCount, if_true, one_mul]
        unfold wrapInt
        omega
    · unfold moveBlockFuel
      rw [if_neg (by simp [lastPos])]
      apply moveBlockLoop_outside_none
      · exact wrapInt_of_int _ (by omega) (by omega)
      · intro j hj
        simp only [inc, lastPos, reduceCtorEq, if_false]
        unfold wrapInt
        omega
  · rw [moveBlock_wrap_forward scenarioText 29 (by decide) (by decide)]
    decide
  · rw [moveBlock_wrap_backward scenarioText 1 (by decide) (by decide) (by decide)]
    decide

/-- Witness of C24: the text `ab`, whose boundaries are 2 and 0, from the start position
1: the scan starts at 3 forward and at -1 backward. -/
theorem moveBlock_scan_leaves_range_witness :
    (("ab".toList.length : Int) + 3 < 2147483648) ∧
      lastPos "ab".toList NextCharacter < scanStart "ab".toList 1 NextCharacter ∧
      scanStart "ab".toList 1 PreviousCharacter < 0 :=
  ⟨by decide, (moveBlock_scan_leaves_range 'a' ['b'] (by decide)).1,
    (moveBlock_scan_leaves_range 'a' ['b'] (by decide)).2.1⟩

/-- C25: forward on `)ab` from the start position 2 the scan starts at 4, past the boundary
3, wraps round and finds the `)` at the index 0: `moveBlock` returns 1, a position before
the start position. Backward on `ab(` from the start position 1 the scan starts at -1,
wraps round and finds the `(` at the index 2: `moveBlock` returns 2, a position after the
start position. So the result is not always the start position or a position further in
the scan direction. -/
theorem moveBlock_result_against_direction :
    scanStart ")ab".toList 2 NextCharacter = 4 ∧
      moveBlock ")ab".toList 2 NextCharacter = some 1 ∧
      scanStart "ab(".toList 1 PreviousCharacter = -1 ∧
      moveBlock "ab(".toList 1 PreviousCharacter = some 2 ∧
      (¬ ∀ (text : List Char) (s r : Int), 0 ≤ s → s ≤ text.length →
        moveBlock text s NextCharacter = some r →
          r = s ∨ (s + 3 ≤ r ∧ r ≤ text.length)) ∧
      ¬ ∀ (text : List Char) (s r : Int), 0 ≤ s → s ≤ text.length →
        moveBlock text s PreviousCharacter = some r →
          r = s ∨ (1 ≤ r ∧ r ≤ s - 2) := by
  have hf : moveBlock ")ab".toList 2 NextCharacter = some 1 := by
    rw [moveBlock_wrap_forward ")ab".toList 2 (by decide) (by decide)]
    decide
  have hb : moveBlock "ab(".toList 1 PreviousCharacter = some 2 := by
    rw [moveBlock_wrap_backward "ab(".toList 1 (by decide) (by decide) (by decide)]
    decide
  refine ⟨by decide, hf, by decide, hb, ?_, ?_⟩
  · intro h
    have := h ")ab".toList 2 1 (by decide) (by decide) hf
    omega
  · intro h
    have := h "ab(".toList 1 2 (by decide) (by decide) hb
    omega

end Knut

namespace Knut

open MoveOperation

/-- C26: for every text of fewer than `2 ^ 31 - 3` characters and every start position `s`
in `[0, n]`: when `moveBlock(s, Forward)` returns `r ≠ s`, the character at `r - 1` is one
of `)`, `\x7d`, `]`; the scan start `k` is `s + 2`, or `s + 3` when the character at `s + 1`
is one of `(`, `\x7b`, `[`; over the characters from `k` to `r - 2` (none when `r - 1 < k`)
the depth (opening minus closing delimiters) ends at 0 and is negative after no prefix; when
`k` is not past the boundary, `k ≤ r - 1`; when `k` is past the boundary, the index has
wrapped round and the same holds of the characters from 0 to `r - 2`. When
`moveBlock(s, Backward)` returns `r ≠ s`, the character at `r` is one of `(`, `\x7b`, `[`;
the scan start is `s - 2`, or `s - 3` when the character at `s - 1` is one of `)`, `\x7d`,
`]`; over the characters from the scan start down to `r + 1` the depth (closing minus
opening delimiters) ends at 0 and is negative after no prefix of the scan; when the scan
start is not below 0, `r` is not above it; when it is below 0, the same holds of the
characters from the last position `n` down to `r + 1`. -/
theorem moveBlock_match_closes_balanced_range (text : List Char) (s r : Int)
    (hlen : (text.length : Int) + 3 < 2147483648) (hs0 : 0 ≤ s) (hsn : s ≤ text.length) :
    (moveBlock text s NextCharacter = some r → r ≠ s →
        characterAt text (r - 1) ∈ [')', '}', ']'] ∧
        scanStart text s NextCharacter =
          (if characterAt text (s + 1) ∈ ['(', '{', '['] then s + 3 else s + 2) ∧
        depthAfter text NextCharacter (scanStart text s NextCharacter)
          (r - 1 - scanStart text s NextCharacter).toNat = 0 ∧
        (∀ m : Nat, m ≤ (r - 1 - scanStart text s NextCharacter).toNat →
          0 ≤ depthAfter text NextCharacter (scanStart text s NextCharacter) m) ∧
        (scanStart text s NextCharacter ≤ lastPos text NextCharacter →
          scanStart text s NextCharacter ≤ r - 1) ∧
        (lastPos text NextCharacter < scanStart text s NextCharacter →
          depthAfter text NextCharacter 0 (r - 1).toNat = 0 ∧
          ∀ m : Nat, m ≤ (r - 1).toNat → 0 ≤ depthAfter text NextCharacter 0 m)) ∧
      (moveBlock text s PreviousCharacter = some r → r ≠ s →
        characterAt text r ∈ ['(', '{', '['] ∧
        scanStart text s PreviousCharacter =
          (if characterAt text (s - 1) ∈ [')', '}', ']'] then s - 3 else s - 2) ∧
        depthAfter text PreviousCharacter (scanStart text s PreviousCharacter)
          (scanStart text s PreviousCharacter - r).toNat = 0 ∧
        (∀ m : Nat, m ≤ (scanStart text s PreviousCharacter - r).toNat →
          0 ≤ depthAfter text PreviousCharacter (scanStart text s PreviousCharacter) m) ∧
        (0 ≤ scanStart text s PreviousCharacter → r ≤ scanStart text s PreviousCharacter) ∧
        (scanStart text s PreviousCharacter < 0 →
          depthAfter text PreviousCharacter (text.length : Int)
            ((text.length : Int) - r).toNat = 0 ∧
          ∀ m : Nat, m ≤ ((text.length : Int) - r).toNat →
            0 ≤ depthAfter text PreviousCharacter (text.length : Int) m)) := by
  have hsb := fun direction => scanStart_bounds text s direction
  constructor
  · intro h hne
    have hinc : inc NextCharacter = 1 := rfl
    have hlast : lastPos text NextCharacter = text.length := by
      simp [lastPos, characterCount]
    have hsl : s ≠ lastPos text NextCharacter := by
      intro e
      rw [e, moveBlock_at_lastPos] at h
      exact hne (by rw [e]; exact (Option.some.inj h).symm)
    have hstart : scanStart text s NextCharacter =
        (if characterAt text (s + 1) ∈ ['(', '{', '['] then s + 3 else s + 2) := by
      rw [scanStart_eq text s NextCharacter hlen hs0 hsn]
      simp only [inc, incCounterChar, if_true]
      split <;> ring
    by_cases hb : (text.length : Int) < scanStart text s NextCharacter
    · rw [moveBlock_wrap_forward text s hsl hb] at h
      rcases moveBlockLoop_cases text NextCharacter s _ text.length 0 (by omega) (by omega)
        (by omega) (by rw [hinc, hlast]; omega) (by have := hsb NextCharacter; omega) r h with
        e | ⟨k, hk, hpre, hneg, hr⟩
      · exact absurd e hne
      · obtain ⟨hzero, hchar⟩ :=
          match_depth_zero text NextCharacter 0 k (hpre k (le_refl k)) hneg
        have hr1 : r - 1 = (k : Int) := by rw [hr, hinc]; simp
        have hcount : (r - 1 - scanStart text s NextCharacter).toNat = 0 := by omega
        have hk2 : (r - 1).toNat = k := by omega
        refine ⟨?_, hstart, ?_, ?_, ?_, ?_⟩
        · rw [hr1]
          simpa [inc, decCounterChar] using hchar
        · rw [hcount]; rfl
        · intro m hm
          rw [hcount] at hm
          have : m = 0 := by omega
          rw [this]; exact le_refl _
        · intro hle; rw [hlast] at hle; omega
        · intro _
          rw [hk2]
          exact ⟨hzero, hpre⟩
    · have hd : scanStart text s NextCharacter + inc NextCharacter *
          (((text.length : Int) - scanStart text s NextCharacter).toNat : Int) =
          lastPos text NextCharacter := by
        rw [hinc, hlast]; omega
      rw [moveBlock_eq_loop text s NextCharacter hsl] at h
      rcases moveBlockLoop_cases text NextCharacter s _ _ _ (by omega) (hsb NextCharacter).1
        (hsb NextCharacter).2 hd
        (scanStart_distance text s NextCharacter _ (by omega) hd) r h with
        e | ⟨k, hk, hpre, hneg, hr⟩
      · exact absurd e hne
      · obtain ⟨hzero, hchar⟩ :=
          match_depth_zero text NextCharacter _ k (hpre k (le_refl k)) hneg
        have hr1 : r - 1 = scanStart text s NextCharacter + (k : Int) := by
          rw [hr, hinc]; simp
        have hcount : (r - 1 - scanStart text s NextCharacter).toNat = k := by omega
        refine ⟨?_, hstart, ?_, ?_, ?_, ?_⟩
        · rw [hr1]
          simpa [inc, decCounterChar] using hchar
        · rw [hcount]; exact hzero
        · intro m hm
          rw [hcount] at hm
          exact hpre m hm
        · intro _; omega
        · intro hlt; rw [hlast] at hlt; omega
  · intro h hne
    have hinc : inc PreviousCharacter = -1 := rfl
    have hlast : lastPos text PreviousCharacter = 0 := rfl
    have hsl : s ≠ lastPos text PreviousCharacter := by
      intro e
      rw [e, moveBlock_at_lastPos] at h
      exact hne (by rw [e]; exact (Option.some.inj h).symm)
    have hstart : scanStart text s PreviousCharacter =
        (if characterAt text (s - 1) ∈ [')', '}', ']'] then s - 3 else s - 2) := by
      have e1 : s + -1 = s - 1 := by ring
      rw [scanStart_eq text s PreviousCharacter hlen hs0 hsn]
      simp only [inc, incCounterChar, reduceCtorEq, if_false, e1]
      split <;> ring
    by_cases hb : scanStart text s PreviousCharacter < 0
    · rw [moveBlock_wrap_backward text s (by omega) hsl hb] at h
      rcases moveBlockLoop_cases text PreviousCharacter s _ text.length (text.length : Int)
        (by omega) (by omega) (by omega) (by rw [hinc, hlast]; omega)
        (by unfold characterCount; omega) r h with
        e | ⟨k, hk, hpre, hneg, hr⟩
      · exact absurd e hne
      · obtain ⟨hzero, hchar⟩ :=
          match_depth_zero text PreviousCharacter _ k (hpre k (le_refl k)) hneg
        have hr1 : r = (text.length : Int) + inc PreviousCharacter * (k : Int) := by
          rw [hr, hinc]; simp
        have hr2 : r = (text.length : Int) - (k : Int) := by rw [hr1, hinc]; ring
        have hcount : (scanStart text s PreviousCharacter - r).toNat = 0 := by omega
        have hk2 : ((text.length : Int) - r).toNat = k := by omega
        refine ⟨?_, hstart, ?_, ?_, ?_, ?_⟩
        · rw [hr1]
          simpa [decCounterChar] using hchar
        · rw [hcount]; rfl
        · intro m hm
          rw [hcount] at hm
          have : m = 0 := by omega
          rw [this]; exact le_refl _
        · intro hle; omega
        · intro _
          rw [hk2]
          exact ⟨hzero, hpre⟩
    · have hd : scanStart text s PreviousCharacter + inc PreviousCharacter *
          ((scanStart text s PreviousCharacter).toNat : Int) =
          lastPos text PreviousCharacter := by
        rw [hinc, hlast]; omega
      rw [moveBlock_eq_loop text s PreviousCharacter hsl] at h
      rcases moveBlockLoop_cases text PreviousCharacter s _ _ _ (by omega)
        (hsb PreviousCharacter).1 (hsb PreviousCharacter).2 hd
        (scanStart_distance text s PreviousCharacter _ (by omega) hd) r h with
        e | ⟨k, hk, hpre, hneg, hr⟩
      · exact absurd e hne
      · obtain ⟨hzero, hchar⟩ :=
          match_depth_zero text PreviousCharacter _ k (hpre k (le_refl k)) hneg
        have hr1 : r = scanStart text s PreviousCharacter +
            inc PreviousCharacter * (k : Int) := by
          rw [hr, hinc]; simp
        have hr2 : r = scanStart text s PreviousCharacter - (k : Int) := by
          rw [hr1, hinc]; ring
        have hcount : (scanStart text s PreviousCharacter - r).toNat = k := by omega
        refine ⟨?_, hstart, ?_, ?_, ?_, ?_⟩
        · rw [hr1]
          simpa [decCounterChar] using hchar
        · rw [hcount]; exact hzero
        · intro m hm
          rw [hcount] at hm
          exact hpre m hm
        · intro _; omega
        · intro hlt; omega

/-- Witness of C26: on the scenario text from the start position 21, forward, the result
is 28: the character at 27 is a closing delimiter and the scan started at 23. -/
theorem moveBlock_match_closes_balanced_range_witness :
    moveBlock scenarioText 21 NextCharacter = some 28 ∧
      characterAt scenarioText (28 - 1) ∈ [')', '}', ']'] ∧
      scanStart scenarioText 21 NextCharacter = 23 ∧
      depthAfter scenarioText NextCharacter (scanStart scenarioText 21 NextCharacter)
        (28 - 1 - scanStart scenarioText 21 NextCharacter).toNat = 0 :=
  have h := (moveBlock_match_closes_balanced_range scenarioText 21 28 (by decide) (by decide)
    (by decide)).1 (by decide) (by decide)
  ⟨by decide, h.1, by decide, h.2.2.1⟩

end Knut

namespace Knut

open MoveOperation

/-! ## Block matching: the kinds of delimiters -/

theorem delimiterKind_eq_of_same (a b : Char) (h : sameDelimiterKind a b) :
    delimiterKind a = delimiterKind b := by
  rcases h with e | e
  · rw [e]
  · exact e.1

/-- Two texts that differ by delimiters of the same kind have characters of the same kind at
every position. -/
theorem delimiterKind_characterAt (text other : List Char)
    (h : List.Forall₂ sameDelimiterKind text other) (pos : Int) :
    delimiterKind (characterAt text pos) = delimiterKind (characterAt other pos) := by
  have hlen := h.length_eq
  unfold characterAt characterCount
  rw [hlen]
  split
  · rfl
  · by_cases hlt : pos.toNat < text.length
    · have hlt2 : pos.toNat < other.length := by omega
      rw [List.getD_eq_getElem?_getD, List.getD_eq_getElem?_getD,
        List.getElem?_eq_getElem hlt, List.getElem?_eq_getElem hlt2]
      exact delimiterKind_eq_of_same _ _ (h.get hlt hlt2)
    · have h1 : text.length ≤ pos.toNat := by omega
      have h2 : other.length ≤ pos.toNat := by omega
      rw [List.getD_eq_getElem?_getD, List.getD_eq_getElem?_getD,
        List.getElem?_eq_none h1, List.getElem?_eq_none h2]

theorem moveBlockLoop_same_kind (text other : List Char)
    (h : List.Forall₂ sameDelimiterKind text other) (direction : MoveOperation)
    (startPos : Int) (fuel : Nat) :
    ∀ pos counter : Int, moveBlockLoop text direction startPos fuel pos counter =
      moveBlockLoop other direction startPos fuel pos counter := by
  have hlast : lastPos text direction = lastPos other direction := by
    unfold lastPos characterCount; rw [h.length_eq]
  induction fuel with
  | zero => intro pos counter; rfl
  | succ fuel ih =>
    intro pos counter
    have hk := delimiterKind_characterAt text other h pos
    have hinc : characterAt text pos ∈ incCounterChar direction ↔
        characterAt other pos ∈ incCounterChar direction := by
      rw [mem_incCounterChar_iff, mem_incCounterChar_iff, hk]
    have hdec : characterAt text pos ∈ decCounterChar direction ↔
        characterAt other pos ∈ decCounterChar direction := by
      rw [mem_decCounterChar_iff, mem_decCounterChar_iff, hk]
    rw [moveBlockLoop, moveBlockLoop]
    simp only [hlast, hinc, hdec, ih]

/-- C27: for every text, start position and direction, replacing opening delimiters by
opening delimiters and closing delimiters by closing delimiters leaves the result of
`moveBlock` as it is. -/
theorem moveBlock_ignores_delimiter_kind (text other : List Char) (startPos : Int)
    (direction : MoveOperation) (h : List.Forall₂ sameDelimiterKind text other) :
    moveBlock text startPos direction = moveBlock other startPos direction := by
  have hlast : lastPos text direction = lastPos other direction := by
    unfold lastPos characterCount; rw [h.length_eq]
  have hscan : scanStart text startPos direction = scanStart other startPos direction := by
    unfold scanStart
    have hk := delimiterKind_characterAt text other h (wrapInt (startPos + inc direction))
    have hinc : characterAt text (wrapInt (startPos + inc direction)) ∈
          incCounterChar direction ↔
        characterAt other (wrapInt (startPos + inc direction)) ∈
          incCounterChar direction := by
      rw [mem_incCounterChar_iff, mem_incCounterChar_iff, hk]
    simp only [hinc]
  unfold moveBlock moveBlockFuel
  rw [hlast, hscan, moveBlockLoop_same_kind text other h]

/-- Witness of C27: from the start position 1, before the opening delimiter, the result is
5 in `f(ab)` and in `f[ab\x7d`, where the `[` is matched by a `\x7d`. -/
theorem moveBlock_ignores_delimiter_kind_witness :
    moveBlock "f(ab)".toList 1 NextCharacter = some 5 ∧
      moveBlock "f[ab\x7d".toList 1 NextCharacter = some 5 ∧
      moveBlock "f(ab)".toList 1 NextCharacter = moveBlock "f[ab\x7d".toList 1 NextCharacter :=
  ⟨by decide, by decide,
    moveBlock_ignores_delimiter_kind "f(ab)".toList "f[ab\x7d".toList 1 NextCharacter
      (by
        show List.Forall₂ sameDelimiterKind ['f', '(', 'a', 'b', ')'] ['f', '[', 'a', 'b', '}']
        exact List.Forall₂.cons (Or.inl rfl) (List.Forall₂.cons (Or.inr (by decide))
          (List.Forall₂.cons (Or.inl rfl) (List.Forall₂.cons (Or.inl rfl)
          (List.Forall₂.cons (Or.inr (by decide)) List.Forall₂.nil)))))⟩

end Knut

namespace Knut

/-! ## The resolver: candidates without a common leading character -/

/-- The common length of two paths is positive exactly when both have a first character and
the first characters are equal after lower-casing. -/
theorem commonFilePathLength_pos_iff (toLower : Char → Char) (s1 s2 : QString) :
    0 < commonFilePathLength toLower s1 s2 ↔
      ∃ a rest1 b rest2, s1 = a :: rest1 ∧ s2 = b :: rest2 ∧ toLower a = toLower b := by
  obtain ⟨_, h2, h3, h4⟩ := commonFilePathLengthLoop_spec toLower s1 s2
    (min s1.length s2.length) (min s1.length s2.length) 0 (by omega)
  have hdef : commonFilePathLength toLower s1 s2 =
      commonFilePathLengthLoop toLower s1 s2 (min s1.length s2.length)
        (min s1.length s2.length) 0 := rfl
  rw [← hdef] at h2 h3 h4
  constructor
  · intro hpos
    have heq := h3 0 (le_refl 0) hpos
    cases s1 with
    | nil => simp at h2; omega
    | cons a rest1 =>
      cases s2 with
      | nil => simp at h2; omega
      | cons b rest2 => exact ⟨a, rest1, b, rest2, rfl, rfl, by simpa using heq⟩
  · rintro ⟨a, rest1, b, rest2, e1, e2, hab⟩
    by_contra hzero
    have hz : commonFilePathLength toLower s1 s2 = 0 := by omega
    rw [hz] at h4
    apply h4
    · rw [e1, e2]; simp
    · rw [e1, e2]; simpa using hab

theorem commonFilePathLength_nil (toLower : Char → Char) (s : QString) :
    commonFilePathLength toLower [] s = 0 := by
  simp [commonFilePathLength, commonFilePathLengthLoop]

/-- The project-wide search finds a file exactly when a filtered candidate has a positive
common length with the file of the document, and the file found has one. -/
theorem projectFallback_ne_nil_iff (env : Environment) (fileName : QString) :
    (projectFallback env fileName ≠ [] ↔
        ∃ q ∈ filteredPathNames env fileName,
          0 < commonFilePathLength env.toLower q fileName) ∧
      (projectFallback env fileName ≠ [] →
        0 < commonFilePathLength env.toLower (projectFallback env fileName) fileName) := by
  rcases findBestFileName_spec env.toLower fileName (filteredPathNames env fileName) [] 0 with
    ⟨h1, h2⟩ | ⟨before, after, h1, h2, _, _⟩
  · have e : projectFallback env fileName = [] := h1
    refine ⟨⟨fun h => absurd e h, ?_⟩, fun h => absurd e h⟩
    rintro ⟨q, hq, hpos⟩
    have := h2 q hq
    omega
  · have hpos : 0 < commonFilePathLength env.toLower (projectFallback env fileName)
        fileName := h2
    have hne : projectFallback env fileName ≠ [] := by
      intro e
      rw [e, commonFilePathLength_nil] at hpos
      exact absurd hpos (lt_irrefl 0)
    have hmem : projectFallback env fileName ∈ filteredPathNames env fileName := by
      have e : filteredPathNames env fileName =
          before ++ projectFallback env fileName :: after := h1
      rw [e]; simp
    exact ⟨⟨fun _ => ⟨_, hmem, hpos⟩, fun _ => hne⟩, fun _ => hpos⟩

/-- C28: on a cache miss without a sibling on disk, `correspondingHeaderSource` returns a
non-empty path exactly when some filtered candidate has a positive `commonFilePathLength`
with the file of the document, that is, when their first characters are equal after
lower-casing; a returned path has a positive common length, so a candidate with the common
length 0 is never selected; and the result can be empty although there is a filtered
candidate (`lib/foo.h` for `/p/src/foo.cpp`). -/
theorem fallback_needs_common_leading_character (env : Environment) (cache : Cache)
    (fileName : QString) (hmiss : cache.value fileName = [])
    (hnosibling : ∀ s ∈ matchingSuffixes env.mimeTypes (isHeader fileName),
      env.fileExists (siblingFileName fileName s) = false) :
    ((correspondingHeaderSource env cache fileName).1 ≠ [] ↔
        ∃ q ∈ filteredPathNames env fileName,
          0 < commonFilePathLength env.toLower q fileName) ∧
      ((correspondingHeaderSource env cache fileName).1 ≠ [] →
        0 < commonFilePathLength env.toLower
          (correspondingHeaderSource env cache fileName).1 fileName) ∧
      (∀ q : QString, 0 < commonFilePathLength env.toLower q fileName ↔
        ∃ a rest1 b rest2, q = a :: rest1 ∧ fileName = b :: rest2 ∧
          env.toLower a = env.toLower b) ∧
      filteredPathNames (indexEnvironment ["lib/foo.h".toList]) "/p/src/foo.cpp".toList =
        ["lib/foo.h".toList] ∧
      (correspondingHeaderSource (indexEnvironment ["lib/foo.h".toList]) []
        "/p/src/foo.cpp".toList).1 = [] := by
  have hfb := returned_eq_projectFallback env cache fileName _ hmiss hnosibling rfl
  rw [← hfb]
  exact ⟨(projectFallback_ne_nil_iff env fileName).1, (projectFallback_ne_nil_iff env fileName).2,
    fun q => commonFilePathLength_pos_iff env.toLower q fileName, by decide, by decide⟩

/-- Witness of C28: the document `src/a/foo.cpp` and the index `src/b/foo.h`, without a
file on disk: the result is not empty. -/
theorem fallback_needs_common_leading_character_witness :
    (correspondingHeaderSource (indexEnvironment ["src/b/foo.h".toList]) []
        "src/a/foo.cpp".toList).1 = "src/b/foo.h".toList ∧
      ∃ q ∈ filteredPathNames (indexEnvironment ["src/b/foo.h".toList]) "src/a/foo.cpp".toList,
        0 < commonFilePathLength Char.toLower q "src/a/foo.cpp".toList :=
  ⟨by decide,
    (fallback_needs_common_leading_character (indexEnvironment ["src/b/foo.h".toList]) []
      "src/a/foo.cpp".toList (by decide) (fun _ _ => rfl)).1.mp (by decide)⟩

/-! ## The forward declaration: the effect on the buffer -/

/-- An insertion of a text that is not empty changes the buffer. -/
theorem insertion_ne (text inserted : QString) (position : Nat) (h : inserted ≠ []) :
    text.take position ++ inserted ++ text.drop position ≠ text := by
  intro e
  have hlen := congrArg List.length e
  have hsplit := congrArg List.length (List.take_append_drop position text)
  rw [List.length_append] at hsplit
  rw [List.length_append, List.length_append] at hlen
  have hpos : 0 < inserted.length := List.length_pos.mpr h
  omega

/-- C29: `insertForwardDeclaration` returns true exactly when the buffer after the call
differs from the buffer before it. It returns false and leaves the buffer as it is when the
search finds the un-qualified declaration in the document, or finds no line of `#include`.
Otherwise, for a declaration accepted in a header, it returns true and the buffer is the
one of before with a line break, the generated text and a line break inserted at the end
of the last line of `#include`. -/
theorem insertForwardDeclaration_true_iff_modified (search : DocumentSearch)
    (fileName text fwddecl : QString) :
    ((insertForwardDeclaration search fileName text fwddecl).1 = true ↔
        (insertForwardDeclaration search fileName text fwddecl).2 ≠ text) ∧
      (search.findWholeWords text (unqualifiedDeclaration fwddecl) = true →
        insertForwardDeclaration search fileName text fwddecl = (false, text)) ∧
      (search.lastIncludeLineEnd text = none →
        insertForwardDeclaration search fileName text fwddecl = (false, text)) ∧
      (isHeader fileName = true → fwddecl ≠ [] →
        (classOrStruct fwddecl = "class".toList ∨ classOrStruct fwddecl = "struct".toList) →
        search.findWholeWords text (unqualifiedDeclaration fwddecl) = false →
        ∀ position : Nat, search.lastIncludeLineEnd text = some position →
          insertForwardDeclaration search fileName text fwddecl =
            (true, text.take position ++ ('\n' :: (forwardDeclarationText fwddecl ++ ['\n'])) ++
              text.drop position)) := by
  refine ⟨?_, ?_, ?_, ?_⟩
  · unfold insertForwardDeclaration
    split
    · simp
    · split
      · simp
      · split
        · simp
        · split
          · rename_i position _
            simp only [true_iff]
            exact insertion_ne text _ position (by simp)
          · simp
  · intro hfind
    unfold insertForwardDeclaration
    split
    · rfl
    · split
      · rfl
      · rfl
  · intro hnone
    unfold insertForwardDeclaration
    split
    · rfl
    · split
      · rfl
      · split
        · rfl
        · first
            | rfl
            | rw [hnone]
  · intro hheader hne hk hfind position hinclude
    have hempty : fwddecl.isEmpty = false := by
      cases fwddecl with
      | nil => exact absurd rfl hne
      | cons c rest => rfl
    have hguard : (fwddecl.isEmpty ||
        (decide (classOrStruct fwddecl ≠ "class".toList) &&
          decide (classOrStruct fwddecl ≠ "struct".toList))) = false := by
      rw [hempty]
      rcases hk with e | e <;> rw [e] <;> decide
    unfold insertForwardDeclaration
    rw [hheader, hguard, hfind, hinclude]
    rfl

end Knut

namespace Knut

open MoveOperation

/-- Witness of C29: the declaration `class Gui::Item` in the header `/p/foo.h` with the
buffer `#include <a.h>`, `int x;`. -/
theorem insertForwardDeclaration_true_iff_modified_witness :
    insertForwardDeclaration exampleSearch "/p/foo.h".toList "#include <a.h>\nint x;\n".toList
        "class Gui::Item".toList =
      (true,
        "#include <a.h>\nnamespace Gui \x7b\nclass Item;\n\x7d\n\nint x;\n".toList) :=
  (insertForwardDeclaration_true_iff_modified exampleSearch "/p/foo.h".toList
    "#include <a.h>\nint x;\n".toList "class Gui::Item".toList).2.2.2 (by decide) (by decide)
    (Or.inl (by decide)) (by decide) 14 (by decide)

end Knut
